import Mathlib

/-!
# Block-partitioned external priority queue (`pq.c`)

A shallow embedding of `src/pq.c`.  The queue keeps a directory of block
descriptors `{min, max, size}` laid out as an implicit binary heap, one
in-memory cache slot holding the items of a single block, and a backing file
in which block `i` lives at byte offset `i * BLOCKSIZE`.

Modelling conventions:

* `CACHESIZE` (`BLOCKSIZE / sizeof(int)`, where `BLOCKSIZE` is the platform's
  `BUFSIZ`) is an explicit parameter of every function that depends on it.
* The backing file is a list of `int`s; every offset and length used by the
  program is a multiple of `sizeof(int)`.
* The C sentinel `-1` for `cached_idx` and for the result of `pq_block_find`
  is `none`.
* `nodes` lists the descriptors that have been written so far, including the
  stale ones at positions `>= size`, which `cache_flush` can still read.
* Executions that leave defined behaviour are cut off with a `Fault`.
-/

namespace PQ

/-! ## Constants and data -/

def INT32_MIN : Int := -2147483648
def INT32_MAX : Int := 2147483647

/-- Length of the descriptor array `nodes[PQSIZE]`. -/
def PQSIZE : Nat := 1024

/-- Value range of the C type `int`. -/
def isInt32 (x : Int) : Prop := INT32_MIN ≤ x ∧ x ≤ INT32_MAX

instance (x : Int) : Decidable (isInt32 x) := by
  unfold isInt32; infer_instance

/-- Two's complement reduction of a mathematical integer to 32 bits. -/
def wrap32 (x : Int) : Int := (x + 2147483648) % 4294967296 - 2147483648

/-- Block descriptor `pq_node_t`. -/
structure pq_node where
  min : Int
  max : Int
  size : Nat
deriving DecidableEq, Repr

/-- Queue object `struct pq`; the field `file` stands for the content of the
file behind `fd`. -/
structure pq where
  nodes : List pq_node
  cache : List Int
  cached_idx : Option Nat
  size : Nat
  file : List Int
deriving DecidableEq, Repr

/-- Ways in which an execution stops without returning. -/
inductive Fault where
  /-- `exit(1)` in `pq_enqueue`: no block owns the item. -/
  | coverage
  /-- An array access outside `cache[CACHESIZE]` or `nodes[PQSIZE]`. -/
  | bounds
  /-- One of the two `assert`s of `cache_insert` fails. -/
  | assertion
  /-- The recursion budget of the model is used up. -/
  | fuel
deriving DecidableEq, Repr

/-- Result of `pq_dequeue`: an item, or the underflow branch. -/
inductive dq_result where
  | item (v : Int)
  | underflow
deriving DecidableEq, Repr

deriving instance DecidableEq for Except

/-- Descriptor read at an index (`pq->nodes[idx]`). -/
def node_at (q : pq) (idx : Nat) : pq_node := q.nodes.getD idx ⟨0, 0, 0⟩

/-- Store to `pq->nodes[idx]`, extending the written part of the array when
`idx` is the first unwritten position. -/
def nodes_write (ns : List pq_node) (idx : Nat) (n : pq_node) : List pq_node :=
  if idx < ns.length then ns.set idx n else ns ++ [n]

/-! ## Backing file -/

/-- The calls `lseek(fd, idx * BLOCKSIZE, SEEK_SET); read(fd, buf, BLOCKSIZE)`:
the bytes the file holds in the window replace the front of `buf`; a short
read leaves the rest of `buf` as it was. -/
def file_read (CACHESIZE : Nat) (file : List Int) (idx : Nat) (buf : List Int) : List Int :=
  let got := (file.drop (idx * CACHESIZE)).take CACHESIZE
  got ++ buf.drop got.length

/-- The calls `lseek(fd, idx * BLOCKSIZE, SEEK_SET); write(fd, data, n)`: a
write of zero bytes changes nothing, a write past the end of the file fills
the gap with zeros. -/
def file_write (CACHESIZE : Nat) (file : List Int) (idx : Nat) (data : List Int) : List Int :=
  match data with
  | [] => file
  | _ =>
    let off := idx * CACHESIZE
    let base := file ++ List.replicate (off - file.length) 0
    base.take off ++ data ++ base.drop (off + data.length)

/-! ## Cache -/

def cache_flush_idx (CACHESIZE : Nat) (q : pq) : Option Nat → pq
  | none => q
  | some idx =>
    { q with file := file_write CACHESIZE q.file idx (q.cache.take (node_at q idx).size) }

def cache_flush (CACHESIZE : Nat) (q : pq) : pq :=
  cache_flush_idx CACHESIZE q q.cached_idx

def cache_invalidate (q : pq) : pq := { q with cached_idx := none }

def cache_set (CACHESIZE : Nat) (q : pq) (idx : Nat) : pq :=
  if q.cached_idx ≠ some idx then
    let q1 := cache_flush CACHESIZE q
    { q1 with cache := file_read CACHESIZE q1.file idx q1.cache, cached_idx := some idx }
  else q

/-- The `while` loop of `cache_insert`; the counter is `i + 1`.  `nd` is the
descriptor `pq->nodes[pq->cached_idx]` read by the two `assert`s, absent when
`cached_idx` is `-1`. -/
def cache_insert_loop (nd : Option pq_node) (item : Int) :
    Nat → List Int → Except Fault (List Int)
  | 0, cache => .ok (cache.set 0 item)
  | i + 1, cache =>
    let c := cache.getD i 0
    if c > item then
      match nd with
      | none => .error .bounds
      | some n =>
        if c ≤ n.max ∧ c ≥ n.min then
          cache_insert_loop nd item i (cache.set (i + 1) c)
        else .error .assertion
    else .ok (cache.set (i + 1) item)

/-- Insertion sort step.  Position `size` of the cache is always written, so
the call is inside the array only for `size < CACHESIZE`. -/
def cache_insert (CACHESIZE : Nat) (q : pq) (size : Nat) (item : Int) : Except Fault pq :=
  if size < CACHESIZE then
    match cache_insert_loop (q.cached_idx.map (node_at q)) item size q.cache with
    | .error e => .error e
    | .ok cache => .ok { q with cache := cache }
  else .error .bounds

/-! ## Directory -/

def pq_block_exchange (CACHESIZE : Nat) (q : pq) (idx1 idx2 : Nat) : pq :=
  -- idx1 -> temp
  let q1 := cache_set CACHESIZE q idx1
  let temp := q1.cache.take (node_at q1 idx1).size
  -- idx2 -> idx1
  let q2 := cache_set CACHESIZE q1 idx2
  let q3 := cache_flush_idx CACHESIZE q2 (some idx1)
  -- temp -> idx2
  { q3 with cache := temp ++ q3.cache.drop temp.length }

def pq_heapify (CACHESIZE : Nat) : Nat → pq → Nat → Except Fault pq
  | 0, _, _ => .error .fuel
  | fuel + 1, q, i =>
    let l := 2 * i + 1
    let r := 2 * i + 2
    let largest := if l < q.size ∧ (node_at q l).max > (node_at q i).max then l else i
    let largest := if r < q.size ∧ (node_at q r).max > (node_at q largest).max then r else largest
    if largest ≠ i then
      let q1 := pq_block_exchange CACHESIZE q i largest
      let q2 := { q1 with
        nodes := (q1.nodes.set i (node_at q1 largest)).set largest (node_at q1 i) }
      match pq_heapify CACHESIZE fuel q2 largest with
      | .error e => .error e
      | .ok q3 => .ok (cache_set CACHESIZE q3 i)
    else .ok (cache_set CACHESIZE q i)

def pq_block_find (q : pq) (item : Int) : Nat → Nat → Except Fault (Option Nat)
  | 0, _ => .error .fuel
  | fuel + 1, idx =>
    if idx < q.size then
      if item ≥ (node_at q idx).min ∧ item ≤ (node_at q idx).max then .ok (some idx)
      else
        match pq_block_find q item fuel (2 * idx + 1) with
        | .error e => .error e
        | .ok l =>
          match pq_block_find q item fuel (2 * idx + 2) with
          | .error e => .error e
          | .ok r =>
            if l ≠ none then .ok l
            else if r ≠ none then .ok r
            else .ok none
    else .ok none

/-- The copy loop at the end of `pq_block_split`:
`for (i = 0; i < cnt; i++) cache[i] = cache[i + off]`. -/
def split_copy (off : Nat) : Nat → Nat → List Int → List Int
  | 0, _, cache => cache
  | cnt + 1, i, cache => split_copy off cnt (i + 1) (cache.set i (cache.getD (i + off) 0))

def pq_block_split (CACHESIZE : Nat) (q : pq) (idx : Nat) : Except Fault pq :=
  let node := node_at q idx
  if q.size < PQSIZE ∧ node.size ≤ CACHESIZE ∧ node.size / 2 < CACHESIZE then
    let q1 := cache_flush CACHESIZE q
    -- "median"
    let mid := q1.cache.getD (node.size / 2) 0
    -- upper half of the block
    let new_node : pq_node :=
      { min := wrap32 (mid + 1), max := node.max, size := node.size - node.size / 2 }
    -- lower half of the block
    let node1 : pq_node := { min := node.min, max := mid, size := node.size / 2 }
    .ok { q1 with
      nodes := (nodes_write q1.nodes q1.size new_node).set idx node1
      cached_idx := some q1.size
      cache := split_copy node1.size new_node.size 0 q1.cache
      size := q1.size + 1 }
  else .error .bounds

def pq_insert (CACHESIZE : Nat) (q : pq) (idx : Nat) (item : Int) : Except Fault pq :=
  let q1 := cache_set CACHESIZE q idx
  let node := node_at q1 idx
  match cache_insert CACHESIZE q1 node.size item with
  | .error e => .error e
  | .ok q2 =>
    let q3 := { q2 with nodes := q2.nodes.set idx { node with size := node.size + 1 } }
    if node.size + 1 ≥ CACHESIZE then
      match pq_block_split CACHESIZE q3 idx with
      | .error e => .error e
      | .ok q4 => pq_heapify CACHESIZE (q4.size + 1) q4 0
    else .ok q3

/-! ## Public operations -/

/-- State after a successful `pq_open`.  `mem` is what `malloc` left in the
cache array and `file` what the backing file holds when it is opened. -/
def pq_open (mem : List Int) (file : List Int) : pq :=
  { nodes := [⟨INT32_MIN, INT32_MAX, 0⟩]
    cache := mem
    cached_idx := some 0
    size := 1
    file := file }

def pq_enqueue (CACHESIZE : Nat) (q : pq) (item : Int) : Except Fault pq :=
  match pq_block_find q item (q.size + 1) 0 with
  | .error e => .error e
  | .ok (some idx) => pq_insert CACHESIZE q idx item
  | .ok none => .error .coverage

def pq_dequeue (CACHESIZE : Nat) (q : pq) : Except Fault (dq_result × pq) :=
  if q.size ≠ 0 then
    let node := node_at q 0
    let q1 := cache_set CACHESIZE q 0
    -- `cache[node->size - 1]`
    if 1 ≤ node.size ∧ node.size - 1 < CACHESIZE then
      let item := q1.cache.getD (node.size - 1) 0
      let q2 := { q1 with nodes := q1.nodes.set 0 { node with size := node.size - 1 } }
      if node.size - 1 = 0 then
        let q3 := cache_invalidate (cache_flush CACHESIZE q2)
        let q4 := { q3 with nodes := q3.nodes.set 0 (node_at q3 (q3.size - 1)) }
        let q5 := pq_block_exchange CACHESIZE q4 0 (q4.size - 1)
        let q6 := { q5 with size := q5.size - 1 }
        match pq_heapify CACHESIZE (q6.size + 1) q6 0 with
        | .error e => .error e
        | .ok q7 => .ok (.item item, q7)
      else .ok (.item item, q2)
    else .error .bounds
  else .ok (.underflow, q)

/-! ## Runs -/

/-- Enqueue the items of a list, first to last. -/
def enqueue_all (CACHESIZE : Nat) : pq → List Int → Except Fault pq
  | q, [] => .ok q
  | q, x :: xs =>
    match pq_enqueue CACHESIZE q x with
    | .error e => .error e
    | .ok q1 => enqueue_all CACHESIZE q1 xs

/-- Call `pq_dequeue` a number of times, collecting the results in order. -/
def dequeue_n (CACHESIZE : Nat) : Nat → pq → Except Fault (List dq_result × pq)
  | 0, q => .ok ([], q)
  | n + 1, q =>
    match pq_dequeue CACHESIZE q with
    | .error e => .error e
    | .ok (r, q1) =>
      match dequeue_n CACHESIZE n q1 with
      | .error e => .error e
      | .ok (rs, q2) => .ok (r :: rs, q2)

end PQ

namespace PQ

/-! ## Specification-level notions -/

/-- First `n` items of the image of block `k` in the backing file. -/
def disk_block (CACHESIZE : Nat) (file : List Int) (k n : Nat) : List Int :=
  (file.drop (k * CACHESIZE)).take n

/-- Logical content of block `k`: the first `size` items of the cache when `k`
is the cached block, of the disk image of `k` otherwise. -/
def content (CACHESIZE : Nat) (q : pq) (k : Nat) : List Int :=
  if q.cached_idx = some k then q.cache.take (node_at q k).size
  else disk_block CACHESIZE q.file k (node_at q k).size

/-- All items of block `k` are held by the cache or lie inside the file. -/
def stored (CACHESIZE : Nat) (q : pq) (k : Nat) : Prop :=
  q.cached_idx = some k ∨ (node_at q k).size = 0 ∨
    k * CACHESIZE + (node_at q k).size ≤ q.file.length

end PQ

namespace PQ

/-- States reachable from a freshly opened queue by `pq_enqueue` and
`pq_dequeue` calls that return. -/
inductive Reachable (CACHESIZE : Nat) : pq → Prop where
  | opened (mem file : List Int) (h : mem.length = CACHESIZE) :
      Reachable CACHESIZE (pq_open mem file)
  | enqueue {q q1 : pq} (item : Int) (hi : isInt32 item) (hq : Reachable CACHESIZE q)
      (h : pq_enqueue CACHESIZE q item = .ok q1) : Reachable CACHESIZE q1
  | dequeue {q q1 : pq} {r : dq_result} (hq : Reachable CACHESIZE q)
      (h : pq_dequeue CACHESIZE q = .ok (r, q1)) : Reachable CACHESIZE q1

end PQ

namespace PQ

/-- Index chosen by the two comparisons at the start of `pq_heapify`. -/
def heapify_largest (q : pq) (i : Nat) : Nat :=
  let l := 2 * i + 1
  let r := 2 * i + 2
  let largest := if l < q.size ∧ (node_at q l).max > (node_at q i).max then l else i
  if r < q.size ∧ (node_at q r).max > (node_at q largest).max then r else largest

/-- Capacity bound carried by every written descriptor. -/
def cap_inv (C : Nat) (q : pq) : Prop := ∀ n ∈ q.nodes, n.size < C

/-- Invariant behind the capacity bound: every written descriptor holds fewer
than `CACHESIZE` items and the directory lies inside the written part. -/
def dir_inv (C : Nat) (q : pq) : Prop := cap_inv C q ∧ q.size ≤ q.nodes.length

/-- State of `pq_dequeue` once the root's `size` has been decremented. -/
def dequeue_dec (C : Nat) (q : pq) : pq :=
  { cache_set C q 0 with
    nodes := (cache_set C q 0).nodes.set 0
      ⟨(node_at q 0).min, (node_at q 0).max, (node_at q 0).size - 1⟩ }

/-- State of `pq_dequeue` when it calls `pq_heapify` after an emptied root. -/
def dequeue_compact (C : Nat) (q : pq) : pq :=
  let q3 := cache_invalidate (cache_flush C (dequeue_dec C q))
  let q4 := { q3 with nodes := q3.nodes.set 0 (node_at q3 (q3.size - 1)) }
  let q5 := pq_block_exchange C q4 0 (q4.size - 1)
  { q5 with size := q5.size - 1 }

end PQ

namespace PQ

/-- Insertion into a list that is read from its last element backwards: the
item goes in front of the leading run of elements greater than it. -/
def insert_backwards (item : Int) : List Int → List Int
  | [] => [item]
  | c :: rest => if c > item then c :: insert_backwards item rest else item :: c :: rest

/-- What `cache_insert` makes of the items of a block: the item is placed
behind the last element that is not greater than it. -/
def sorted_insert (item : Int) (l : List Int) : List Int :=
  (insert_backwards item l.reverse).reverse

/-- A directory of one block with range `[lo, hi]` whose items `l` sit in the
cache. -/
def one_block (C : Nat) (q : pq) (lo hi : Int) (l : List Int) : Prop :=
  q.size = 1 ∧ 0 < q.nodes.length ∧ node_at q 0 = ⟨lo, hi, l.length⟩ ∧
    q.cached_idx = some 0 ∧ q.cache.length = C ∧ q.cache.take l.length = l

/-- An operation on the queue. -/
inductive pq_op where
  | enqueue (item : Int)
  | dequeue
deriving DecidableEq, Repr

/-- Run a sequence of operations, collecting what the dequeues return. -/
def run_ops (C : Nat) : pq → List pq_op → Except Fault (List dq_result × pq)
  | q, [] => .ok ([], q)
  | q, .enqueue x :: ops =>
    match pq_enqueue C q x with
    | .error e => .error e
    | .ok q1 => run_ops C q1 ops
  | q, .dequeue :: ops =>
    match pq_dequeue C q with
    | .error e => .error e
    | .ok (r, q1) =>
      match run_ops C q1 ops with
      | .error e => .error e
      | .ok (rs, q2) => .ok (r :: rs, q2)

/-- Enqueue all items into a state, then dequeue as many times. -/
def enqueue_then_dequeue (C : Nat) (q : pq) (xs : List Int) :
    Except Fault (List dq_result × pq) :=
  match enqueue_all C q xs with
  | .error e => .error e
  | .ok q1 => dequeue_n C xs.length q1

end PQ

namespace PQ

/-- Results of a run, when it returns. -/
def run_results : Except Fault (List dq_result × pq) → Option (List dq_result)
  | .ok (rs, _) => some rs
  | .error _ => none

/-- Final state of a run, when it returns. -/
def run_state : Except Fault (List dq_result × pq) → Option pq
  | .ok (_, q) => some q
  | .error _ => none

end PQ

namespace PQ

/-- State of `pq_insert` after `cache_insert` and `node->size++`, before the
capacity test. -/
def insert_state (C : Nat) (q : pq) (idx : Nat) (item : Int) : pq :=
  { cache_set C q idx with
    cache := sorted_insert item ((cache_set C q idx).cache.take (node_at q idx).size)
      ++ (cache_set C q idx).cache.drop ((node_at q idx).size + 1)
    nodes := q.nodes.set idx
      ⟨(node_at q idx).min, (node_at q idx).max, (node_at q idx).size + 1⟩ }

end PQ

namespace PQ

/-- Items of a block after the sorted insertion of `xs`, first to last. -/
def insert_all (xs : List Int) (l : List Int) : List Int :=
  xs.foldl (fun acc x => sorted_insert x acc) l

end PQ

namespace PQ

/-- State produced by `pq_block_split` when its array accesses are in range. -/
def split_state (C : Nat) (q : pq) (idx : Nat) : pq :=
  { cache_flush C q with
    nodes := (nodes_write q.nodes q.size
      ⟨wrap32 (q.cache.getD ((node_at q idx).size / 2) 0 + 1), (node_at q idx).max,
        (node_at q idx).size - (node_at q idx).size / 2⟩).set idx
      ⟨(node_at q idx).min, q.cache.getD ((node_at q idx).size / 2) 0,
        (node_at q idx).size / 2⟩
    cached_idx := some q.size
    cache := split_copy ((node_at q idx).size / 2)
      ((node_at q idx).size - (node_at q idx).size / 2) 0 q.cache
    size := q.size + 1 }

/-- State of `pq_heapify` after `pq_block_exchange` and `XCHG` of the descriptors. -/
def swap_state (C : Nat) (q : pq) (i j : Nat) : pq :=
  { pq_block_exchange C q i j with
    nodes := (q.nodes.set i (node_at q j)).set j (node_at q i) }

end PQ

namespace PQ

/-- A directory of two blocks whose items are held by the cache or the file. -/
def two_block (C : Nat) (q : pq) : Prop :=
  q.size = 2 ∧ 2 ≤ q.nodes.length ∧ q.cache.length = C ∧ C ≤ q.file.length ∧
    (node_at q 0).size < C ∧ (node_at q 1).size < C ∧
    (q.cached_idx = some 0 ∨ q.cached_idx = some 1) ∧ stored C q 1

end PQ

namespace PQ

/-- States met while a fresh queue is filled by enqueues: one block below
capacity with sorted items, or two blocks of which block 1 is sorted, or a
directory of three or more blocks. -/
def enq_phase (C : Nat) (q : pq) : Prop :=
  (∃ l, one_block C q INT32_MIN INT32_MAX l ∧ l.length < C ∧ (∀ y ∈ l, isInt32 y) ∧
      l.Pairwise (fun a b => a ≤ b)) ∨
    (two_block C q ∧ 1 ≤ (node_at q 0).size ∧ 1 ≤ (node_at q 1).size ∧
      (content C q 1).Pairwise (fun a b => a ≤ b)) ∨
    3 ≤ q.size

end PQ



namespace PQ

/-- The value `mid` read by `pq_block_split`: `pq->cache[node->size / 2]`. -/
def split_mid (q : pq) (idx : Nat) : Int := q.cache.getD ((node_at q idx).size / 2) 0

end PQ

namespace PQ

/-- Index `k` lies in the subtree rooted at `i` of the implicit binary tree in
which the children of `i` are `2 * i + 1` and `2 * i + 2`. -/
inductive in_subtree : Nat → Nat → Prop where
  | root (i : Nat) : in_subtree i i
  | left {i k : Nat} (h : in_subtree (2 * i + 1) k) : in_subtree i k
  | right {i k : Nat} (h : in_subtree (2 * i + 2) k) : in_subtree i k

/-- The test of `pq_block_find`: the item lies in the range of descriptor `idx`. -/
def in_range (q : pq) (item : Int) (idx : Nat) : Bool :=
  decide (item ≥ (node_at q idx).min ∧ item ≤ (node_at q idx).max)

/-- Pre-order listing (node, then left subtree, then right subtree) of the
indices below `size` in the subtree rooted at `idx`, down to a given depth. -/
def preorder (size : Nat) : Nat → Nat → List Nat
  | 0, _ => []
  | depth + 1, idx =>
    if idx < size then
      idx :: (preorder size depth (2 * idx + 1) ++ preorder size depth (2 * idx + 2))
    else []

end PQ

namespace PQ

/-- Heap order on `max` in the subtree rooted at `j`: every node of the subtree
that lies in the directory has a `max` not below the `max` of each of its
children. -/
def heap_at (q : pq) (j : Nat) : Prop :=
  ∀ k, in_subtree j k → k < q.size →
    (2 * k + 1 < q.size → (node_at q (2 * k + 1)).max ≤ (node_at q k).max) ∧
    (2 * k + 2 < q.size → (node_at q (2 * k + 2)).max ≤ (node_at q k).max)

/-- What one call `pq_heapify(i)` does at position `i`, from state `q` to state
`q1`: nothing is swapped when no child has a greater `max`; otherwise the
descriptor of the left child comes to `i` when its `max` is greater than that
of `i` and not below that of the right child, and the descriptor of the right
child when its `max` is greater than both. -/
def sift_rule (q q1 : pq) (i : Nat) : Prop :=
  ((2 * i + 1 < q.size → (node_at q (2 * i + 1)).max ≤ (node_at q i).max) ∧
      (2 * i + 2 < q.size → (node_at q (2 * i + 2)).max ≤ (node_at q i).max) ∧
      q1.nodes = q.nodes) ∨
    (2 * i + 1 < q.size ∧ (node_at q (2 * i + 1)).max > (node_at q i).max ∧
      (2 * i + 2 < q.size → (node_at q (2 * i + 2)).max ≤ (node_at q (2 * i + 1)).max) ∧
      node_at q1 i = node_at q (2 * i + 1)) ∨
    (2 * i + 2 < q.size ∧ (node_at q (2 * i + 2)).max > (node_at q i).max ∧
      (2 * i + 1 < q.size → (node_at q (2 * i + 1)).max < (node_at q (2 * i + 2)).max) ∧
      node_at q1 i = node_at q (2 * i + 2))

end PQ

namespace PQ

/-- A directory of four descriptors whose root has the smallest `max`. -/
def sample_heap : pq :=
  ⟨[⟨0, 1, 1⟩, ⟨2, 9, 1⟩, ⟨3, 5, 1⟩, ⟨4, 7, 1⟩], [0, 0, 0, 0], some 0, 4, []⟩

end PQ
namespace PQ

theorem file_read_length (C : Nat) (file : List Int) (k : Nat) (buf : List Int)
    (h : buf.length = C) : (file_read C file k buf).length = C := by
  simp only [file_read, List.length_append, List.length_take, List.length_drop]
  omega

theorem file_read_take (C : Nat) (file : List Int) (k n : Nat) (buf : List Int)
    (hn : n ≤ C) (hf : k * C + n ≤ file.length) :
    (file_read C file k buf).take n = disk_block C file k n := by
  simp only [file_read, disk_block]
  rw [List.take_append_of_le_length (by simp; omega)]
  rw [List.take_take]
  simp [hn]

theorem file_write_length_le (C : Nat) (file : List Int) (i : Nat) (d : List Int) :
    file.length ≤ (file_write C file i d).length := by
  cases d with
  | nil => simp [file_write]
  | cons a t =>
    simp only [file_write, List.length_append, List.length_take, List.length_drop,
      List.length_replicate, List.length_cons]
    omega

theorem file_write_length_ge (C : Nat) (file : List Int) (i : Nat) (d : List Int)
    (hd : d ≠ []) : i * C + d.length ≤ (file_write C file i d).length := by
  cases d with
  | nil => exact absurd rfl hd
  | cons a t =>
    simp only [file_write, List.length_append, List.length_take, List.length_drop,
      List.length_replicate, List.length_cons]
    omega

theorem disk_block_write_same (C : Nat) (file : List Int) (i : Nat) (d : List Int) :
    disk_block C (file_write C file i d) i d.length = d := by
  cases d with
  | nil => simp [disk_block]
  | cons a t =>
    simp only [file_write, disk_block]
    have h1 : ((file ++ List.replicate (i * C - file.length) 0).take (i * C)).length = i * C := by
      simp; omega
    rw [List.append_assoc, List.drop_append_of_le_length (by omega)]
    rw [List.drop_of_length_le (by omega), List.nil_append]
    rw [List.take_append_of_le_length (by simp)]
    simp

theorem disk_block_write_other (C : Nat) (file : List Int) (i k n : Nat) (d : List Int)
    (hik : k ≠ i) (hd : d.length ≤ C) (hn : n ≤ C) (hf : k * C + n ≤ file.length) :
    disk_block C (file_write C file i d) k n = disk_block C file k n := by
  cases d with
  | nil => simp [file_write]
  | cons a t =>
    simp only [file_write, disk_block]
    apply List.ext_getElem?
    intro p
    simp only [List.getElem?_take, List.getElem?_drop]
    by_cases hp : p < n
    · simp only [hp, if_true]
      have hlt : k < i ∨ i < k := by omega
      have hmul : (k < i → (k + 1) * C ≤ i * C) ∧ (i < k → (i + 1) * C ≤ k * C) :=
        ⟨fun h => Nat.mul_le_mul_right C h, fun h => Nat.mul_le_mul_right C h⟩
      have e1 : (k + 1) * C = k * C + C := by ring
      have e2 : (i + 1) * C = i * C + C := by ring
      simp only [List.length_cons] at hd
      rw [List.append_assoc]
      rcases hlt with h | h
      · have := hmul.1 h
        rw [List.getElem?_append_left (by simp; omega)]
        rw [List.getElem?_take]
        rw [if_pos (by omega)]
        rw [List.getElem?_append_left (by omega)]
      · have := hmul.2 h
        rw [List.getElem?_append_right (by simp; omega)]
        rw [List.getElem?_append_right (by simp; omega)]
        simp only [List.getElem?_drop, List.length_take, List.length_append,
          List.length_replicate, List.length_cons]
        rw [List.getElem?_append_left (by omega)]
        congr 1
        omega
    · simp [hp]
end PQ
namespace PQ

@[simp] theorem cache_flush_idx_nodes (C : Nat) (q : pq) (o : Option Nat) :
    (cache_flush_idx C q o).nodes = q.nodes := by cases o <;> rfl
@[simp] theorem cache_flush_idx_size (C : Nat) (q : pq) (o : Option Nat) :
    (cache_flush_idx C q o).size = q.size := by cases o <;> rfl
@[simp] theorem cache_flush_idx_cache (C : Nat) (q : pq) (o : Option Nat) :
    (cache_flush_idx C q o).cache = q.cache := by cases o <;> rfl
@[simp] theorem cache_flush_idx_cached (C : Nat) (q : pq) (o : Option Nat) :
    (cache_flush_idx C q o).cached_idx = q.cached_idx := by cases o <;> rfl

@[simp] theorem cache_set_nodes (C : Nat) (q : pq) (idx : Nat) :
    (cache_set C q idx).nodes = q.nodes := by
  unfold cache_set cache_flush; split <;> simp
@[simp] theorem cache_set_size (C : Nat) (q : pq) (idx : Nat) :
    (cache_set C q idx).size = q.size := by
  unfold cache_set cache_flush; split <;> simp
@[simp] theorem cache_set_cached (C : Nat) (q : pq) (idx : Nat) :
    (cache_set C q idx).cached_idx = some idx := by
  unfold cache_set cache_flush; split
  · simp
  · rename_i h; simpa using h
@[simp] theorem cache_set_node_at (C : Nat) (q : pq) (idx k : Nat) :
    node_at (cache_set C q idx) k = node_at q k := by
  simp [node_at]
theorem cache_set_cache_length (C : Nat) (q : pq) (idx : Nat) (h : q.cache.length = C) :
    (cache_set C q idx).cache.length = C := by
  unfold cache_set cache_flush; split
  · simp [file_read_length, h]
  · exact h
theorem cache_set_file_length (C : Nat) (q : pq) (idx : Nat) :
    q.file.length ≤ (cache_set C q idx).file.length := by
  unfold cache_set cache_flush; split
  · cases hc : q.cached_idx with
    | none => simp [cache_flush_idx]
    | some c => simp [cache_flush_idx, file_write_length_le]
  · exact le_refl _

/-- The cache is transparent: `cache_set` keeps the logical content of every
stored block. -/
theorem cache_set_content (C : Nat) (q : pq) (idx k : Nat)
    (hlen : q.cache.length = C)
    (hc : ∀ c, q.cached_idx = some c → (node_at q c).size ≤ C)
    (hk : (node_at q k).size ≤ C) (hs : stored C q k) :
    stored C (cache_set C q idx) k ∧ content C (cache_set C q idx) k = content C q k := by
  by_cases hidx : q.cached_idx = some idx
  · have : cache_set C q idx = q := by simp [cache_set, hidx]
    rw [this]; exact ⟨hs, rfl⟩
  · cases hcd : q.cached_idx with
    | none =>
      have hq : cache_set C q idx
          = { q with cache := file_read C q.file idx q.cache, cached_idx := some idx } := by
        simp [cache_set, cache_flush, hcd, cache_flush_idx]
      rw [hq]
      rcases hs with hs | hs | hs
      · rw [hcd] at hs; cases hs
      · simp [stored, content, node_at] at *
        simp [hs, hcd, disk_block]
      · by_cases hki : k = idx
        · subst hki
          refine ⟨Or.inl rfl, ?_⟩
          simp only [content, hcd, if_true]
          rw [if_neg (by simp)]
          exact file_read_take C q.file k _ q.cache hk hs
        · refine ⟨Or.inr (Or.inr hs), ?_⟩
          simp only [content, hcd, node_at]
          have : ¬ (some idx = some k) := by
            intro h; injection h with h; exact hki h.symm
          simp [this]
    | some c =>
      have hci : c ≠ idx := by
        intro h; apply hidx; rw [hcd, h]
      have hcsz := hc c hcd
      have hq : cache_set C q idx
          = { q with cache := file_read C (file_write C q.file c (q.cache.take (node_at q c).size)) idx q.cache,
                     cached_idx := some idx,
                     file := file_write C q.file c (q.cache.take (node_at q c).size) } := by
        simp [cache_set, cache_flush, hcd, cache_flush_idx, hci]
      rw [hq]
      have hdl : (q.cache.take (node_at q c).size).length = (node_at q c).size := by
        simp [hlen]; exact hcsz
      by_cases hkc : k = c
      · subst hkc
        have hne : ¬ (some idx = some k) := by
          intro h; injection h with h; exact hci h.symm
        constructor
        · right
          by_cases h0 : (node_at q k).size = 0
          · left; simpa [node_at] using h0
          · right
            have := file_write_length_ge C q.file k (q.cache.take (node_at q k).size)
              (by intro h; rw [h] at hdl; simp at hdl; exact h0 hdl.symm)
            rw [hdl] at this
            simpa [node_at] using this
        · simp only [content, hcd, node_at, hne, if_false, if_true]
          have := disk_block_write_same C q.file k (q.cache.take (node_at q k).size)
          rw [hdl] at this
          simpa [node_at] using this
      · have hnk : ¬ (some c = some k) := by
          intro h; injection h with h; exact hkc h.symm
        rcases hs with hs | hs | hs
        · rw [hcd] at hs; exact absurd hs hnk
        · simp [stored, content, node_at] at *
          simp [hs, hcd, disk_block]
        · have hle := file_write_length_le C q.file c (q.cache.take (node_at q c).size)
          have hother := disk_block_write_other C q.file c k (node_at q k).size
            (q.cache.take (node_at q c).size) hkc (by rw [hdl]; exact hcsz) hk hs
          by_cases hki : k = idx
          · subst hki
            refine ⟨Or.inl rfl, ?_⟩
            simp only [content, hcd, node_at, hnk, if_false, if_true] at *
            rw [← hother]
            exact file_read_take C _ k _ q.cache hk (le_trans hs hle)
          · have hne : ¬ (some idx = some k) := by
              intro h; injection h with h; exact hki h.symm
            refine ⟨Or.inr (Or.inr (le_trans hs hle)), ?_⟩
            simp only [content, hcd, node_at, hne, hnk, if_false] at *
            exact hother
end PQ
namespace PQ

theorem node_at_mem_or (q : pq) (k : Nat) : node_at q k ∈ q.nodes ∨ node_at q k = ⟨0, 0, 0⟩ := by
  unfold node_at
  by_cases h : k < q.nodes.length
  · left
    rw [List.getD_eq_getElem _ _ h]
    exact List.getElem_mem _
  · right
    exact List.getD_eq_default _ _ (by omega)

@[simp] theorem pq_block_exchange_nodes (C : Nat) (q : pq) (i j : Nat) :
    (pq_block_exchange C q i j).nodes = q.nodes := by
  simp [pq_block_exchange, cache_flush_idx]
@[simp] theorem pq_block_exchange_size (C : Nat) (q : pq) (i j : Nat) :
    (pq_block_exchange C q i j).size = q.size := by
  simp [pq_block_exchange, cache_flush_idx]
@[simp] theorem pq_block_exchange_cached (C : Nat) (q : pq) (i j : Nat) :
    (pq_block_exchange C q i j).cached_idx = some j := by
  simp [pq_block_exchange, cache_flush_idx]
@[simp] theorem pq_block_exchange_node_at (C : Nat) (q : pq) (i j k : Nat) :
    node_at (pq_block_exchange C q i j) k = node_at q k := by
  simp [node_at]

theorem pq_block_exchange_cache_length (C : Nat) (q : pq) (i j : Nat) (h : q.cache.length = C) :
    (pq_block_exchange C q i j).cache.length = C := by
  have h2 := cache_set_cache_length C _ j (cache_set_cache_length C q i h)
  have h1 := cache_set_cache_length C q i h
  simp only [pq_block_exchange, cache_flush_idx, List.length_append, List.length_take,
    List.length_drop]
  omega

theorem pq_heapify_succ (C fuel : Nat) (q : pq) (i : Nat) :
    pq_heapify C (fuel + 1) q i =
      if heapify_largest q i ≠ i then
        match pq_heapify C fuel
          { pq_block_exchange C q i (heapify_largest q i) with
            nodes := ((pq_block_exchange C q i (heapify_largest q i)).nodes.set i
              (node_at (pq_block_exchange C q i (heapify_largest q i)) (heapify_largest q i))).set
                (heapify_largest q i) (node_at (pq_block_exchange C q i (heapify_largest q i)) i) }
          (heapify_largest q i) with
        | .error e => .error e
        | .ok q3 => .ok (cache_set C q3 i)
      else .ok (cache_set C q i) := rfl

theorem heapify_largest_cases (q : pq) (i : Nat) :
    heapify_largest q i = i ∨
      (i < heapify_largest q i ∧ heapify_largest q i < q.size) := by
  unfold heapify_largest
  simp only
  split <;> split <;> omega

/-- Sift-down keeps every property of descriptors that the default descriptor has. -/
theorem pq_heapify_nodes (C : Nat) (P : pq_node → Prop) (hP : P ⟨0, 0, 0⟩) :
    ∀ (fuel : Nat) (q : pq) (i : Nat) (q1 : pq), pq_heapify C fuel q i = .ok q1 →
      (∀ n ∈ q.nodes, P n) → (∀ n ∈ q1.nodes, P n) ∧ q1.size = q.size := by
  intro fuel
  induction fuel with
  | zero => intro q i q1 h; simp [pq_heapify] at h
  | succ fuel ih =>
    intro q i q1 h hq
    have hat : ∀ k, P (node_at q k) := by
      intro k
      rcases node_at_mem_or q k with h | h
      · exact hq _ h
      · rw [h]; exact hP
    rw [pq_heapify_succ] at h
    generalize heapify_largest q i = m at h
    by_cases hm : m = i
    · rw [if_neg (by simpa using hm)] at h
      injection h with h
      subst h
      simpa using hq
    · rw [if_pos hm] at h
      split at h
      · cases h
      · rename_i q3 h3
        injection h with h
        subst h
        have := ih _ _ _ h3 (by
          intro n hn
          simp only [pq_block_exchange_nodes, pq_block_exchange_node_at] at hn
          rcases List.mem_or_eq_of_mem_set hn with hn | hn
          · rcases List.mem_or_eq_of_mem_set hn with hn | hn
            · exact hq _ hn
            · rw [hn]; exact hat _
          · rw [hn]; exact hat _)
        simpa using this

/-- With a budget above `size - i` the sift-down from `i` returns. -/
theorem pq_heapify_returns (C : Nat) :
    ∀ (fuel : Nat) (q : pq) (i : Nat), q.size < i + fuel → 0 < fuel →
      ∃ q1, pq_heapify C fuel q i = .ok q1 := by
  intro fuel
  induction fuel with
  | zero =>
    intro q i _ h0
    omega
  | succ fuel ih =>
    intro q i h _
    rw [pq_heapify_succ]
    rcases heapify_largest_cases q i with hm | ⟨hm1, hm2⟩
    · rw [if_neg (by simpa using hm)]
      exact ⟨_, rfl⟩
    · rw [if_pos (by omega)]
      obtain ⟨q3, h3⟩ := ih
        { pq_block_exchange C q i (heapify_largest q i) with
            nodes := ((pq_block_exchange C q i (heapify_largest q i)).nodes.set i
              (node_at (pq_block_exchange C q i (heapify_largest q i)) (heapify_largest q i))).set
                (heapify_largest q i) (node_at (pq_block_exchange C q i (heapify_largest q i)) i) }
        (heapify_largest q i) (by simp; omega) (by omega)
      rw [h3]
      exact ⟨_, rfl⟩

theorem mem_split_nodes (l : List pq_node) (idx s : Nat) (big new node1 n : pq_node)
    (h : n ∈ (nodes_write (l.set idx big) s new).set idx node1) :
    n ∈ l ∨ n = new ∨ n = node1 := by
  obtain ⟨j, hj, rfl⟩ := List.getElem_of_mem h
  rw [List.getElem_set]
  split
  · right; right; rfl
  · rename_i hne
    simp only [nodes_write]
    split
    · rw [List.getElem_set]
      split
      · right; left; rfl
      · rw [List.getElem_set, if_neg hne]
        left; exact List.getElem_mem _
    · rw [List.getElem_append]
      split
      · rw [List.getElem_set, if_neg hne]
        left; exact List.getElem_mem _
      · right; left; simp

end PQ
namespace PQ

theorem cache_insert_ok (C : Nat) (q q2 : pq) (size : Nat) (item : Int)
    (h : cache_insert C q size item = .ok q2) :
    size < C ∧ q2.nodes = q.nodes ∧ q2.size = q.size ∧ q2.cached_idx = q.cached_idx ∧
      q2.file = q.file ∧
      cache_insert_loop (q.cached_idx.map (node_at q)) item size q.cache = .ok q2.cache := by
  unfold cache_insert at h
  split at h
  · rename_i hs
    split at h
    · cases h
    · rename_i cache hl
      injection h with h
      subst h
      exact ⟨hs, rfl, rfl, rfl, rfl, hl⟩
  · cases h

theorem pq_block_split_ok (C : Nat) (q q4 : pq) (idx : Nat)
    (h : pq_block_split C q idx = .ok q4) :
    q.size < PQSIZE ∧ (node_at q idx).size ≤ C ∧ (node_at q idx).size / 2 < C ∧
    q4 = { cache_flush C q with
      nodes := (nodes_write q.nodes q.size
        { min := wrap32 ((cache_flush C q).cache.getD ((node_at q idx).size / 2) 0 + 1),
          max := (node_at q idx).max,
          size := (node_at q idx).size - (node_at q idx).size / 2 }).set idx
        { min := (node_at q idx).min,
          max := (cache_flush C q).cache.getD ((node_at q idx).size / 2) 0,
          size := (node_at q idx).size / 2 }
      cached_idx := some q.size
      cache := split_copy ((node_at q idx).size / 2)
        ((node_at q idx).size - (node_at q idx).size / 2) 0 q.cache
      size := q.size + 1 } := by
  unfold pq_block_split at h
  simp only at h
  split at h
  · rename_i hc
    injection h with h
    subst h
    refine ⟨hc.1, hc.2.1, hc.2.2, ?_⟩
    simp [cache_flush]
  · cases h

theorem node_at_set_self (ns : List pq_node) (c : List Int) (ci : Option Nat) (s : Nat)
    (f : List Int) (idx : Nat) (n : pq_node) (h : idx < ns.length) :
    node_at ⟨ns.set idx n, c, ci, s, f⟩ idx = n := by
  simp only [node_at]
  rw [List.getD_eq_getElem _ _ (by simpa using h)]
  simp

theorem node_at_set_other (ns : List pq_node) (c : List Int) (ci : Option Nat) (s : Nat)
    (f : List Int) (idx k : Nat) (n : pq_node) (h : idx ≠ k) :
    node_at ⟨ns.set idx n, c, ci, s, f⟩ k = node_at ⟨ns, c, ci, s, f⟩ k := by
  simp only [node_at, List.getD_eq_getElem?_getD]
  rw [List.getElem?_set_ne h]

theorem pq_insert_cap (C : Nat) (hC : 2 ≤ C) (q q1 : pq) (idx : Nat) (item : Int)
    (hidx : idx < q.nodes.length)
    (h : pq_insert C q idx item = .ok q1) (hq : cap_inv C q) : cap_inv C q1 := by
  unfold pq_insert at h
  simp only at h
  split at h
  · cases h
  · rename_i q2 h2
    obtain ⟨hs, hn2, hsz2, -, -, -⟩ := cache_insert_ok _ _ _ _ _ h2
    simp only [cache_set_node_at, cache_set_nodes] at hs hn2 h
    split at h
    · rename_i hge
      split at h
      · cases h
      · rename_i q4 h4
        obtain ⟨-, -, -, hq4⟩ := pq_block_split_ok _ _ _ _ h4
        rw [node_at_set_self _ _ _ _ _ _ _ (by rw [hn2]; exact hidx)] at hq4
        simp only at hq4
        have hsz : (node_at q idx).size + 1 = C := by omega
        have hq4c : cap_inv C q4 := by
          intro n hn
          rw [hq4] at hn
          simp only [cache_flush, cache_flush_idx_nodes] at hn
          rcases mem_split_nodes _ _ _ _ _ _ _ hn with hn | hn | hn
          · rw [hn2] at hn; exact hq _ hn
          · rw [hn]; simp only; omega
          · rw [hn]; simp only; omega
        exact (pq_heapify_nodes C (fun n => n.size < C) (by simp; omega) _ _ _ _ h hq4c).1
    · rename_i hlt
      injection h with h
      subst h
      intro n hn
      simp only [hn2] at hn
      rcases List.mem_or_eq_of_mem_set hn with hn | hn
      · exact hq _ hn
      · rw [hn]; simp only; omega

end PQ
namespace PQ

theorem pq_heapify_length (C : Nat) :
    ∀ (fuel : Nat) (q : pq) (i : Nat) (q1 : pq), pq_heapify C fuel q i = .ok q1 →
      q1.nodes.length = q.nodes.length := by
  intro fuel
  induction fuel with
  | zero => intro q i q1 h; simp [pq_heapify] at h
  | succ fuel ih =>
    intro q i q1 h
    rw [pq_heapify_succ] at h
    generalize heapify_largest q i = m at h
    by_cases hm : m = i
    · rw [if_neg (by simpa using hm)] at h
      injection h with h
      subst h
      simp
    · rw [if_pos hm] at h
      split at h
      · cases h
      · rename_i q3 h3
        injection h with h
        subst h
        have := ih _ _ _ h3
        simpa using this

theorem pq_block_find_some (q : pq) (item : Int) :
    ∀ (fuel idx k : Nat), pq_block_find q item fuel idx = .ok (some k) →
      k < q.size ∧ (node_at q k).min ≤ item ∧ item ≤ (node_at q k).max := by
  intro fuel
  induction fuel with
  | zero => intro idx k h; simp [pq_block_find] at h
  | succ fuel ih =>
    intro idx k h
    simp only [pq_block_find] at h
    split at h
    · rename_i hlt
      split at h
      · rename_i hin
        injection h with h
        injection h with h
        subst h
        exact ⟨hlt, hin.1, hin.2⟩
      · split at h
        · cases h
        · rename_i l hl
          split at h
          · cases h
          · rename_i r hr
            split at h
            · injection h with h
              subst h
              exact ih _ _ hl
            · split at h
              · injection h with h
                subst h
                exact ih _ _ hr
              · cases h
    · cases h

theorem nodes_write_length (ns : List pq_node) (s : Nat) (n : pq_node) (h : s ≤ ns.length) :
    s + 1 ≤ (nodes_write ns s n).length := by
  unfold nodes_write
  split
  · simp; omega
  · simp; omega

theorem pq_block_split_dir (C : Nat) (q q4 : pq) (idx : Nat)
    (h : pq_block_split C q idx = .ok q4) (hq : q.size ≤ q.nodes.length) :
    q4.size ≤ q4.nodes.length := by
  obtain ⟨-, -, -, hq4⟩ := pq_block_split_ok _ _ _ _ h
  rw [hq4]
  simp only [List.length_set]
  exact nodes_write_length _ _ _ hq

theorem pq_insert_dir (C : Nat) (q q1 : pq) (idx : Nat) (item : Int)
    (h : pq_insert C q idx item = .ok q1) (hq : q.size ≤ q.nodes.length) :
    q1.size ≤ q1.nodes.length := by
  unfold pq_insert at h
  simp only at h
  split at h
  · cases h
  · rename_i q2 h2
    obtain ⟨hs, hn2, hsz2, -, -, -⟩ := cache_insert_ok _ _ _ _ _ h2
    simp only [cache_set_node_at, cache_set_nodes, cache_set_size] at hs hn2 hsz2 h
    split at h
    · split at h
      · cases h
      · rename_i q4 h4
        have h4d := pq_block_split_dir _ _ _ _ h4 (by simp [hn2, hsz2, hq])
        have h5 := pq_heapify_length _ _ _ _ _ h
        have h6 := (pq_heapify_nodes C (fun _ => True) trivial _ _ _ _ h (fun _ _ => trivial)).2
        rw [h5, h6]
        exact h4d
    · injection h with h
      subst h
      simp [hn2, hsz2, hq]

theorem pq_enqueue_dir_inv (C : Nat) (hC : 2 ≤ C) (q q1 : pq) (item : Int)
    (h : pq_enqueue C q item = .ok q1) (hq : dir_inv C q) : dir_inv C q1 := by
  unfold pq_enqueue at h
  split at h
  · cases h
  · rename_i idx hf
    have hlt := (pq_block_find_some _ _ _ _ _ hf).1
    exact ⟨pq_insert_cap C hC q q1 idx item (lt_of_lt_of_le hlt hq.2) h hq.1,
      pq_insert_dir C q q1 idx item h hq.2⟩
  · cases h

theorem pq_dequeue_eq (C : Nat) (q : pq) :
    pq_dequeue C q =
      if q.size ≠ 0 then
        if 1 ≤ (node_at q 0).size ∧ (node_at q 0).size - 1 < C then
          if (node_at q 0).size - 1 = 0 then
            match pq_heapify C ((dequeue_compact C q).size + 1) (dequeue_compact C q) 0 with
            | .error e => .error e
            | .ok q7 =>
              .ok (.item ((cache_set C q 0).cache.getD ((node_at q 0).size - 1) 0), q7)
          else .ok (.item ((cache_set C q 0).cache.getD ((node_at q 0).size - 1) 0),
            dequeue_dec C q)
        else .error .bounds
      else .ok (.underflow, q) := rfl

@[simp] theorem dequeue_dec_size (C : Nat) (q : pq) : (dequeue_dec C q).size = q.size := by
  simp [dequeue_dec]
@[simp] theorem dequeue_dec_nodes (C : Nat) (q : pq) :
    (dequeue_dec C q).nodes
      = q.nodes.set 0 ⟨(node_at q 0).min, (node_at q 0).max, (node_at q 0).size - 1⟩ := by
  simp [dequeue_dec]
@[simp] theorem dequeue_compact_size (C : Nat) (q : pq) :
    (dequeue_compact C q).size = q.size - 1 := by
  simp [dequeue_compact, cache_invalidate, cache_flush]
@[simp] theorem dequeue_compact_nodes (C : Nat) (q : pq) :
    (dequeue_compact C q).nodes
      = (q.nodes.set 0 ⟨(node_at q 0).min, (node_at q 0).max, (node_at q 0).size - 1⟩).set 0
          (node_at (dequeue_dec C q) (q.size - 1)) := by
  simp [dequeue_compact, cache_invalidate, cache_flush, node_at]

theorem pq_dequeue_dir_inv (C : Nat) (hC : 2 ≤ C) (q q1 : pq) (r : dq_result)
    (h : pq_dequeue C q = .ok (r, q1)) (hq : dir_inv C q) : dir_inv C q1 := by
  have hat : ∀ k, (node_at q k).size < C := by
    intro k
    rcases node_at_mem_or q k with h | h
    · exact hq.1 _ h
    · rw [h]; simp only; omega
  have hdec : cap_inv C (dequeue_dec C q) := by
    intro n hn
    rw [dequeue_dec_nodes] at hn
    rcases List.mem_or_eq_of_mem_set hn with hn | hn
    · exact hq.1 _ hn
    · rw [hn]; simp only; have := hat 0; omega
  rw [pq_dequeue_eq] at h
  split at h
  · split at h
    · split at h
      · split at h
        · cases h
        · rename_i q7 h7
          injection h with h
          injection h with _ h
          subst h
          have hc : cap_inv C (dequeue_compact C q) := by
            intro n hn
            rw [dequeue_compact_nodes] at hn
            rcases List.mem_or_eq_of_mem_set hn with hn | hn
            · rw [← dequeue_dec_nodes C q] at hn
              exact hdec _ hn
            · rw [hn]
              rcases node_at_mem_or (dequeue_dec C q) (q.size - 1) with h | h
              · exact hdec _ h
              · rw [h]; simp only; omega
          have hP := pq_heapify_nodes C (fun n => n.size < C) (by simp only; omega) _ _ _ _ h7 hc
          have hL := pq_heapify_length _ _ _ _ _ h7
          refine ⟨hP.1, ?_⟩
          rw [hP.2, hL, dequeue_compact_size, dequeue_compact_nodes]
          simp only [List.length_set]
          have := hq.2
          omega
      · injection h with h
        injection h with _ h
        subst h
        refine ⟨hdec, ?_⟩
        simpa using hq.2
    · cases h
  · injection h with h
    injection h with _ h
    subst h
    exact hq

theorem reachable_dir_inv (C : Nat) (hC : 2 ≤ C) (q : pq) (hr : Reachable C q) :
    dir_inv C q := by
  induction hr with
  | opened mem file h =>
    constructor
    · intro n hn
      simp only [pq_open, List.mem_singleton] at hn
      rw [hn]; simp only; omega
    · simp [pq_open]
  | enqueue item hi hq h ih => exact pq_enqueue_dir_inv C hC _ _ item h ih
  | dequeue hq h ih => exact pq_dequeue_dir_inv C hC _ _ _ h ih

theorem reachable_enqueue_all (C : Nat) :
    ∀ (xs : List Int) (q q1 : pq), Reachable C q → (∀ x ∈ xs, isInt32 x) →
      enqueue_all C q xs = .ok q1 → Reachable C q1 := by
  intro xs
  induction xs with
  | nil =>
    intro q q1 hq _ h
    simp only [enqueue_all] at h
    injection h with h
    subst h
    exact hq
  | cons x xs ih =>
    intro q q1 hq hx h
    simp only [enqueue_all] at h
    split at h
    · cases h
    · rename_i q2 h2
      exact ih q2 q1 (Reachable.enqueue x (hx x (by simp)) hq h2)
        (fun y hy => hx y (by simp [hy])) h

theorem cache_insert_loop_no_bounds (nd : pq_node) (item : Int) :
    ∀ (i : Nat) (cache : List Int),
      cache_insert_loop (some nd) item i cache ≠ .error .bounds := by
  intro i
  induction i with
  | zero => intro cache h; simp [cache_insert_loop] at h
  | succ i ih =>
    intro cache h
    simp only [cache_insert_loop] at h
    split at h
    · split at h
      · exact ih _ h
      · cases h
    · cases h

/-- C7: with capacity at least two, every descriptor of a reachable state
(at an index below `size`, and also a stale one above) holds at most
`CACHESIZE` items, and the sorted insertion into any block stays inside the
cache array. -/
theorem capacity_invariant (C : Nat) (hC : 2 ≤ C) (q : pq) (hr : Reachable C q) (k : Nat) :
    (node_at q k).size ≤ C ∧
      ∀ item, cache_insert C (cache_set C q k) (node_at q k).size item ≠ .error .bounds := by
  have hinv := reachable_dir_inv C hC q hr
  have hlt : (node_at q k).size < C := by
    rcases node_at_mem_or q k with h | h
    · exact hinv.1 _ h
    · rw [h]; simp only; omega
  refine ⟨le_of_lt hlt, ?_⟩
  intro item
  unfold cache_insert
  rw [if_pos hlt, cache_set_cached]
  simp only [Option.map_some']
  split
  · rename_i e he
    intro h
    injection h with h
    subst h
    exact cache_insert_loop_no_bounds _ _ _ _ he
  · intro h; cases h

theorem capacity_invariant_witness :
    (node_at ⟨[⟨4, INT32_MAX, 2⟩, ⟨INT32_MIN, 3, 2⟩], [3, 5, 3, 5], some 0, 2,
        [3, 5, 3, 5, 1, 2]⟩ 1).size ≤ 4 ∧
      ∀ item, cache_insert 4 (cache_set 4 ⟨[⟨4, INT32_MAX, 2⟩, ⟨INT32_MIN, 3, 2⟩],
          [3, 5, 3, 5], some 0, 2, [3, 5, 3, 5, 1, 2]⟩ 1)
        (node_at ⟨[⟨4, INT32_MAX, 2⟩, ⟨INT32_MIN, 3, 2⟩], [3, 5, 3, 5], some 0, 2,
          [3, 5, 3, 5, 1, 2]⟩ 1).size item ≠ .error .bounds :=
  capacity_invariant 4 (by decide) _
    (reachable_enqueue_all 4 [1, 5, 3, 2] (pq_open [0, 0, 0, 0] []) _
      (Reachable.opened [0, 0, 0, 0] [] rfl) (by decide) (by decide)) 1

end PQ
namespace PQ

/-! ## Sorted insertion -/

theorem insert_backwards_length (item : Int) (l : List Int) :
    (insert_backwards item l).length = l.length + 1 := by
  induction l with
  | nil => rfl
  | cons c rest ih =>
    simp only [insert_backwards]
    split <;> simp [ih]

theorem sorted_insert_length (item : Int) (l : List Int) :
    (sorted_insert item l).length = l.length + 1 := by
  simp [sorted_insert, insert_backwards_length]

theorem mem_insert_backwards (item x : Int) (l : List Int) :
    x ∈ insert_backwards item l ↔ x = item ∨ x ∈ l := by
  induction l with
  | nil => simp [insert_backwards]
  | cons c rest ih =>
    simp only [insert_backwards]
    split
    · simp only [List.mem_cons, ih]; tauto
    · simp only [List.mem_cons]

theorem mem_sorted_insert (item x : Int) (l : List Int) :
    x ∈ sorted_insert item l ↔ x = item ∨ x ∈ l := by
  simp [sorted_insert, mem_insert_backwards]

theorem insert_backwards_pairwise (item : Int) (l : List Int)
    (h : l.Pairwise (fun a b => b ≤ a)) :
    (insert_backwards item l).Pairwise (fun a b => b ≤ a) := by
  induction l with
  | nil => simp [insert_backwards]
  | cons c rest ih =>
    rw [List.pairwise_cons] at h
    simp only [insert_backwards]
    split
    · rename_i hc
      rw [List.pairwise_cons]
      refine ⟨?_, ih h.2⟩
      intro b hb
      rcases (mem_insert_backwards item b rest).1 hb with hb | hb
      · rw [hb]; omega
      · exact h.1 b hb
    · rename_i hc
      rw [List.pairwise_cons, List.pairwise_cons]
      refine ⟨?_, h.1, h.2⟩
      intro b hb
      rcases List.mem_cons.1 hb with hb | hb
      · rw [hb]; omega
      · have := h.1 b hb; omega

theorem sorted_insert_pairwise (item : Int) (l : List Int)
    (h : l.Pairwise (fun a b => a ≤ b)) :
    (sorted_insert item l).Pairwise (fun a b => a ≤ b) := by
  unfold sorted_insert
  rw [List.pairwise_reverse]
  apply insert_backwards_pairwise
  rw [List.pairwise_reverse]
  exact h

theorem sorted_insert_append_gt (item c : Int) (l : List Int) (h : c > item) :
    sorted_insert item (l ++ [c]) = sorted_insert item l ++ [c] := by
  simp [sorted_insert, insert_backwards, h]

theorem sorted_insert_append_le (item c : Int) (l : List Int) (h : ¬ c > item) :
    sorted_insert item (l ++ [c]) = l ++ [c, item] := by
  simp [sorted_insert, insert_backwards, h]

theorem cache_insert_loop_ok (nd : Option pq_node) (item : Int) :
    ∀ (A : List Int) (h : Int) (B r : List Int),
      cache_insert_loop nd item A.length (A ++ h :: B) = .ok r →
        r = sorted_insert item A ++ B := by
  intro A
  induction A using List.reverseRecOn with
  | nil =>
    intro h B r hr
    simp only [List.length_nil, cache_insert_loop, List.nil_append, List.set_cons_zero] at hr
    injection hr with hr
    rw [← hr]; rfl
  | append_singleton A c ih =>
    intro h B r hr
    have hlen : (A ++ [c]).length = A.length + 1 := by simp
    have hget : (A ++ [c] ++ h :: B).getD A.length 0 = c := by
      rw [List.append_assoc, List.getD_eq_getElem?_getD,
        List.getElem?_append_right (le_refl _)]
      simp
    rw [hlen] at hr
    simp only [cache_insert_loop, hget] at hr
    split at hr
    · rename_i hc
      split at hr
      · cases hr
      rename_i n
      split at hr
      · have hset : (A ++ [c] ++ h :: B).set (A.length + 1) c = A ++ c :: (c :: B) := by
          rw [List.append_assoc, List.set_append_right _ _ (by omega)]
          simp
        rw [hset] at hr
        rw [ih c (c :: B) r hr, sorted_insert_append_gt _ _ _ hc]
        simp
      · cases hr
    · rename_i hc
      injection hr with hr
      rw [← hr, sorted_insert_append_le _ _ _ hc]
      rw [List.append_assoc, List.set_append_right _ _ (by omega)]
      simp

theorem cache_insert_loop_spec (nd : pq_node) (item : Int) :
    ∀ (A : List Int) (h : Int) (B : List Int),
      (∀ c ∈ A, item < c → nd.min ≤ c ∧ c ≤ nd.max) →
      cache_insert_loop (some nd) item A.length (A ++ h :: B)
        = .ok (sorted_insert item A ++ B) := by
  intro A
  induction A using List.reverseRecOn with
  | nil =>
    intro h B _
    simp only [List.length_nil, cache_insert_loop, List.nil_append, List.set_cons_zero]
    rfl
  | append_singleton A c ih =>
    intro h B hA
    have hlen : (A ++ [c]).length = A.length + 1 := by simp
    have hget : (A ++ [c] ++ h :: B).getD A.length 0 = c := by
      rw [List.append_assoc, List.getD_eq_getElem?_getD,
        List.getElem?_append_right (le_refl _)]
      simp
    rw [hlen]
    simp only [cache_insert_loop, hget]
    split
    · rename_i hc
      have hcr := hA c (by simp) hc
      rw [if_pos ⟨hcr.2, hcr.1⟩]
      have hset : (A ++ [c] ++ h :: B).set (A.length + 1) c = A ++ c :: (c :: B) := by
        rw [List.append_assoc, List.set_append_right _ _ (by omega)]
        simp
      rw [hset, ih c (c :: B) (fun x hx => hA x (by simp [hx])),
        sorted_insert_append_gt _ _ _ hc]
      simp
    · rename_i hc
      rw [sorted_insert_append_le _ _ _ hc]
      rw [List.append_assoc, List.set_append_right _ _ (by omega)]
      simp

end PQ
namespace PQ

/-! ## Runs on concrete inputs -/

/-- C1: with capacity 2, enqueuing 0, 1, 2, 3 into a fresh queue and dequeuing
four times returns 2, 3, 1, 0, which is not a non-increasing sequence. -/
theorem dequeue_order_broken :
    run_results (enqueue_then_dequeue 2 (pq_open [0, 0] []) [0, 1, 2, 3])
      = some [.item 2, .item 3, .item 1, .item 0] := by decide

/-- C3: `pq_dequeue` on a freshly opened queue does not take the underflow
branch: the directory length is 1, so it reads `cache[-1]`. -/
theorem dequeue_fresh_out_of_bounds (C : Nat) (mem file : List Int) :
    pq_dequeue C (pq_open mem file) = .error .bounds := by
  simp [pq_dequeue, pq_open, node_at]

/-- C4: with capacity 2, after enqueue 1, enqueue 2, dequeue the directory is the
single descriptor `[INT32_MIN, 2]`, and enqueuing 5 takes the coverage-error
branch. -/
theorem compaction_loses_coverage :
    (run_state (run_ops 2 (pq_open [0, 0] []) [.enqueue 1, .enqueue 2, .dequeue])).map
        (fun q => (q.size, node_at q 0)) = some (1, ⟨INT32_MIN, 2, 1⟩) ∧
      run_ops 2 (pq_open [0, 0] []) [.enqueue 1, .enqueue 2, .dequeue, .enqueue 5]
        = .error .coverage := by decide

/-- C5: with capacity 2, after enqueuing 0, 1, 2, 3 the descriptor at index 3
has `max = INT32_MAX` while its parent at index 1 has `max = 1`. -/
theorem heap_order_broken :
    (enqueue_all 2 (pq_open [0, 0] []) [0, 1, 2, 3]).toOption.map
        (fun q => (q.size, node_at q 1, node_at q 3))
      = some (4, ⟨INT32_MIN, 1, 1⟩, ⟨4, INT32_MAX, 1⟩) := by decide

/-- C6: with capacity 4, after enqueuing 1, 5, 3, 2 the root block has range
`[4, INT32_MAX]` and content `[3, 5]`: the item 3 lies below its `min`. -/
theorem content_below_min :
    (enqueue_all 4 (pq_open [0, 0, 0, 0] []) [1, 5, 3, 2]).toOption.map
        (fun q => (node_at q 0, content 4 q 0))
      = some (⟨4, INT32_MAX, 2⟩, [3, 5]) := by decide

/-- C10, as stated, fails: with capacity 4, four enqueues into a fresh queue
leave two descriptors of size 2 each, not a single descriptor of size 4. -/
theorem split_on_fourth_enqueue :
    (enqueue_all 4 (pq_open [0, 0, 0, 0] []) [1, 5, 3, 2]).toOption.map
        (fun q => (q.size, (node_at q 0).size, (node_at q 1).size))
      = some (2, 2, 2) := by decide

end PQ
namespace PQ

/-! ## The copy loop of the split -/

theorem split_copy_length (off : Nat) :
    ∀ (cnt i : Nat) (cache : List Int), (split_copy off cnt i cache).length = cache.length := by
  intro cnt
  induction cnt with
  | zero => intro i cache; rfl
  | succ cnt ih =>
    intro i cache
    simp only [split_copy]
    rw [ih]
    simp

theorem split_copy_getElem? (off : Nat) :
    ∀ (cnt i : Nat) (cache : List Int) (j : Nat), i + cnt + off ≤ cache.length →
      (split_copy off cnt i cache)[j]? =
        if i ≤ j ∧ j < i + cnt then cache[j + off]? else cache[j]? := by
  intro cnt
  induction cnt with
  | zero =>
    intro i cache j _
    simp only [split_copy]
    rw [if_neg (by omega)]
  | succ cnt ih =>
    intro i cache j h
    simp only [split_copy]
    rw [ih (i + 1) _ j (by simp; omega)]
    have hval : cache[i + off]? = some (cache.getD (i + off) 0) := by
      rw [List.getD_eq_getElem _ _ (by omega)]
      exact List.getElem?_eq_getElem (by omega)
    by_cases h1 : i + 1 ≤ j ∧ j < i + 1 + cnt
    · rw [if_pos h1, if_pos (by omega)]
      rw [List.getElem?_set_ne (by omega)]
    · rw [if_neg h1]
      by_cases h2 : j = i
      · subst h2
        rw [if_pos (by omega), List.getElem?_set_self (by omega), hval]
      · rw [if_neg (by omega), List.getElem?_set_ne (by omega)]

theorem split_copy_take (off cnt : Nat) (cache : List Int) (h : cnt + off ≤ cache.length) :
    (split_copy off cnt 0 cache).take cnt = (cache.drop off).take cnt := by
  apply List.ext_getElem?
  intro p
  simp only [List.getElem?_take, List.getElem?_drop]
  by_cases hp : p < cnt
  · rw [if_pos hp, if_pos hp, split_copy_getElem? off cnt 0 cache p (by omega)]
    rw [if_pos (by omega)]
    congr 1
    omega
  · rw [if_neg hp, if_neg hp]

theorem disk_block_write_front (C : Nat) (file : List Int) (i n : Nat) (d : List Int)
    (hn : n ≤ d.length) : disk_block C (file_write C file i d) i n = d.take n := by
  have h := disk_block_write_same C file i d
  have : disk_block C (file_write C file i d) i n
      = (disk_block C (file_write C file i d) i d.length).take n := by
    simp only [disk_block, List.take_take]
    rw [Nat.min_eq_left hn]
  rw [this, h]

end PQ
namespace PQ

/-! ## Insertion into a block -/

theorem cache_split_at (cache : List Int) (n : Nat) (h : n < cache.length) :
    cache = cache.take n ++ cache.getD n 0 :: cache.drop (n + 1) := by
  rw [List.getD_eq_getElem _ _ h]
  conv_lhs => rw [← List.take_append_drop n cache]
  rw [List.drop_eq_getElem_cons h]

theorem cache_insert_ok_eq (C : Nat) (q q2 : pq) (n : Nat) (item : Int)
    (hlen : q.cache.length = C) (h : cache_insert C q n item = .ok q2) :
    q2 = { q with cache := sorted_insert item (q.cache.take n) ++ q.cache.drop (n + 1) } := by
  unfold cache_insert at h
  split at h
  · rename_i hn
    split at h
    · cases h
    · rename_i cache hl
      injection h with h
      subst h
      have hsplit := cache_split_at q.cache n (by omega)
      have hl2 : cache_insert_loop (q.cached_idx.map (node_at q)) item (q.cache.take n).length
          (q.cache.take n ++ q.cache.getD n 0 :: q.cache.drop (n + 1)) = .ok cache := by
        rw [← hsplit, List.length_take, Nat.min_eq_left (by omega)]
        exact hl
      rw [cache_insert_loop_ok _ _ _ _ _ _ hl2]
  · cases h

theorem cache_insert_spec (C : Nat) (q : pq) (c n : Nat) (item : Int)
    (hlen : q.cache.length = C) (hn : n < C) (hc : q.cached_idx = some c)
    (hr : ∀ x ∈ q.cache.take n, item < x → (node_at q c).min ≤ x ∧ x ≤ (node_at q c).max) :
    cache_insert C q n item
      = .ok { q with cache := sorted_insert item (q.cache.take n) ++ q.cache.drop (n + 1) } := by
  unfold cache_insert
  rw [if_pos hn, hc]
  simp only [Option.map_some']
  have hsplit := cache_split_at q.cache n (by omega)
  have := cache_insert_loop_spec (node_at q c) item (q.cache.take n) (q.cache.getD n 0)
    (q.cache.drop (n + 1)) hr
  rw [← hsplit, List.length_take, Nat.min_eq_left (by omega)] at this
  rw [this]

theorem pq_insert_below (C : Nat) (q q1 : pq) (idx : Nat) (item : Int)
    (hlen : q.cache.length = C) (hn : (node_at q idx).size + 1 < C)
    (h : pq_insert C q idx item = .ok q1) : q1 = insert_state C q idx item := by
  unfold pq_insert at h
  simp only at h
  split at h
  · cases h
  · rename_i q2 h2
    have := cache_insert_ok_eq C _ _ _ _ (cache_set_cache_length C q idx hlen) h2
    rw [cache_set_node_at] at this h
    rw [if_neg (by omega)] at h
    injection h with h
    rw [← h, this]
    simp [insert_state]

theorem pq_insert_below_ok (C : Nat) (q : pq) (idx : Nat) (item : Int)
    (hlen : q.cache.length = C) (hn : (node_at q idx).size + 1 < C)
    (hr : ∀ x ∈ (cache_set C q idx).cache.take (node_at q idx).size, item < x →
      (node_at q idx).min ≤ x ∧ x ≤ (node_at q idx).max) :
    pq_insert C q idx item = .ok (insert_state C q idx item) := by
  unfold pq_insert
  simp only
  rw [cache_set_node_at]
  rw [cache_insert_spec C (cache_set C q idx) idx _ item (cache_set_cache_length C q idx hlen)
    (by omega) (cache_set_cached C q idx) (by rw [cache_set_node_at]; exact hr)]
  simp only
  rw [if_neg (by omega)]
  simp [insert_state]

theorem pq_insert_full (C : Nat) (q q1 : pq) (idx : Nat) (item : Int)
    (hlen : q.cache.length = C) (hn : (node_at q idx).size + 1 ≥ C)
    (h : pq_insert C q idx item = .ok q1) :
    ∃ q4, pq_block_split C (insert_state C q idx item) idx = .ok q4 ∧
      pq_heapify C (q4.size + 1) q4 0 = .ok q1 := by
  unfold pq_insert at h
  simp only at h
  split at h
  · cases h
  · rename_i q2 h2
    have := cache_insert_ok_eq C _ _ _ _ (cache_set_cache_length C q idx hlen) h2
    rw [cache_set_node_at] at this h
    rw [if_pos hn] at h
    split at h
    · cases h
    · rename_i q4 h4
      refine ⟨q4, ?_, h⟩
      rw [← h4, this]
      simp [insert_state]

theorem pq_insert_full_ok (C : Nat) (q : pq) (idx : Nat) (item : Int)
    (hlen : q.cache.length = C) (hlt : (node_at q idx).size < C)
    (hn : (node_at q idx).size + 1 ≥ C)
    (hr : ∀ x ∈ (cache_set C q idx).cache.take (node_at q idx).size, item < x →
      (node_at q idx).min ≤ x ∧ x ≤ (node_at q idx).max) :
    pq_insert C q idx item =
      match pq_block_split C (insert_state C q idx item) idx with
      | .error e => .error e
      | .ok q4 => pq_heapify C (q4.size + 1) q4 0 := by
  unfold pq_insert
  simp only
  rw [cache_set_node_at]
  rw [cache_insert_spec C (cache_set C q idx) idx _ item (cache_set_cache_length C q idx hlen)
    hlt (cache_set_cached C q idx) (by rw [cache_set_node_at]; exact hr)]
  simp only
  rw [if_pos hn]
  simp [insert_state]

end PQ
namespace PQ

/-! ## A directory of one block -/

theorem cache_set_same (C : Nat) (q : pq) (idx : Nat) (h : q.cached_idx = some idx) :
    cache_set C q idx = q := by
  simp [cache_set, h]

theorem pq_block_find_root (q : pq) (item : Int) (fuel : Nat) (hs : 0 < q.size)
    (h : (node_at q 0).min ≤ item ∧ item ≤ (node_at q 0).max) :
    pq_block_find q item (fuel + 1) 0 = .ok (some 0) := by
  simp only [pq_block_find]
  rw [if_pos hs, if_pos ⟨h.1, h.2⟩]

theorem node_at_set_eq (q : pq) (ns : List pq_node) (idx : Nat) (n : pq_node)
    (h : q.nodes = ns.set idx n) (hi : idx < ns.length) : node_at q idx = n := by
  simp only [node_at, h]
  rw [List.getD_eq_getElem _ _ (by simpa using hi)]
  simp

theorem node_at_set_ne (q : pq) (ns : List pq_node) (idx k : Nat) (n : pq_node)
    (h : q.nodes = ns.set idx n) (hk : idx ≠ k) : node_at q k = ns.getD k ⟨0, 0, 0⟩ := by
  simp only [node_at, h, List.getD_eq_getElem?_getD]
  rw [List.getElem?_set_ne hk]

theorem one_block_insert (C : Nat) (q : pq) (lo hi : Int) (l : List Int) (x : Int)
    (hq : one_block C q lo hi l) (hl : l.length + 1 ≤ C) :
    one_block C (insert_state C q 0 x) lo hi (sorted_insert x l) := by
  obtain ⟨hs, hn, h0, hc, hlen, ht⟩ := hq
  have hcs := cache_set_same C q 0 hc
  have hsz : (node_at q 0).size = l.length := by rw [h0]
  refine ⟨?_, ?_, ?_, ?_, ?_, ?_⟩
  · simp [insert_state, hs]
  · simp [insert_state, hn]
  · rw [node_at_set_eq (insert_state C q 0 x) q.nodes 0 _ rfl hn, h0, sorted_insert_length]
  · simp [insert_state]
  · simp only [insert_state, hcs, hsz, ht, List.length_append, sorted_insert_length,
      List.length_drop]
    omega
  · simp only [insert_state, hcs, hsz, ht]
    rw [List.take_append_of_le_length (by rw [sorted_insert_length]),
      List.take_of_length_le (by rw [sorted_insert_length])]

theorem one_block_enqueue (C : Nat) (q : pq) (lo hi : Int) (l : List Int) (x : Int)
    (hq : one_block C q lo hi l) (hl : l.length + 1 < C)
    (hx : lo ≤ x ∧ x ≤ hi) (hr : ∀ y ∈ l, lo ≤ y ∧ y ≤ hi) :
    pq_enqueue C q x = .ok (insert_state C q 0 x) := by
  have hq1 := hq
  obtain ⟨hs, hn, h0, hc, hlen, ht⟩ := hq
  have hcs := cache_set_same C q 0 hc
  have hsz : (node_at q 0).size = l.length := by rw [h0]
  unfold pq_enqueue
  rw [pq_block_find_root q x q.size (by omega) (by rw [h0]; exact hx)]
  simp only
  apply pq_insert_below_ok C q 0 x hlen (by omega)
  rw [hcs, hsz, ht, h0]
  exact fun y hy _ => hr y hy

theorem insert_all_range (lo hi : Int) :
    ∀ (xs l : List Int), (∀ x ∈ xs, lo ≤ x ∧ x ≤ hi) → (∀ y ∈ l, lo ≤ y ∧ y ≤ hi) →
      ∀ y ∈ insert_all xs l, lo ≤ y ∧ y ≤ hi := by
  intro xs
  induction xs with
  | nil => intro l _ hl; simpa [insert_all] using hl
  | cons x xs ih =>
    intro l hx hl
    simp only [insert_all, List.foldl_cons]
    apply ih (sorted_insert x l) (fun z hz => hx z (by simp [hz]))
    intro y hy
    rcases (mem_sorted_insert x y l).1 hy with h | h
    · rw [h]; exact hx x (by simp)
    · exact hl y h

theorem insert_all_length : ∀ (xs l : List Int), (insert_all xs l).length = l.length + xs.length := by
  intro xs
  induction xs with
  | nil => intro l; simp [insert_all]
  | cons x xs ih =>
    intro l
    simp only [insert_all, List.foldl_cons, List.length_cons]
    have := ih (sorted_insert x l)
    simp only [insert_all] at this
    rw [this, sorted_insert_length]
    omega

theorem insert_all_pairwise : ∀ (xs l : List Int), l.Pairwise (fun a b => a ≤ b) →
    (insert_all xs l).Pairwise (fun a b => a ≤ b) := by
  intro xs
  induction xs with
  | nil => intro l hl; simpa [insert_all] using hl
  | cons x xs ih =>
    intro l hl
    simp only [insert_all, List.foldl_cons]
    exact ih _ (sorted_insert_pairwise x l hl)

theorem one_block_enqueue_all (C : Nat) (lo hi : Int) :
    ∀ (xs l : List Int) (q : pq), one_block C q lo hi l → l.length + xs.length < C →
      (∀ x ∈ xs, lo ≤ x ∧ x ≤ hi) → (∀ y ∈ l, lo ≤ y ∧ y ≤ hi) →
      ∃ q1, enqueue_all C q xs = .ok q1 ∧ one_block C q1 lo hi (insert_all xs l) := by
  intro xs
  induction xs with
  | nil =>
    intro l q hq _ _ _
    exact ⟨q, rfl, by simpa [insert_all] using hq⟩
  | cons x xs ih =>
    intro l q hq hlen hx hl
    simp only [List.length_cons] at hlen
    simp only [enqueue_all]
    rw [one_block_enqueue C q lo hi l x hq (by omega) (hx x (by simp)) hl]
    simp only
    have h1 := one_block_insert C q lo hi l x hq (by omega)
    obtain ⟨q1, hq1, hob⟩ := ih (sorted_insert x l) _ h1
      (by rw [sorted_insert_length]; omega) (fun z hz => hx z (by simp [hz]))
      (by
        intro y hy
        rcases (mem_sorted_insert x y l).1 hy with h | h
        · rw [h]; exact hx x (by simp)
        · exact hl y h)
    exact ⟨q1, hq1, by simpa [insert_all] using hob⟩

theorem one_block_open (C : Nat) (mem file : List Int) (h : mem.length = C) :
    one_block C (pq_open mem file) INT32_MIN INT32_MAX [] := by
  refine ⟨rfl, by simp [pq_open], rfl, rfl, h, by simp⟩

end PQ
namespace PQ

/-! ## Split and exchange -/

theorem pq_block_split_eq (C : Nat) (q : pq) (idx : Nat) :
    pq_block_split C q idx =
      if q.size < PQSIZE ∧ (node_at q idx).size ≤ C ∧ (node_at q idx).size / 2 < C then
        .ok (split_state C q idx)
      else .error .bounds := by
  unfold pq_block_split
  simp only
  split
  · simp [split_state, cache_flush]
  · rfl

theorem content_cached (C : Nat) (q : pq) (k : Nat) (h : q.cached_idx = some k) :
    content C q k = q.cache.take (node_at q k).size := by
  simp [content, h]

theorem content_disk (C : Nat) (q : pq) (k : Nat) (h : q.cached_idx ≠ some k) :
    content C q k = disk_block C q.file k (node_at q k).size := by
  simp [content, h]

theorem pq_block_exchange_content (C : Nat) (q : pq) (i j : Nat)
    (hlen : q.cache.length = C)
    (hc : ∀ c, q.cached_idx = some c → (node_at q c).size ≤ C)
    (hi : (node_at q i).size ≤ C) (hj : (node_at q j).size ≤ C)
    (si : stored C q i) (sj : stored C q j) :
    (pq_block_exchange C q i j).cache.take (node_at q i).size = content C q i ∧
    q.file.length ≤ (pq_block_exchange C q i j).file.length ∧
    ((node_at q j).size ≤ (node_at q i).size →
      disk_block C (pq_block_exchange C q i j).file i (node_at q j).size = content C q j) := by
  have h1i := cache_set_content C q i i hlen hc hi si
  have h1j := cache_set_content C q i j hlen hc hj sj
  have hlen1 := cache_set_cache_length C q i hlen
  have hc1 : ∀ c, (cache_set C q i).cached_idx = some c →
      (node_at (cache_set C q i) c).size ≤ C := by
    intro c hcc
    rw [cache_set_cached] at hcc
    injection hcc with hcc
    rw [cache_set_node_at, ← hcc]; exact hi
  have h2j := cache_set_content C (cache_set C q i) j j hlen1 hc1
    (by rw [cache_set_node_at]; exact hj) h1j.1
  have hlen2 := cache_set_cache_length C _ j hlen1
  have e1 : (cache_set C q i).cache.take (node_at q i).size = content C q i := by
    rw [← h1i.2, content_cached C _ i (cache_set_cached C q i), cache_set_node_at]
  have e2 : (cache_set C (cache_set C q i) j).cache.take (node_at q j).size = content C q j := by
    rw [← h1j.2, ← h2j.2, content_cached C _ j (cache_set_cached C _ j), cache_set_node_at,
      cache_set_node_at]
  have hl1 : ((cache_set C q i).cache.take (node_at q i).size).length = (node_at q i).size := by
    rw [List.length_take, hlen1]; omega
  refine ⟨?_, ?_, ?_⟩
  · simp only [pq_block_exchange, cache_flush_idx, cache_set_node_at]
    rw [List.take_append_of_le_length (by rw [hl1]), List.take_of_length_le (by rw [hl1]), e1]
  · simp only [pq_block_exchange, cache_flush_idx]
    exact le_trans (cache_set_file_length C q i)
      (le_trans (cache_set_file_length C _ j) (file_write_length_le _ _ _ _))
  · intro hle
    simp only [pq_block_exchange, cache_flush_idx, cache_set_node_at]
    rw [disk_block_write_front _ _ _ _ _ (by rw [List.length_take, hlen2]; omega),
      List.take_take, Nat.min_eq_left hle, e2]

end PQ
namespace PQ

/-! ## Sift-down on directories of at most two blocks -/

theorem pq_heapify_small (C fuel : Nat) (q : pq) (hs : q.size ≤ 1) :
    pq_heapify C (fuel + 1) q 0 = .ok (cache_set C q 0) := by
  rw [pq_heapify_succ]
  have : heapify_largest q 0 = 0 := by
    unfold heapify_largest
    simp only
    rw [if_neg (by omega), if_neg (by omega)]
  rw [this]
  simp

theorem pq_heapify_two_keep (C fuel : Nat) (q : pq) (hs : q.size = 2)
    (h : ¬ (node_at q 1).max > (node_at q 0).max) :
    pq_heapify C (fuel + 1) q 0 = .ok (cache_set C q 0) := by
  rw [pq_heapify_succ]
  have : heapify_largest q 0 = 0 := by
    unfold heapify_largest
    simp only [Nat.mul_zero, Nat.zero_add, hs, Nat.lt_irrefl, false_and, if_false]
    rw [if_neg (by intro hh; exact h hh.2)]
  rw [this]
  simp

theorem swap_state_cached (C : Nat) (q : pq) (i j : Nat) :
    (swap_state C q i j).cached_idx = some j := by
  simp [swap_state]

theorem swap_state_size (C : Nat) (q : pq) (i j : Nat) :
    (swap_state C q i j).size = q.size := by
  simp [swap_state]

theorem pq_heapify_two_swap (C fuel : Nat) (q : pq) (hs : q.size = 2)
    (h : (node_at q 1).max > (node_at q 0).max) :
    pq_heapify C (fuel + 2) q 0 = .ok (cache_set C (swap_state C q 0 1) 0) := by
  rw [pq_heapify_succ]
  have h1 : heapify_largest q 0 = 1 := by
    unfold heapify_largest
    simp only [Nat.mul_zero, Nat.zero_add, hs, Nat.lt_irrefl, false_and, if_false]
    rw [if_pos ⟨by omega, h⟩]
  rw [h1, if_pos (by omega)]
  have hst : ({ pq_block_exchange C q 0 1 with
      nodes := ((pq_block_exchange C q 0 1).nodes.set 0
        (node_at (pq_block_exchange C q 0 1) 1)).set 1
          (node_at (pq_block_exchange C q 0 1) 0) } : pq) = swap_state C q 0 1 := by
    simp [swap_state]
  rw [hst, pq_heapify_succ]
  have h2 : heapify_largest (swap_state C q 0 1) 1 = 1 := by
    unfold heapify_largest
    simp only
    rw [swap_state_size, if_neg (by omega), if_neg (by omega)]
  rw [h2]
  simp only [ne_eq, not_true_eq_false, if_false]
  rw [cache_set_same C _ 1 (swap_state_cached C q 0 1)]

end PQ
namespace PQ

/-! ## From one block to two -/

theorem content_length (C : Nat) (q : pq) (k : Nat) (hlen : q.cache.length = C)
    (hk : (node_at q k).size ≤ C) (hs : stored C q k) :
    (content C q k).length = (node_at q k).size := by
  unfold content
  split
  · rw [List.length_take, hlen]; omega
  · rename_i hnc
    rcases hs with h | h | h
    · exact absurd h hnc
    · rw [h]; simp [disk_block]
    · simp only [disk_block, List.length_take, List.length_drop]; omega

theorem two_block_stored_zero (C : Nat) (q : pq) (h : two_block C q) : stored C q 0 := by
  obtain ⟨_, _, _, hf, h0, _, _, _⟩ := h
  right; right; omega

theorem two_block_cached_le (C : Nat) (q : pq) (h : two_block C q) :
    ∀ c, q.cached_idx = some c → (node_at q c).size ≤ C := by
  obtain ⟨_, _, _, _, h0, h1, hc, _⟩ := h
  intro c hcc
  rcases hc with hc | hc
  · rw [hc] at hcc; injection hcc with hcc; rw [← hcc]; omega
  · rw [hc] at hcc; injection hcc with hcc; rw [← hcc]; omega

theorem nodes_write_getD (ns : List pq_node) (s : Nat) (n d : pq_node) (h : s ≤ ns.length) :
    (nodes_write ns s n).getD s d = n := by
  unfold nodes_write
  split
  · rename_i hlt
    rw [List.getD_eq_getElem _ _ (by simpa using hlt)]
    simp
  · have : s = ns.length := by omega
    subst this
    rw [List.getD_eq_getElem?_getD, List.getElem?_append_right (le_refl _)]
    simp

theorem one_block_cache_full (C : Nat) (q : pq) (lo hi : Int) (l : List Int)
    (hq : one_block C q lo hi l) (hl : l.length = C) : q.cache = l := by
  obtain ⟨_, _, _, _, hlen, ht⟩ := hq
  rw [← ht, hl, List.take_of_length_le (by omega)]

theorem split_one_block (C : Nat) (q : pq) (lo hi : Int) (l : List Int) (hC : 2 ≤ C)
    (hq : one_block C q lo hi l) (hl : l.length = C) :
    two_block C (split_state C q 0) ∧
    (split_state C q 0).cached_idx = some 1 ∧
    node_at (split_state C q 0) 0 = ⟨lo, l.getD (C / 2) 0, C / 2⟩ ∧
    node_at (split_state C q 0) 1 = ⟨wrap32 (l.getD (C / 2) 0 + 1), hi, C - C / 2⟩ ∧
    content C (split_state C q 0) 0 = l.take (C / 2) ∧
    content C (split_state C q 0) 1 = l.drop (C / 2) := by
  have hcache := one_block_cache_full C q lo hi l hq hl
  obtain ⟨hs, hn, h0, hc, hlen, ht⟩ := hq
  have hdiv : C / 2 < C := by omega
  have hdiv1 : 1 ≤ C / 2 := by omega
  have hn0 : node_at (split_state C q 0) 0 = ⟨lo, l.getD (C / 2) 0, C / 2⟩ := by
    rw [node_at_set_eq (split_state C q 0) _ 0 _ rfl
      (by have := nodes_write_length q.nodes q.size
            ⟨wrap32 (q.cache.getD ((node_at q 0).size / 2) 0 + 1), (node_at q 0).max,
              (node_at q 0).size - (node_at q 0).size / 2⟩ (by omega)
          omega)]
    rw [h0, hcache, hl]
  have hn1 : node_at (split_state C q 0) 1
      = ⟨wrap32 (l.getD (C / 2) 0 + 1), hi, C - C / 2⟩ := by
    rw [node_at_set_ne (split_state C q 0) _ 0 1 _ rfl (by omega)]
    have := nodes_write_getD q.nodes q.size
      ⟨wrap32 (q.cache.getD ((node_at q 0).size / 2) 0 + 1), (node_at q 0).max,
        (node_at q 0).size - (node_at q 0).size / 2⟩ ⟨0, 0, 0⟩ (by omega)
    rw [hs] at this
    rw [hs, this, h0, hcache, hl]
  have hcached : (split_state C q 0).cached_idx = some 1 := by
    simp [split_state, hs]
  have hcl : (split_state C q 0).cache.length = C := by
    simp only [split_state]
    rw [split_copy_length, hlen]
  have hfile : (split_state C q 0).file = file_write C q.file 0 l := by
    simp only [split_state, cache_flush, hc, cache_flush_idx, h0, hcache, hl]
    rw [List.take_of_length_le (by omega)]
  have hne : l ≠ [] := by
    intro h; rw [h] at hl; simp at hl; omega
  have hfl : C ≤ (split_state C q 0).file.length := by
    rw [hfile]
    have := file_write_length_ge C q.file 0 l hne
    omega
  have hc1 : content C (split_state C q 0) 1 = l.drop (C / 2) := by
    rw [content_cached C _ 1 hcached, hn1]
    simp only [split_state, h0, hcache, hl]
    rw [split_copy_take _ _ _ (by omega)]
    rw [List.take_of_length_le (by rw [List.length_drop]; omega)]
  have hc0 : content C (split_state C q 0) 0 = l.take (C / 2) := by
    rw [content_disk C _ 0 (by rw [hcached]; simp), hn0, hfile]
    exact disk_block_write_front C q.file 0 (C / 2) l (by omega)
  refine ⟨⟨?_, ?_, hcl, hfl, ?_, ?_, Or.inr hcached, Or.inl hcached⟩, hcached, hn0, hn1, hc0, hc1⟩
  · simp [split_state, hs]
  · have := nodes_write_length q.nodes q.size
      ⟨wrap32 (q.cache.getD ((node_at q 0).size / 2) 0 + 1), (node_at q 0).max,
        (node_at q 0).size - (node_at q 0).size / 2⟩ (by omega)
    simp only [split_state, List.length_set]
    omega
  · rw [hn0]; exact hdiv
  · rw [hn1]; simp only; omega

end PQ
namespace PQ

/-! ## Cache moves and swaps on two blocks -/

theorem two_block_cache_set (C : Nat) (q : pq) (idx : Nat) (h : two_block C q)
    (hidx : idx = 0 ∨ idx = 1) :
    two_block C (cache_set C q idx) ∧
      content C (cache_set C q idx) 0 = content C q 0 ∧
      content C (cache_set C q idx) 1 = content C q 1 := by
  have hc := two_block_cached_le C q h
  have hs0 := two_block_stored_zero C q h
  obtain ⟨hs, hn, hlen, hf, h0, h1, hcd, hs1⟩ := h
  have c0 := cache_set_content C q idx 0 hlen hc (by omega) hs0
  have c1 := cache_set_content C q idx 1 hlen hc (by omega) hs1
  refine ⟨⟨?_, ?_, cache_set_cache_length C q idx hlen,
    le_trans hf (cache_set_file_length C q idx), ?_, ?_, ?_, c1.1⟩, c0.2, c1.2⟩
  · simp [hs]
  · simpa using hn
  · simpa using h0
  · simpa using h1
  · rw [cache_set_cached]
    rcases hidx with h | h
    · left; rw [h]
    · right; rw [h]

theorem two_block_swap (C : Nat) (q : pq) (h : two_block C q) :
    two_block C (swap_state C q 0 1) ∧
      node_at (swap_state C q 0 1) 0 = node_at q 1 ∧
      node_at (swap_state C q 0 1) 1 = node_at q 0 ∧
      content C (swap_state C q 0 1) 1 = content C q 0 ∧
      ((node_at q 1).size ≤ (node_at q 0).size →
        content C (swap_state C q 0 1) 0 = content C q 1) := by
  have hc := two_block_cached_le C q h
  have hs0 := two_block_stored_zero C q h
  obtain ⟨hs, hn, hlen, hf, h0, h1, hcd, hs1⟩ := h
  obtain ⟨e1, e2, e3⟩ := pq_block_exchange_content C q 0 1 hlen hc (by omega) (by omega) hs0 hs1
  have hn0 : node_at (swap_state C q 0 1) 0 = node_at q 1 := by
    rw [node_at_set_ne (swap_state C q 0 1) _ 1 0 _ rfl (by omega)]
    rw [List.getD_eq_getElem _ _ (by simpa using (by omega : 0 < q.nodes.length))]
    simp
  have hn1 : node_at (swap_state C q 0 1) 1 = node_at q 0 := by
    rw [node_at_set_eq (swap_state C q 0 1) _ 1 _ rfl (by simpa using hn)]
  have hcs : (swap_state C q 0 1).cached_idx = some 1 := swap_state_cached C q 0 1
  refine ⟨⟨?_, ?_, ?_, ?_, ?_, ?_, Or.inr hcs, Or.inl hcs⟩, hn0, hn1, ?_, ?_⟩
  · rw [swap_state_size, hs]
  · simpa [swap_state] using hn
  · simpa [swap_state] using pq_block_exchange_cache_length C q 0 1 hlen
  · simp only [swap_state]; omega
  · rw [hn0]; exact h1
  · rw [hn1]; exact h0
  · rw [content_cached C _ 1 hcs, hn1]
    simpa [swap_state] using e1
  · intro hle
    rw [content_disk C _ 0 (by rw [hcs]; simp), hn0]
    simpa [swap_state] using e3 hle

theorem two_block_heapify_keep (C fuel : Nat) (q : pq) (h : two_block C q)
    (hk : ¬ (node_at q 1).max > (node_at q 0).max) :
    pq_heapify C (fuel + 1) q 0 = .ok (cache_set C q 0) :=
  pq_heapify_two_keep C fuel q h.1 hk

theorem two_block_heapify_swap (C fuel : Nat) (q : pq) (h : two_block C q)
    (hk : (node_at q 1).max > (node_at q 0).max) :
    pq_heapify C (fuel + 2) q 0 = .ok (cache_set C (swap_state C q 0 1) 0) :=
  pq_heapify_two_swap C fuel q h.1 hk

end PQ
namespace PQ

theorem one_block_enqueue_split (C : Nat) (q : pq) (lo hi : Int) (l : List Int) (x : Int)
    (hC : 2 ≤ C) (hq : one_block C q lo hi l) (hl : l.length + 1 = C)
    (hx : lo ≤ x ∧ x ≤ hi) (hr : ∀ y ∈ l, lo ≤ y ∧ y ≤ hi) :
    ∃ f, pq_enqueue C q x = .ok f ∧ two_block C f ∧ f.cached_idx = some 0 ∧
      (¬ hi > (sorted_insert x l).getD (C / 2) 0 →
        node_at f 0 = ⟨lo, (sorted_insert x l).getD (C / 2) 0, C / 2⟩ ∧
        node_at f 1 = ⟨wrap32 ((sorted_insert x l).getD (C / 2) 0 + 1), hi, C - C / 2⟩ ∧
        content C f 0 = (sorted_insert x l).take (C / 2) ∧
        content C f 1 = (sorted_insert x l).drop (C / 2)) ∧
      (hi > (sorted_insert x l).getD (C / 2) 0 →
        node_at f 0 = ⟨wrap32 ((sorted_insert x l).getD (C / 2) 0 + 1), hi, C - C / 2⟩ ∧
        node_at f 1 = ⟨lo, (sorted_insert x l).getD (C / 2) 0, C / 2⟩ ∧
        content C f 1 = (sorted_insert x l).take (C / 2) ∧
        (C % 2 = 0 → content C f 0 = (sorted_insert x l).drop (C / 2))) := by
  have hqi := one_block_insert C q lo hi l x hq (by omega)
  have hfl : (sorted_insert x l).length = C := by rw [sorted_insert_length]; exact hl
  obtain ⟨h2b, hcd, hn0, hn1, hc0, hc1⟩ :=
    split_one_block C (insert_state C q 0 x) lo hi (sorted_insert x l) hC hqi hfl
  have hq1 := hq
  obtain ⟨hs, hn, h0, hc, hlen, ht⟩ := hq
  have hcs := cache_set_same C q 0 hc
  have hsz : (node_at q 0).size = l.length := by rw [h0]
  have henq : pq_enqueue C q x
      = pq_heapify C 3 (split_state C (insert_state C q 0 x) 0) 0 := by
    unfold pq_enqueue
    rw [pq_block_find_root q x q.size (by omega) (by rw [h0]; exact hx)]
    simp only
    rw [pq_insert_full_ok C q 0 x hlen (by omega) (by omega)
      (by rw [hcs, hsz, ht, h0]; exact fun y hy _ => hr y hy)]
    rw [pq_block_split_eq, if_pos ⟨by rw [hqi.1]; decide,
      by rw [hqi.2.2.1]; simp only [hfl]; omega,
      by rw [hqi.2.2.1]; simp only [hfl]; omega⟩]
    simp only [h2b.1]
  by_cases hk : hi > (sorted_insert x l).getD (C / 2) 0
  · have hsw := two_block_swap C _ h2b
    obtain ⟨t2, tn0, tn1, tc1, tc0⟩ := hsw
    have hcs2 := two_block_cache_set C _ 0 t2 (Or.inl rfl)
    refine ⟨cache_set C (swap_state C (split_state C (insert_state C q 0 x) 0) 0 1) 0, ?_,
      hcs2.1, cache_set_cached _ _ _, fun hnk => absurd hk hnk, fun _ => ⟨?_, ?_, ?_, ?_⟩⟩
    · rw [henq]
      exact two_block_heapify_swap C 1 _ h2b (by rw [hn0, hn1]; exact hk)
    · rw [cache_set_node_at, tn0, hn1]
    · rw [cache_set_node_at, tn1, hn0]
    · rw [hcs2.2.2, tc1, hc0]
    · intro heven
      rw [hcs2.2.1, tc0 (by rw [hn0, hn1]; simp only; omega), hc1]
  · have hcs2 := two_block_cache_set C _ 0 h2b (Or.inl rfl)
    refine ⟨cache_set C (split_state C (insert_state C q 0 x) 0) 0, ?_,
      hcs2.1, cache_set_cached _ _ _, fun _ => ⟨?_, ?_, ?_, ?_⟩, fun hnk => absurd hnk hk⟩
    · rw [henq]
      exact two_block_heapify_keep C 2 _ h2b (by rw [hn0, hn1]; exact hk)
    · rw [cache_set_node_at, hn0]
    · rw [cache_set_node_at, hn1]
    · rw [hcs2.2.1, hc0]
    · rw [hcs2.2.2, hc1]

end PQ
namespace PQ

/-! ## Insertion into one of two blocks -/

theorem insert_state_node_self (C : Nat) (q : pq) (idx : Nat) (x : Int)
    (h : idx < q.nodes.length) :
    node_at (insert_state C q idx x) idx
      = ⟨(node_at q idx).min, (node_at q idx).max, (node_at q idx).size + 1⟩ :=
  node_at_set_eq (insert_state C q idx x) q.nodes idx _ rfl h

theorem insert_state_node_other (C : Nat) (q : pq) (idx k : Nat) (x : Int) (h : idx ≠ k) :
    node_at (insert_state C q idx x) k = node_at q k :=
  node_at_set_ne (insert_state C q idx x) q.nodes idx k _ rfl h

theorem two_block_insert (C : Nat) (q : pq) (idx : Nat) (x : Int) (h : two_block C q)
    (hidx : idx = 0 ∨ idx = 1) (hn : (node_at q idx).size + 1 < C) :
    two_block C (insert_state C q idx x) ∧
      (insert_state C q idx x).cached_idx = some idx ∧
      content C (insert_state C q idx x) idx = sorted_insert x (content C q idx) ∧
      (∀ k, (k = 0 ∨ k = 1) → k ≠ idx →
        content C (insert_state C q idx x) k = content C q k) := by
  obtain ⟨t1, c0, c1⟩ := two_block_cache_set C q idx h hidx
  have hq := h
  obtain ⟨hs, hnl, hlen, hf, h0, h1, hcd, hs1⟩ := h
  obtain ⟨hs', hnl', hlen', hf', h0', h1', hcd', hs1'⟩ := t1
  have hil : idx < q.nodes.length := by rcases hidx with h | h <;> omega
  have hcached : (insert_state C q idx x).cached_idx = some idx := by
    simp [insert_state]
  have hfile : (insert_state C q idx x).file = (cache_set C q idx).file := by
    simp [insert_state]
  have hself := insert_state_node_self C q idx x hil
  have hcq : content C (cache_set C q idx) idx
      = (cache_set C q idx).cache.take (node_at q idx).size := by
    rw [content_cached C _ idx (cache_set_cached C q idx), cache_set_node_at]
  have hcidx : content C (cache_set C q idx) idx = content C q idx := by
    rcases hidx with h | h
    · subst h; exact c0
    · subst h; exact c1
  have hci : content C (insert_state C q idx x) idx = sorted_insert x (content C q idx) := by
    rw [content_cached C _ idx hcached, hself, ← hcidx, hcq]
    simp only [insert_state]
    rw [List.take_append_of_le_length (by rw [sorted_insert_length, List.length_take]; omega),
      List.take_of_length_le (by rw [sorted_insert_length, List.length_take]; omega)]
  have hother : ∀ k, (k = 0 ∨ k = 1) → k ≠ idx →
      content C (insert_state C q idx x) k = content C q k := by
    intro k hk hne
    have hnk : (insert_state C q idx x).cached_idx ≠ some k := by
      rw [hcached]; intro hh; injection hh with hh; exact hne hh.symm
    have hnk2 : (cache_set C q idx).cached_idx ≠ some k := by
      rw [cache_set_cached]; intro hh; injection hh with hh; exact hne hh.symm
    rw [content_disk C _ k hnk, insert_state_node_other C q idx k x (Ne.symm hne), hfile]
    rcases hk with hk | hk
    · rw [hk] at hnk2 ⊢
      rw [← c0, content_disk C _ 0 hnk2, cache_set_node_at]
    · rw [hk] at hnk2 ⊢
      rw [← c1, content_disk C _ 1 hnk2, cache_set_node_at]
  refine ⟨⟨?_, ?_, ?_, ?_, ?_, ?_, ?_, ?_⟩, hcached, hci, hother⟩
  · simp [insert_state, hs]
  · simpa [insert_state] using hnl
  · simp only [insert_state, List.length_append, sorted_insert_length, List.length_take,
      List.length_drop]
    omega
  · rw [hfile]; exact hf'
  · rcases hidx with h | h
    · subst h; rw [hself]; simp only; omega
    · rw [insert_state_node_other C q idx 0 x (by omega)]; exact h0
  · rcases hidx with h | h
    · rw [insert_state_node_other C q idx 1 x (by omega)]; exact h1
    · subst h; rw [hself]; simp only; omega
  · rw [hcached]
    rcases hidx with h | h
    · left; rw [h]
    · right; rw [h]
  · rcases hidx with h | h
    · subst h
      rcases hs1' with hh | hh | hh
      · rw [cache_set_cached] at hh; cases hh
      · right; left
        rw [insert_state_node_other C q 0 1 x (by omega)]
        simpa using hh
      · right; right
        rw [insert_state_node_other C q 0 1 x (by omega), hfile]
        simpa using hh
    · left; rw [hcached, h]

/-- An enqueue that leaves a two-block directory with two blocks is an
insertion below capacity into block 0 or block 1. -/
theorem two_block_enqueue (C : Nat) (q q1 : pq) (x : Int) (h : two_block C q)
    (he : pq_enqueue C q x = .ok q1) (hs : q1.size = 2) :
    ∃ idx, (idx = 0 ∨ idx = 1) ∧ (node_at q idx).size + 1 < C ∧
      q1 = insert_state C q idx x := by
  unfold pq_enqueue at he
  split at he
  · cases he
  · rename_i idx hf
    have hlt := (pq_block_find_some _ _ _ _ _ hf).1
    rw [h.1] at hlt
    have hidx : idx = 0 ∨ idx = 1 := by omega
    by_cases hn : (node_at q idx).size + 1 < C
    · exact ⟨idx, hidx, hn, pq_insert_below C q q1 idx x h.2.2.1 hn he⟩
    · exfalso
      obtain ⟨q4, h4, h5⟩ := pq_insert_full C q q1 idx x h.2.2.1 (by omega) he
      have hsz := (pq_heapify_nodes C (fun _ => True) trivial _ _ _ _ h5
        (fun _ _ => trivial)).2
      obtain ⟨-, -, -, hq4⟩ := pq_block_split_ok _ _ _ _ h4
      have : q4.size = 3 := by
        rw [hq4]
        simp [insert_state, h.1]
      omega
  · cases he

end PQ
namespace PQ

/-! ## Dequeue from a directory of one block -/

theorem getD_take (l : List Int) (n i : Nat) (d : Int) (h : i < n) :
    (l.take n).getD i d = l.getD i d := by
  simp only [List.getD_eq_getElem?_getD, List.getElem?_take, h, if_true]

theorem dequeue_dec_node_zero (C : Nat) (q : pq) (h : 0 < q.nodes.length) :
    node_at (dequeue_dec C q) 0
      = ⟨(node_at q 0).min, (node_at q 0).max, (node_at q 0).size - 1⟩ :=
  node_at_set_eq (dequeue_dec C q) q.nodes 0 _ (dequeue_dec_nodes C q) h

theorem dequeue_dec_node_other (C : Nat) (q : pq) (k : Nat) (h : 0 ≠ k) :
    node_at (dequeue_dec C q) k = node_at q k :=
  node_at_set_ne (dequeue_dec C q) q.nodes 0 k _ (dequeue_dec_nodes C q) h

theorem one_block_dequeue (C : Nat) (q : pq) (lo hi : Int) (l : List Int) (a : Int)
    (hq : one_block C q lo hi (l ++ [a])) (hl : l.length < C) :
    (l ≠ [] → pq_dequeue C q = .ok (.item a, dequeue_dec C q)) ∧
    (l = [] → ∃ q7, pq_dequeue C q = .ok (.item a, q7)) ∧
    one_block C (dequeue_dec C q) lo hi l := by
  obtain ⟨hs, hn, h0, hc, hlen, ht⟩ := hq
  have hcs := cache_set_same C q 0 hc
  have hsz : (node_at q 0).size = l.length + 1 := by rw [h0]; simp
  have hitem : (cache_set C q 0).cache.getD ((node_at q 0).size - 1) 0 = a := by
    rw [hcs, hsz, Nat.add_sub_cancel, ← getD_take q.cache (l.length + 1) l.length 0 (by omega)]
    have : (l ++ [a]).length = l.length + 1 := by simp
    rw [this] at ht
    rw [ht, List.getD_eq_getElem?_getD, List.getElem?_append_right (le_refl _)]
    simp
  have hob : one_block C (dequeue_dec C q) lo hi l := by
    refine ⟨by rw [dequeue_dec_size, hs], by rw [dequeue_dec_nodes]; simpa using hn, ?_,
      ?_, ?_, ?_⟩
    · rw [dequeue_dec_node_zero C q hn, h0]; simp
    · simp [dequeue_dec]
    · simp only [dequeue_dec, hcs]; exact hlen
    · simp only [dequeue_dec, hcs]
      have : (l ++ [a]).length = l.length + 1 := by simp
      rw [this] at ht
      have h2 : List.take l.length q.cache = List.take l.length (List.take (l.length + 1) q.cache) := by
        rw [List.take_take, Nat.min_eq_left (by omega)]
      rw [h2, ht, List.take_left']
      rfl
  refine ⟨?_, ?_, hob⟩
  · intro hne
    have hlpos : 0 < l.length := List.length_pos.2 hne
    rw [pq_dequeue_eq, if_pos (by omega), if_pos ⟨by omega, by omega⟩, if_neg (by omega), hitem]
  · intro he
    subst he
    have hret := pq_heapify_returns C ((dequeue_compact C q).size + 1) (dequeue_compact C q) 0
      (by omega) (by omega)
    obtain ⟨q7, h7⟩ := hret
    refine ⟨q7, ?_⟩
    rw [pq_dequeue_eq, if_pos (by omega), if_pos ⟨by omega, by omega⟩, if_pos (by rw [hsz]; rfl),
      h7, hitem]

theorem one_block_dequeue_all (C : Nat) (lo hi : Int) :
    ∀ (l : List Int) (q : pq), one_block C q lo hi l → l.length ≤ C →
      ∃ q1, dequeue_n C l.length q = .ok (l.reverse.map dq_result.item, q1) := by
  intro l
  induction l using List.reverseRecOn with
  | nil =>
    intro q _ _
    exact ⟨q, rfl⟩
  | append_singleton l a ih =>
    intro q hq hl
    have hlen : (l ++ [a]).length = l.length + 1 := by simp
    rw [hlen] at hl ⊢
    obtain ⟨h1, h2, h3⟩ := one_block_dequeue C q lo hi l a hq (by omega)
    simp only [dequeue_n]
    by_cases hne : l = []
    · obtain ⟨q7, h7⟩ := h2 hne
      subst hne
      rw [h7]
      exact ⟨q7, rfl⟩
    · rw [h1 hne]
      obtain ⟨q1, hq1⟩ := ih _ h3 (by omega)
      simp only
      rw [hq1]
      exact ⟨q1, by simp⟩

end PQ
namespace PQ

/-! ## Dequeue from a directory of two blocks -/

theorem two_block_dequeue (C : Nat) (q : pq) (h : two_block C q)
    (hn : 2 ≤ (node_at q 0).size) :
    pq_dequeue C q
        = .ok (.item ((content C q 0).getD ((node_at q 0).size - 1) 0), dequeue_dec C q) ∧
      two_block C (dequeue_dec C q) ∧
      (node_at (dequeue_dec C q) 0).size = (node_at q 0).size - 1 ∧
      node_at (dequeue_dec C q) 1 = node_at q 1 ∧
      content C (dequeue_dec C q) 0 = (content C q 0).take ((node_at q 0).size - 1) ∧
      content C (dequeue_dec C q) 1 = content C q 1 := by
  obtain ⟨t1, c0, c1⟩ := two_block_cache_set C q 0 h (Or.inl rfl)
  obtain ⟨hs, hnl, hlen, hf, h0, h1, hcd, hs1⟩ := h
  obtain ⟨hs', hnl', hlen', hf', h0', h1', hcd', hs1'⟩ := t1
  have hcc : (cache_set C q 0).cached_idx = some 0 := cache_set_cached C q 0
  have hc0 : content C q 0 = (cache_set C q 0).cache.take (node_at q 0).size := by
    rw [← c0, content_cached C _ 0 hcc, cache_set_node_at]
  have hn0 := dequeue_dec_node_zero C q (by omega)
  have hn1 := dequeue_dec_node_other C q 1 (by omega)
  have hdc : (dequeue_dec C q).cached_idx = some 0 := by simp [dequeue_dec]
  have hd1 : content C (dequeue_dec C q) 1 = content C q 1 := by
    rw [content_disk C _ 1 (by rw [hdc]; simp), hn1, ← c1,
      content_disk C _ 1 (by rw [hcc]; simp), cache_set_node_at]
    simp [dequeue_dec]
  refine ⟨?_, ⟨?_, ?_, ?_, ?_, ?_, ?_, Or.inl hdc, ?_⟩, ?_, hn1, ?_, hd1⟩
  · rw [pq_dequeue_eq, if_pos (by omega), if_pos ⟨by omega, by omega⟩, if_neg (by omega), hc0,
      getD_take _ _ _ _ (by omega)]
  · rw [dequeue_dec_size, hs]
  · rw [dequeue_dec_nodes]; simpa using hnl
  · simpa [dequeue_dec] using hlen'
  · simpa [dequeue_dec] using hf'
  · rw [hn0]; simp only; omega
  · rw [hn1]; exact h1
  · rcases hs1' with hh | hh | hh
    · rw [hcc] at hh; cases hh
    · right; left; rw [hn1]; simpa using hh
    · right; right; rw [hn1]; simpa [dequeue_dec] using hh
  · rw [hn0]
  · rw [content_cached C _ 0 hdc, hn0, hc0, List.take_take, Nat.min_eq_left (by omega)]
    simp [dequeue_dec]

theorem two_block_dequeue_last (C : Nat) (q : pq) (h : two_block C q)
    (hn : (node_at q 0).size = 1) :
    ∃ f, pq_dequeue C q = .ok (.item ((content C q 0).getD 0 0), f) ∧
      one_block C f (node_at q 1).min (node_at q 1).max (content C q 1) := by
  obtain ⟨t1, c0, c1⟩ := two_block_cache_set C q 0 h (Or.inl rfl)
  have hcl1 := content_length C q 1 h.2.2.1 (le_of_lt h.2.2.2.2.2.1) h.2.2.2.2.2.2.2
  obtain ⟨hs, hnl, hlen, hf, h0, h1, hcd, hs1⟩ := h
  obtain ⟨hs', hnl', hlen', hf', h0', h1', hcd', hs1'⟩ := t1
  have hcc : (cache_set C q 0).cached_idx = some 0 := cache_set_cached C q 0
  have hc0 : content C q 0 = (cache_set C q 0).cache.take (node_at q 0).size := by
    rw [← c0, content_cached C _ 0 hcc, cache_set_node_at]
  have hn0 := dequeue_dec_node_zero C q (by omega)
  have hn1 := dequeue_dec_node_other C q 1 (by omega)
  -- the state handed to `pq_block_exchange`
  let q4 : pq :=
    { nodes := (cache_invalidate (dequeue_dec C q)).nodes.set 0 (node_at q 1)
      cache := (cache_invalidate (dequeue_dec C q)).cache
      cached_idx := (cache_invalidate (dequeue_dec C q)).cached_idx
      size := 2
      file := (cache_invalidate (dequeue_dec C q)).file }
  have hdc : (dequeue_dec C q).cached_idx = some 0 := by simp [dequeue_dec]
  have hflush : cache_flush C (dequeue_dec C q) = dequeue_dec C q := by
    have hz : (node_at (dequeue_dec C q) 0).size = 0 := by rw [hn0]; simp [hn]
    unfold cache_flush
    rw [hdc]
    unfold cache_flush_idx
    simp only
    rw [hz, List.take_zero]
    rfl
  have hq3s : (cache_invalidate (dequeue_dec C q)).size = 2 := by
    simp [cache_invalidate, hs]
  have hq3n : node_at (cache_invalidate (dequeue_dec C q)) 1 = node_at q 1 := hn1
  have hq4cache : q4.cache = (cache_set C q 0).cache := rfl
  have hq4file : q4.file = (cache_set C q 0).file := rfl
  have hq4nodes : q4.nodes = (dequeue_dec C q).nodes.set 0 (node_at q 1) := rfl
  have hcompact : dequeue_compact C q = { pq_block_exchange C q4 0 1 with size := 1 } := by
    unfold dequeue_compact
    simp only [hflush]
    rw [hq3s, show 2 - 1 = 1 from rfl, hq3n]
    simp only [pq_block_exchange_size, hq3s]
  have q4n0 : node_at q4 0 = node_at q 1 :=
    node_at_set_eq q4 _ 0 _ hq4nodes
      (by rw [dequeue_dec_nodes]; simpa using (by omega : 0 < q.nodes.length))
  have q4n1 : node_at q4 1 = node_at q 1 := by
    rw [node_at_set_ne q4 _ 0 1 _ hq4nodes (by omega)]
    exact hn1
  have q4s1 : stored C q4 1 := by
    rcases hs1' with hh | hh | hh
    · rw [hcc] at hh; cases hh
    · right; left; rw [q4n1]; simpa using hh
    · right; right; rw [q4n1]; simpa using hh
  have q4s0 : stored C q4 0 := by
    right; right; rw [q4n0, hq4file]
    omega
  have q4c1 : content C q4 1 = content C q 1 := by
    have hq4cd : q4.cached_idx = none := rfl
    rw [content_disk C q4 1 (by rw [hq4cd]; simp), q4n1, ← c1,
      content_disk C _ 1 (by rw [hcc]; simp), cache_set_node_at, hq4file]
  obtain ⟨e1, e2, e3⟩ := pq_block_exchange_content C q4 0 1 (by rw [hq4cache]; exact hlen')
    (by intro c hc; cases hc) (by rw [q4n0]; omega) (by rw [q4n1]; omega) q4s0 q4s1
  rw [q4n0, q4n1, q4c1] at e3
  have e3' := e3 (le_refl _)
  -- the state handed to `pq_heapify`
  have hsz : (dequeue_compact C q).size = 1 := by rw [hcompact]
  have hheap := pq_heapify_small C 1 (dequeue_compact C q) (by omega)
  have hc6n0 : node_at (dequeue_compact C q) 0 = node_at q 1 := by
    have : node_at (dequeue_compact C q) 0 = node_at q4 0 := by
      rw [hcompact]; simp [node_at]
    rw [this, q4n0]
  have hc6n1 : node_at (dequeue_compact C q) 1 = node_at q 1 := by
    have : node_at (dequeue_compact C q) 1 = node_at q4 1 := by
      rw [hcompact]; simp [node_at]
    rw [this, q4n1]
  have hc6len : (dequeue_compact C q).cache.length = C := by
    rw [hcompact]
    exact pq_block_exchange_cache_length C q4 0 1 (by rw [hq4cache]; exact hlen')
  have hc6cd : (dequeue_compact C q).cached_idx = some 1 := by
    rw [hcompact]; simp
  have hc6file : (dequeue_compact C q).file = (pq_block_exchange C q4 0 1).file := by
    rw [hcompact]
  have hc6c0 : content C (dequeue_compact C q) 0 = content C q 1 := by
    rw [content_disk C _ 0 (by rw [hc6cd]; simp), hc6n0, hc6file]
    exact e3'
  have hc6s0 : stored C (dequeue_compact C q) 0 := by
    right; right
    rw [hc6n0, hc6file]
    rw [hq4file] at e2
    omega
  have hfin := cache_set_content C (dequeue_compact C q) 0 0 hc6len
    (by intro c hc; rw [hc6cd] at hc; injection hc with hc; rw [← hc, hc6n1]; omega)
    (by rw [hc6n0]; omega) hc6s0
  refine ⟨cache_set C (dequeue_compact C q) 0, ?_, ?_, ?_, ?_, cache_set_cached _ _ _,
    cache_set_cache_length C _ 0 hc6len, ?_⟩
  · rw [pq_dequeue_eq, if_pos (by omega), if_pos ⟨by omega, by omega⟩, if_pos (by omega),
      hsz, hheap, hc0, getD_take _ _ _ _ (by omega), hn]
  · rw [cache_set_size, hsz]
  · rw [cache_set_nodes, dequeue_compact_nodes]
    simp only [List.length_set]
    omega
  · rw [cache_set_node_at, hc6n0, hcl1]
  · rw [hcl1, ← hc6n0, ← cache_set_node_at C (dequeue_compact C q) 0 0,
      ← content_cached C _ 0 (cache_set_cached _ _ _), hfin.2, hc6c0]

end PQ
namespace PQ

/-! ## Filling a fresh queue -/

theorem pq_insert_size (C : Nat) (q q1 : pq) (idx : Nat) (item : Int)
    (h : pq_insert C q idx item = .ok q1) : q1.size = q.size ∨ q1.size = q.size + 1 := by
  unfold pq_insert at h
  simp only at h
  split at h
  · cases h
  · rename_i q2 h2
    obtain ⟨-, -, hsz2, -, -, -⟩ := cache_insert_ok _ _ _ _ _ h2
    rw [cache_set_size] at hsz2
    split at h
    · split at h
      · cases h
      · rename_i q4 h4
        obtain ⟨-, -, -, hq4⟩ := pq_block_split_ok _ _ _ _ h4
        have h6 := (pq_heapify_nodes C (fun _ => True) trivial _ _ _ _ h (fun _ _ => trivial)).2
        right
        rw [h6, hq4]
        simp [hsz2]
    · injection h with h
      subst h
      left
      simp [hsz2]

theorem pq_enqueue_size (C : Nat) (q q1 : pq) (item : Int)
    (h : pq_enqueue C q item = .ok q1) : q1.size = q.size ∨ q1.size = q.size + 1 := by
  unfold pq_enqueue at h
  split at h
  · cases h
  · exact pq_insert_size C q q1 _ item h
  · cases h

theorem pairwise_take (l : List Int) (n : Nat) (h : l.Pairwise (fun a b => a ≤ b)) :
    (l.take n).Pairwise (fun a b => a ≤ b) :=
  h.sublist (List.take_sublist n l)

theorem pairwise_drop (l : List Int) (n : Nat) (h : l.Pairwise (fun a b => a ≤ b)) :
    (l.drop n).Pairwise (fun a b => a ≤ b) :=
  h.sublist (List.drop_sublist n l)

theorem enq_phase_step (C : Nat) (hC : 2 ≤ C) (q q1 : pq) (x : Int) (hx : isInt32 x)
    (hq : enq_phase C q) (he : pq_enqueue C q x = .ok q1) : enq_phase C q1 := by
  rcases hq with ⟨l, hob, hl, hr, hp⟩ | ⟨h2, hn0, hn1, hp⟩ | h3
  · by_cases hlt : l.length + 1 < C
    · left
      rw [one_block_enqueue C q _ _ l x hob hlt hx hr] at he
      injection he with he
      subst he
      refine ⟨sorted_insert x l, one_block_insert C q _ _ l x hob (by omega),
        by rw [sorted_insert_length]; exact hlt, ?_, sorted_insert_pairwise x l hp⟩
      intro y hy
      rcases (mem_sorted_insert x y l).1 hy with h | h
      · rw [h]; exact hx
      · exact hr y h
    · right; left
      obtain ⟨f, hf, h2, -, hkeep, hswap⟩ :=
        one_block_enqueue_split C q _ _ l x hC hob (by omega) hx hr
      rw [hf] at he
      injection he with he
      subst he
      have hsp := sorted_insert_pairwise x l hp
      by_cases hk : INT32_MAX > (sorted_insert x l).getD (C / 2) 0
      · obtain ⟨a0, a1, c1, -⟩ := hswap hk
        refine ⟨h2, by rw [a0]; simp only; omega, by rw [a1]; simp only; omega, ?_⟩
        rw [c1]; exact pairwise_take _ _ hsp
      · obtain ⟨a0, a1, -, c1⟩ := hkeep hk
        refine ⟨h2, by rw [a0]; simp only; omega, by rw [a1]; simp only; omega, ?_⟩
        rw [c1]; exact pairwise_drop _ _ hsp
  · by_cases hs : q1.size = 2
    · right; left
      obtain ⟨idx, hidx, hn, hq1⟩ := two_block_enqueue C q q1 x h2 he hs
      subst hq1
      obtain ⟨t2, -, ci, co⟩ := two_block_insert C q idx x h2 hidx hn
      have hnl := h2.2.1
      rcases hidx with h | h
      · subst h
        refine ⟨t2, ?_, ?_, ?_⟩
        · rw [insert_state_node_self C q 0 x (by omega)]; simp
        · rw [insert_state_node_other C q 0 1 x (by omega)]; exact hn1
        · rw [co 1 (Or.inr rfl) (by omega)]; exact hp
      · subst h
        refine ⟨t2, ?_, ?_, ?_⟩
        · rw [insert_state_node_other C q 1 0 x (by omega)]; exact hn0
        · rw [insert_state_node_self C q 1 x (by omega)]; simp
        · rw [ci]; exact sorted_insert_pairwise x _ hp
    · right; right
      have := pq_enqueue_size C q q1 x he
      have := h2.1
      omega
  · right; right
    have := pq_enqueue_size C q q1 x he
    omega

theorem enq_phase_all (C : Nat) (hC : 2 ≤ C) :
    ∀ (xs : List Int) (q q1 : pq), (∀ x ∈ xs, isInt32 x) → enq_phase C q →
      enqueue_all C q xs = .ok q1 → enq_phase C q1 := by
  intro xs
  induction xs with
  | nil =>
    intro q q1 _ hq h
    simp only [enqueue_all] at h
    injection h with h
    subst h
    exact hq
  | cons x xs ih =>
    intro q q1 hx hq h
    simp only [enqueue_all] at h
    split at h
    · cases h
    · rename_i q2 h2
      exact ih q2 q1 (fun y hy => hx y (by simp [hy]))
        (enq_phase_step C hC q q2 x (hx x (by simp)) hq h2) h

theorem enq_phase_open (C : Nat) (hC : 2 ≤ C) (mem file : List Int) (h : mem.length = C) :
    enq_phase C (pq_open mem file) := by
  left
  exact ⟨[], one_block_open C mem file h, by simp; omega, by simp, by simp⟩

/-! ## Draining the root block -/

theorem two_block_drain (C : Nat) :
    ∀ (n : Nat) (q : pq), two_block C q → (node_at q 0).size = n + 1 →
      ∃ rs f, dequeue_n C (n + 1) q = .ok (rs, f) ∧
        one_block C f (node_at q 1).min (node_at q 1).max (content C q 1) := by
  intro n
  induction n with
  | zero =>
    intro q h2 hn
    obtain ⟨f, hf, hob⟩ := two_block_dequeue_last C q h2 (by omega)
    refine ⟨[.item ((content C q 0).getD 0 0)], f, ?_, hob⟩
    simp only [dequeue_n, hf]
  | succ n ih =>
    intro q h2 hn
    obtain ⟨hd, t2, hs0, hs1, -, hc1⟩ := two_block_dequeue C q h2 (by omega)
    obtain ⟨rs, f, hrs, hob⟩ := ih (dequeue_dec C q) t2 (by omega)
    rw [hs1, hc1] at hob
    refine ⟨.item ((content C q 0).getD ((node_at q 0).size - 1) 0) :: rs, f, ?_, hob⟩
    rw [dequeue_n, hd]
    simp only
    rw [hrs]

end PQ
namespace PQ

/-! ## Scenarios -/

theorem enqueue_all_append (C : Nat) :
    ∀ (xs ys : List Int) (q : pq),
      enqueue_all C q (xs ++ ys) =
        match enqueue_all C q xs with
        | .error e => .error e
        | .ok q1 => enqueue_all C q1 ys := by
  intro xs
  induction xs with
  | nil => intro ys q; rfl
  | cons x xs ih =>
    intro ys q
    simp only [List.cons_append, enqueue_all]
    split
    · rfl
    · rename_i q1 _
      exact ih ys q1

/-- C9: from a two-block state reached from a fresh queue by enqueues only,
as many dequeues as the root block holds items leave a directory of one
descriptor, and the next dequeues return the items of block 1, last to first,
which is a descending sequence. -/
theorem compaction_scenario (C : Nat) (hC : 2 ≤ C) (mem file : List Int)
    (hmem : mem.length = C) (xs : List Int) (hxs : ∀ x ∈ xs, isInt32 x) (q : pq)
    (hq : enqueue_all C (pq_open mem file) xs = .ok q) (hs : q.size = 2) :
    1 ≤ (node_at q 0).size ∧ (content C q 1).length = (node_at q 1).size ∧
    ∃ rs q1, dequeue_n C (node_at q 0).size q = .ok (rs, q1) ∧ q1.size = 1 ∧
      ∃ q2, dequeue_n C (node_at q 1).size q1
          = .ok ((content C q 1).reverse.map dq_result.item, q2) ∧
        (content C q 1).reverse.Pairwise (fun a b => a ≥ b) := by
  have hph := enq_phase_all C hC xs _ q hxs (enq_phase_open C hC mem file hmem) hq
  rcases hph with ⟨l, hob, -⟩ | ⟨h2, hn0, hn1, hp⟩ | h3
  · have := hob.1; omega
  · have hcl := content_length C q 1 h2.2.2.1 (le_of_lt h2.2.2.2.2.2.1) h2.2.2.2.2.2.2.2
    obtain ⟨rs, f, hrs, hob⟩ := two_block_drain C ((node_at q 0).size - 1) q h2 (by omega)
    rw [Nat.sub_add_cancel hn0] at hrs
    obtain ⟨q2, hq2⟩ := one_block_dequeue_all C _ _ (content C q 1) f hob
      (by rw [hcl]; exact le_of_lt h2.2.2.2.2.2.1)
    rw [hcl] at hq2
    refine ⟨hn0, hcl, rs, f, hrs, hob.1, q2, hq2, ?_⟩
    rw [List.pairwise_reverse]
    exact hp
  · omega

theorem compaction_scenario_witness :
    1 ≤ (node_at ⟨[⟨4, INT32_MAX, 3⟩, ⟨INT32_MIN, 3, 2⟩], [3, 4, 5, 5], some 0, 2,
        [3, 5, 3, 5, 1, 2]⟩ 0).size ∧
    (content 4 ⟨[⟨4, INT32_MAX, 3⟩, ⟨INT32_MIN, 3, 2⟩], [3, 4, 5, 5], some 0, 2,
        [3, 5, 3, 5, 1, 2]⟩ 1).length
      = (node_at ⟨[⟨4, INT32_MAX, 3⟩, ⟨INT32_MIN, 3, 2⟩], [3, 4, 5, 5], some 0, 2,
        [3, 5, 3, 5, 1, 2]⟩ 1).size ∧
    ∃ rs q1, dequeue_n 4 (node_at ⟨[⟨4, INT32_MAX, 3⟩, ⟨INT32_MIN, 3, 2⟩], [3, 4, 5, 5],
          some 0, 2, [3, 5, 3, 5, 1, 2]⟩ 0).size
        ⟨[⟨4, INT32_MAX, 3⟩, ⟨INT32_MIN, 3, 2⟩], [3, 4, 5, 5], some 0, 2, [3, 5, 3, 5, 1, 2]⟩
          = .ok (rs, q1) ∧ q1.size = 1 ∧
      ∃ q2, dequeue_n 4 (node_at ⟨[⟨4, INT32_MAX, 3⟩, ⟨INT32_MIN, 3, 2⟩], [3, 4, 5, 5],
            some 0, 2, [3, 5, 3, 5, 1, 2]⟩ 1).size q1
          = .ok ((content 4 ⟨[⟨4, INT32_MAX, 3⟩, ⟨INT32_MIN, 3, 2⟩], [3, 4, 5, 5], some 0, 2,
              [3, 5, 3, 5, 1, 2]⟩ 1).reverse.map dq_result.item, q2) ∧
        (content 4 ⟨[⟨4, INT32_MAX, 3⟩, ⟨INT32_MIN, 3, 2⟩], [3, 4, 5, 5], some 0, 2,
          [3, 5, 3, 5, 1, 2]⟩ 1).reverse.Pairwise (fun a b => a ≥ b) :=
  compaction_scenario 4 (by decide) [0, 0, 0, 0] [] rfl [1, 5, 3, 2, 4] (by decide) _
    (by decide) rfl

/-- C10, amended: a block is split when its size reaches the capacity.  With
capacity at least two, fewer than `CACHESIZE` enqueues into a fresh queue leave
a single descriptor holding all items; the next enqueue keeps it single while
the block stays below capacity and creates the second descriptor when the size
reaches `CACHESIZE`, leaving both blocks below capacity. -/
theorem split_threshold (C : Nat) (hC : 2 ≤ C) (mem file : List Int) (hmem : mem.length = C)
    (xs : List Int) (x : Int) (hxs : ∀ y ∈ xs, isInt32 y) (hx : isInt32 x)
    (hlen : xs.length < C) :
    ∃ q q1, enqueue_all C (pq_open mem file) xs = .ok q ∧ q.size = 1 ∧
      (node_at q 0).size = xs.length ∧ pq_enqueue C q x = .ok q1 ∧
      (xs.length + 1 < C → q1.size = 1 ∧ (node_at q1 0).size = xs.length + 1) ∧
      (xs.length + 1 = C → q1.size = 2 ∧ (node_at q1 0).size < C ∧ (node_at q1 1).size < C ∧
        (node_at q1 0).size + (node_at q1 1).size = C) := by
  obtain ⟨q, hq, hob⟩ := one_block_enqueue_all C INT32_MIN INT32_MAX xs [] (pq_open mem file)
    (one_block_open C mem file hmem) (by simpa using hlen) hxs (by simp)
  have hil : (insert_all xs []).length = xs.length := by rw [insert_all_length]; simp
  have hir := insert_all_range INT32_MIN INT32_MAX xs [] hxs (by simp)
  have hsz : (node_at q 0).size = xs.length := by rw [hob.2.2.1, hil]
  by_cases hlt : xs.length + 1 < C
  · refine ⟨q, insert_state C q 0 x, hq, hob.1, hsz,
      one_block_enqueue C q _ _ _ x hob (by rw [hil]; exact hlt) hx hir, ?_, ?_⟩
    · intro _
      have h1 := one_block_insert C q _ _ _ x hob (by rw [hil]; omega)
      exact ⟨h1.1, by rw [h1.2.2.1, sorted_insert_length, hil]⟩
    · intro h; omega
  · obtain ⟨f, hf, h2, -, hkeep, hswap⟩ :=
      one_block_enqueue_split C q _ _ _ x hC hob (by rw [hil]; omega) hx hir
    refine ⟨q, f, hq, hob.1, hsz, hf, fun h => absurd h hlt, fun _ => ⟨h2.1, ?_⟩⟩
    by_cases hk : INT32_MAX > (sorted_insert x (insert_all xs [])).getD (C / 2) 0
    · obtain ⟨a0, a1, -, -⟩ := hswap hk
      rw [a0, a1]; simp only; omega
    · obtain ⟨a0, a1, -, -⟩ := hkeep hk
      rw [a0, a1]; simp only; omega

theorem split_threshold_witness :
    ∃ q q1, enqueue_all 4 (pq_open [0, 0, 0, 0] []) [1, 5, 3] = .ok q ∧ q.size = 1 ∧
      (node_at q 0).size = [(1 : Int), 5, 3].length ∧ pq_enqueue 4 q 2 = .ok q1 ∧
      ([(1 : Int), 5, 3].length + 1 < 4 →
        q1.size = 1 ∧ (node_at q1 0).size = [(1 : Int), 5, 3].length + 1) ∧
      ([(1 : Int), 5, 3].length + 1 = 4 →
        q1.size = 2 ∧ (node_at q1 0).size < 4 ∧ (node_at q1 1).size < 4 ∧
        (node_at q1 0).size + (node_at q1 1).size = 4) :=
  split_threshold 4 (by decide) [0, 0, 0, 0] [] rfl [1, 5, 3] 2 (by decide) (by decide)
    (by decide)

end PQ
namespace PQ

theorem dequeue_n_cons (C n : Nat) (q q1 q2 : pq) (r : dq_result) (rs : List dq_result)
    (h1 : pq_dequeue C q = .ok (r, q1)) (h2 : dequeue_n C n q1 = .ok (rs, q2)) :
    dequeue_n C (n + 1) q = .ok (r :: rs, q2) := by
  simp only [dequeue_n, h1, h2]

/-- C8: with capacity 4, enqueuing 1, 5, 3, 2, 4 into a fresh queue (whatever
the cache array and the backing file held) leaves exactly the two descriptors
`[4, INT32_MAX]` and `[INT32_MIN, 3]`, which are disjoint and cover the int32
domain, and five dequeues return 5, 4, 3, 2, 1. -/
theorem split_scenario (mem file : List Int) (hmem : mem.length = 4) :
    ∃ q, enqueue_all 4 (pq_open mem file) [1, 5, 3, 2, 4] = .ok q ∧ q.size = 2 ∧
      node_at q 0 = ⟨4, INT32_MAX, 3⟩ ∧ node_at q 1 = ⟨INT32_MIN, 3, 2⟩ ∧
      (∀ x : Int, ¬ (((node_at q 0).min ≤ x ∧ x ≤ (node_at q 0).max) ∧
        ((node_at q 1).min ≤ x ∧ x ≤ (node_at q 1).max))) ∧
      (∀ x : Int, isInt32 x ↔ (((node_at q 0).min ≤ x ∧ x ≤ (node_at q 0).max) ∨
        ((node_at q 1).min ≤ x ∧ x ≤ (node_at q 1).max))) ∧
      ∃ q1, dequeue_n 4 5 q = .ok ([.item 5, .item 4, .item 3, .item 2, .item 1], q1) := by
  -- three enqueues into the single block
  obtain ⟨q3, hq3, ob3⟩ := one_block_enqueue_all 4 INT32_MIN INT32_MAX [1, 5, 3] []
    (pq_open mem file) (one_block_open 4 mem file hmem) (by decide) (by decide) (by simp)
  have e3 : insert_all [1, 5, 3] [] = [1, 3, 5] := by decide
  rw [e3] at ob3
  -- the fourth enqueue splits
  obtain ⟨f, hf, t2, hfc, -, hswap⟩ := one_block_enqueue_split 4 q3 _ _ [1, 3, 5] 2
    (by decide) ob3 rfl (by decide) (by decide)
  have es : sorted_insert 2 [1, 3, 5] = [1, 2, 3, 5] := by decide
  rw [es] at hswap
  obtain ⟨n0, n1, c1, c0⟩ := hswap (by decide)
  have c0 := c0 (by decide)
  have hn0 : node_at f 0 = ⟨4, INT32_MAX, 2⟩ := by rw [n0]; decide
  have hn1 : node_at f 1 = ⟨INT32_MIN, 3, 2⟩ := by rw [n1]; decide
  have hc0 : content 4 f 0 = [3, 5] := by rw [c0]; decide
  have hc1 : content 4 f 1 = [1, 2] := by rw [c1]; decide
  -- the fifth enqueue goes to the root block
  have hfind : pq_block_find f 4 (f.size + 1) 0 = .ok (some 0) :=
    pq_block_find_root f 4 f.size (by rw [t2.1]; decide) (by rw [hn0]; decide)
  have hins := pq_insert_below_ok 4 f 0 4 t2.2.2.1 (by rw [hn0]; decide)
    (by rw [cache_set_same 4 f 0 hfc, ← content_cached 4 f 0 hfc, hc0, hn0]; decide)
  have henq : pq_enqueue 4 f 4 = .ok (insert_state 4 f 0 4) := by
    unfold pq_enqueue
    rw [hfind]
    exact hins
  obtain ⟨tg, -, gc0, gco⟩ := two_block_insert 4 f 0 4 t2 (Or.inl rfl) (by rw [hn0]; decide)
  have gc1 := gco 1 (Or.inr rfl) (by decide)
  rw [hc0] at gc0
  rw [hc1] at gc1
  have gn0 : node_at (insert_state 4 f 0 4) 0 = ⟨4, INT32_MAX, 3⟩ := by
    rw [insert_state_node_self 4 f 0 4 (by have := t2.2.1; omega), hn0]
  have gn1 : node_at (insert_state 4 f 0 4) 1 = ⟨INT32_MIN, 3, 2⟩ := by
    rw [insert_state_node_other 4 f 0 1 4 (by decide), hn1]
  have hall : enqueue_all 4 (pq_open mem file) [1, 5, 3, 2, 4]
      = .ok (insert_state 4 f 0 4) := by
    rw [show ([1, 5, 3, 2, 4] : List Int) = [1, 5, 3] ++ [2, 4] from rfl, enqueue_all_append, hq3]
    simp only [enqueue_all, hf, henq]
  -- three dequeues from the root block
  have gc0v : content 4 (insert_state 4 f 0 4) 0 = [3, 4, 5] := by rw [gc0]; decide
  obtain ⟨d1, td1, s1, m1, k1, o1⟩ := two_block_dequeue 4 _ tg (by rw [gn0]; decide)
  rw [gn0, gc0v] at d1 k1
  rw [gn0] at s1
  rw [gc1] at o1
  rw [gn1] at m1
  have d1v : pq_dequeue 4 (insert_state 4 f 0 4)
      = .ok (.item 5, dequeue_dec 4 (insert_state 4 f 0 4)) := d1
  have s1v : (node_at (dequeue_dec 4 (insert_state 4 f 0 4)) 0).size = 2 := s1
  have k1v : content 4 (dequeue_dec 4 (insert_state 4 f 0 4)) 0 = [3, 4] := k1
  obtain ⟨d2, td2, s2, m2, k2, o2⟩ := two_block_dequeue 4 _ td1 (by rw [s1v])
  rw [s1v, k1v] at d2 k2
  rw [s1v] at s2
  rw [o1] at o2
  rw [m1] at m2
  have d2v : pq_dequeue 4 (dequeue_dec 4 (insert_state 4 f 0 4))
      = .ok (.item 4, dequeue_dec 4 (dequeue_dec 4 (insert_state 4 f 0 4))) := d2
  have s2v : (node_at (dequeue_dec 4 (dequeue_dec 4 (insert_state 4 f 0 4))) 0).size = 1 := s2
  have k2v : content 4 (dequeue_dec 4 (dequeue_dec 4 (insert_state 4 f 0 4))) 0 = [3] := k2
  obtain ⟨g, d3, ob⟩ := two_block_dequeue_last 4 _ td2 s2v
  rw [k2v] at d3
  rw [o2, m2] at ob
  have d3v : pq_dequeue 4 (dequeue_dec 4 (dequeue_dec 4 (insert_state 4 f 0 4)))
      = .ok (.item 3, g) := d3
  -- two dequeues from the remaining block
  obtain ⟨q5, d45⟩ := one_block_dequeue_all 4 _ _ [1, 2] g ob (by decide)
  have d45v : dequeue_n 4 2 g = .ok ([.item 2, .item 1], q5) := d45
  refine ⟨insert_state 4 f 0 4, hall, tg.1, gn0, gn1, ?_, ?_, q5, ?_⟩
  · intro x
    rw [gn0, gn1]
    simp only [INT32_MIN, INT32_MAX]
    omega
  · intro x
    rw [gn0, gn1]
    simp only [isInt32, INT32_MIN, INT32_MAX]
    omega
  · exact dequeue_n_cons 4 _ _ _ _ _ _ d1v
      (dequeue_n_cons 4 _ _ _ _ _ _ d2v (dequeue_n_cons 4 _ _ _ _ _ _ d3v d45v))

theorem split_scenario_witness :
    ∃ q, enqueue_all 4 (pq_open [0, 0, 0, 0] []) [1, 5, 3, 2, 4] = .ok q ∧ q.size = 2 ∧
      node_at q 0 = ⟨4, INT32_MAX, 3⟩ ∧ node_at q 1 = ⟨INT32_MIN, 3, 2⟩ ∧
      (∀ x : Int, ¬ (((node_at q 0).min ≤ x ∧ x ≤ (node_at q 0).max) ∧
        ((node_at q 1).min ≤ x ∧ x ≤ (node_at q 1).max))) ∧
      (∀ x : Int, isInt32 x ↔ (((node_at q 0).min ≤ x ∧ x ≤ (node_at q 0).max) ∨
        ((node_at q 1).min ≤ x ∧ x ≤ (node_at q 1).max))) ∧
      ∃ q1, dequeue_n 4 5 q = .ok ([.item 5, .item 4, .item 3, .item 2, .item 1], q1) :=
  split_scenario [0, 0, 0, 0] [] rfl

end PQ

namespace PQ

/-! ## Evaluated runs: overflow, exchange, lost items, failing assertion -/

/-- C20: the median of a reachable split can be `INT32_MAX`.  With
`CACHESIZE = 2`, after one `pq_enqueue` of `INT32_MAX` the second `pq_enqueue`
of `INT32_MAX` finds the root, fills it and calls `pq_block_split` in a state
whose median is `INT32_MAX`: `mid + 1` is outside the range of `int`, and the
descriptor that the split appends has `min = INT32_MIN` (the wrapped sum),
below `mid`. -/
theorem split_min_overflows :
    enqueue_all 2 (pq_open [0, 0] []) [INT32_MAX]
        = .ok ⟨[⟨INT32_MIN, INT32_MAX, 1⟩], [INT32_MAX, 0], some 0, 1, []⟩ ∧
      pq_block_find ⟨[⟨INT32_MIN, INT32_MAX, 1⟩], [INT32_MAX, 0], some 0, 1, []⟩
        INT32_MAX 2 0 = .ok (some 0) ∧
      pq_insert 2 ⟨[⟨INT32_MIN, INT32_MAX, 1⟩], [INT32_MAX, 0], some 0, 1, []⟩ 0 INT32_MAX
        = (pq_block_split 2
            ⟨[⟨INT32_MIN, INT32_MAX, 2⟩], [INT32_MAX, INT32_MAX], some 0, 1, []⟩ 0).bind
          (fun q4 => pq_heapify 2 (q4.size + 1) q4 0) ∧
      split_mid ⟨[⟨INT32_MIN, INT32_MAX, 2⟩], [INT32_MAX, INT32_MAX], some 0, 1, []⟩ 0
        = INT32_MAX ∧
      ¬ isInt32 (INT32_MAX + 1) ∧
      (pq_block_split 2
          ⟨[⟨INT32_MIN, INT32_MAX, 2⟩], [INT32_MAX, INT32_MAX], some 0, 1, []⟩ 0).map
        (fun q4 => (q4.size, node_at q4 1)) = .ok (2, ⟨INT32_MIN, INT32_MAX, 1⟩) := by
  decide

/-- C13: `pq_block_exchange` followed by the swap of the two descriptors does
not exchange the contents of blocks of different sizes.  With `CACHESIZE = 4`,
the enqueues 1, 2, 3, 4, 0 leave block 0 with the items `[3, 4]` and block 1
with `[0, 1, 2]`; after `pq_block_exchange(0, 1)` and the swap of the
descriptors block 1 holds `[3, 4]` but block 0 holds `[0, 1, 3]`: only
`nodes[0].size = 2` items of block 1 were written to block 0. -/
theorem exchange_garbles_content :
    enqueue_all 4 (pq_open [0, 0, 0, 0] []) [1, 2, 3, 4, 0]
        = .ok ⟨[⟨4, INT32_MAX, 2⟩, ⟨INT32_MIN, 3, 3⟩], [0, 1, 2, 4], some 1, 2,
            [3, 4, 3, 4, 1, 2]⟩ ∧
      content 4 ⟨[⟨4, INT32_MAX, 2⟩, ⟨INT32_MIN, 3, 3⟩], [0, 1, 2, 4], some 1, 2,
            [3, 4, 3, 4, 1, 2]⟩ 0 = [3, 4] ∧
      content 4 ⟨[⟨4, INT32_MAX, 2⟩, ⟨INT32_MIN, 3, 3⟩], [0, 1, 2, 4], some 1, 2,
            [3, 4, 3, 4, 1, 2]⟩ 1 = [0, 1, 2] ∧
      swap_state 4 ⟨[⟨4, INT32_MAX, 2⟩, ⟨INT32_MIN, 3, 3⟩], [0, 1, 2, 4], some 1, 2,
            [3, 4, 3, 4, 1, 2]⟩ 0 1
        = ⟨[⟨INT32_MIN, 3, 3⟩, ⟨4, INT32_MAX, 2⟩], [3, 4, 2, 4], some 1, 2,
            [0, 1, 3, 4, 0, 1, 2]⟩ ∧
      content 4 ⟨[⟨INT32_MIN, 3, 3⟩, ⟨4, INT32_MAX, 2⟩], [3, 4, 2, 4], some 1, 2,
            [0, 1, 3, 4, 0, 1, 2]⟩ 0 = [0, 1, 3] ∧
      content 4 ⟨[⟨INT32_MIN, 3, 3⟩, ⟨4, INT32_MAX, 2⟩], [3, 4, 2, 4], some 1, 2,
            [0, 1, 3, 4, 0, 1, 2]⟩ 1 = [3, 4] := by
  decide

/-- C18: with an even capacity the dequeued items need not be a permutation of
the enqueued ones.  With `CACHESIZE = 4`, enqueuing 4, 6, 1, 7, 3, 2, 5, 2, 0
and dequeuing nine times returns 7, 6, 6, 4, 3, 2, 2, 1, 0: the item 5 is lost
and 6 is returned twice. -/
theorem items_lost :
    run_results (enqueue_then_dequeue 4 (pq_open [0, 0, 0, 0] []) [4, 6, 1, 7, 3, 2, 5, 2, 0])
      = some [.item 7, .item 6, .item 6, .item 4, .item 3, .item 2, .item 2, .item 1,
          .item 0] := by
  decide

/-- C19: an `assert` of `cache_insert` fails in a run from a fresh queue whose
dequeues are issued on a non-empty queue.  With `CACHESIZE = 4` the run
enqueue 1, 6, 0, 5, 3, 2, 6, 2, 7, 0, dequeue, enqueue 4, dequeue reaches a
state whose root block has range `[3, 5]` and holds the items `[2, 3, 6]`; the
next enqueue of 3 shifts the 6 and the `assert` on `max` fails. -/
theorem assertion_fails :
    run_ops 4 (pq_open [0, 0, 0, 0] [])
        [.enqueue 1, .enqueue 6, .enqueue 0, .enqueue 5, .enqueue 3, .enqueue 2, .enqueue 6,
          .enqueue 2, .enqueue 7, .enqueue 0, .dequeue, .enqueue 4, .dequeue]
        = .ok ([.item 6, .item 5],
            ⟨[⟨3, 5, 3⟩, ⟨INT32_MIN, 1, 2⟩, ⟨2, 2, 2⟩, ⟨7, INT32_MAX, 2⟩, ⟨2, 2, 2⟩],
              [2, 3, 6, 7], some 0, 4,
              [2, 3, 6, 7, 0, 0, 1, 2, 1, 2, 4, 0, 6, 7, 0, 0, 5, 6]⟩) ∧
      pq_enqueue 4
          ⟨[⟨3, 5, 3⟩, ⟨INT32_MIN, 1, 2⟩, ⟨2, 2, 2⟩, ⟨7, INT32_MAX, 2⟩, ⟨2, 2, 2⟩],
            [2, 3, 6, 7], some 0, 4,
            [2, 3, 6, 7, 0, 0, 1, 2, 1, 2, 4, 0, 6, 7, 0, 0, 5, 6]⟩ 3
        = .error .assertion := by
  decide

end PQ

namespace PQ

/-! ## Sorted insertion: order, items and positions -/

theorem perm_insert_backwards (item : Int) (l : List Int) :
    (insert_backwards item l).Perm (item :: l) := by
  induction l with
  | nil => exact List.Perm.refl _
  | cons c rest ih =>
    simp only [insert_backwards]
    split
    · exact (List.Perm.cons c ih).trans (List.Perm.swap item c rest)
    · exact List.Perm.refl _

theorem perm_sorted_insert (item : Int) (l : List Int) :
    (sorted_insert item l).Perm (item :: l) := by
  unfold sorted_insert
  refine (List.reverse_perm _).trans ((perm_insert_backwards item _).trans ?_)
  exact List.Perm.cons item (List.reverse_perm l)

/-- Where the item lands: behind a front part that is kept and before the
trailing run of greater items. -/
theorem sorted_insert_split (item : Int) (l : List Int) :
    ∃ k, k ≤ l.length ∧ sorted_insert item l = l.take k ++ item :: l.drop k ∧
      (∀ x ∈ l.drop k, x > item) ∧
      (l.Pairwise (fun a b => a ≤ b) → ∀ x ∈ l.take k, x ≤ item) := by
  induction l using List.reverseRecOn with
  | nil => exact ⟨0, le_refl _, rfl, by simp, by simp⟩
  | append_singleton l c ih =>
    by_cases hc : c > item
    · obtain ⟨k, hk, he, hd, ht⟩ := ih
      refine ⟨k, by simp; omega, ?_, ?_, ?_⟩
      · rw [sorted_insert_append_gt _ _ _ hc, he, List.take_append_of_le_length hk,
          List.drop_append_of_le_length hk]
        simp
      · intro x hx
        rw [List.drop_append_of_le_length hk] at hx
        rcases List.mem_append.1 hx with hx | hx
        · exact hd x hx
        · simp only [List.mem_singleton] at hx
          rw [hx]; exact hc
      · intro hp x hx
        rw [List.take_append_of_le_length hk] at hx
        exact ht (List.pairwise_append.1 hp).1 x hx
    · refine ⟨(l ++ [c]).length, le_refl _, ?_, ?_, ?_⟩
      · rw [sorted_insert_append_le _ _ _ hc, List.take_length, List.drop_length]
        simp
      · simp
      · intro hp x hx
        rw [List.take_length] at hx
        rcases List.mem_append.1 hx with hx | hx
        · have := (List.pairwise_append.1 hp).2.2 x hx c (by simp)
          omega
        · simp only [List.mem_singleton] at hx
          omega

theorem sorted_insert_keep (item : Int) (l : List Int) (i : Nat) (x : Int)
    (hx : l[i]? = some x) (h : x ≤ item) :
    (sorted_insert item l)[i]? = some x := by
  obtain ⟨k, hk, he, hd, ht⟩ := sorted_insert_split item l
  have hi : i < l.length := by
    rcases Nat.lt_or_ge i l.length with h1 | h1
    · exact h1
    · rw [List.getElem?_eq_none h1] at hx; cases hx
  have hik : i < k := by
    rcases Nat.lt_or_ge i k with h1 | h1
    · exact h1
    · exfalso
      have hm : x ∈ l.drop k := by
        rw [List.mem_iff_getElem?]
        refine ⟨i - k, ?_⟩
        rw [List.getElem?_drop, ← hx]
        congr 1; omega
      have := hd x hm
      omega
  rw [he, List.getElem?_append_left (by rw [List.length_take]; omega), List.getElem?_take_of_lt hik]
  exact hx

theorem sorted_insert_shift (item : Int) (l : List Int) (i : Nat) (x : Int)
    (hp : l.Pairwise (fun a b => a ≤ b)) (hx : l[i]? = some x) (h : x > item) :
    (sorted_insert item l)[i + 1]? = some x := by
  obtain ⟨k, hk, he, hd, ht⟩ := sorted_insert_split item l
  have hi : i < l.length := by
    rcases Nat.lt_or_ge i l.length with h1 | h1
    · exact h1
    · rw [List.getElem?_eq_none h1] at hx; cases hx
  have hik : k ≤ i := by
    rcases Nat.lt_or_ge i k with h1 | h1
    · exfalso
      have hm : x ∈ l.take k := by
        rw [List.mem_iff_getElem?]
        refine ⟨i, ?_⟩
        rw [List.getElem?_take_of_lt h1]
        exact hx
      have := ht hp x hm
      omega
    · exact h1
  have hlen : (l.take k).length = k := by rw [List.length_take]; omega
  rw [he, List.getElem?_append_right (by rw [hlen]; omega), hlen]
  have : i + 1 - k = (i - k) + 1 := by omega
  rw [this, List.getElem?_cons_succ, List.getElem?_drop, ← hx]
  congr 1; omega

/-- C15, as stated, fails: `cache_insert` does not return for every sorted
cache.  With `CACHESIZE = 4` and the root block cached with range `[3, 5]` and
the sorted items `[2, 3, 6]` (a state reached from a fresh queue),
`cache_insert(pq, 3, 3)` has to shift the 6 and stops at the `assert` on
`max`. -/
theorem cache_insert_aborts :
    ([2, 3, 6] : List Int).Pairwise (fun a b => a ≤ b) ∧
      cache_insert 4
          ⟨[⟨3, 5, 3⟩, ⟨INT32_MIN, 1, 2⟩, ⟨2, 2, 2⟩, ⟨7, INT32_MAX, 2⟩, ⟨2, 2, 2⟩],
            [2, 3, 6, 7], some 0, 4,
            [2, 3, 6, 7, 0, 0, 1, 2, 1, 2, 4, 0, 6, 7, 0, 0, 5, 6]⟩ 3 3
        = .error .assertion := by
  decide

/-- C15, amended: sorted insertion when the shifted entries pass the asserts.
For `size < CACHESIZE`, a cache bound to block `c` whose first `size` entries
are ascending, and an item such that every entry greater than the item lies in
`[nodes[c].min, nodes[c].max]`, `cache_insert` returns; the first `size + 1`
entries are then ascending and a permutation of the former first `size`
entries plus the item, entries `<= item` keep their positions, entries
`> item` move up by one, and nothing else changes. -/
theorem cache_insert_sorted (C : Nat) (q : pq) (c n : Nat) (item : Int)
    (hlen : q.cache.length = C) (hn : n < C) (hc : q.cached_idx = some c)
    (hp : (q.cache.take n).Pairwise (fun a b => a ≤ b))
    (hr : ∀ x ∈ q.cache.take n, item < x → (node_at q c).min ≤ x ∧ x ≤ (node_at q c).max) :
    ∃ q2, cache_insert C q n item = .ok q2 ∧
      (q2.cache.take (n + 1)).Pairwise (fun a b => a ≤ b) ∧
      (q2.cache.take (n + 1)).Perm (item :: q.cache.take n) ∧
      (∀ i x, i < n → q.cache[i]? = some x → x ≤ item → q2.cache[i]? = some x) ∧
      (∀ i x, i < n → q.cache[i]? = some x → x > item → q2.cache[i + 1]? = some x) ∧
      q2.cache.drop (n + 1) = q.cache.drop (n + 1) ∧ q2.cache.length = C ∧
      q2.nodes = q.nodes ∧ q2.cached_idx = q.cached_idx ∧ q2.size = q.size ∧
      q2.file = q.file := by
  refine ⟨_, cache_insert_spec C q c n item hlen hn hc hr, ?_⟩
  have hl : (sorted_insert item (q.cache.take n)).length = n + 1 := by
    rw [sorted_insert_length, List.length_take]; omega
  have htake : (sorted_insert item (q.cache.take n) ++ q.cache.drop (n + 1)).take (n + 1)
      = sorted_insert item (q.cache.take n) := by
    rw [List.take_append_of_le_length (by omega), List.take_of_length_le (by omega)]
  simp only
  rw [htake]
  refine ⟨sorted_insert_pairwise _ _ hp, perm_sorted_insert _ _, ?_, ?_, ?_, ?_, trivial,
    trivial, trivial, trivial⟩
  · intro i x hi hx hle
    rw [List.getElem?_append_left (by omega)]
    exact sorted_insert_keep item _ i x (by rw [List.getElem?_take_of_lt hi]; exact hx) hle
  · intro i x hi hx hgt
    rw [List.getElem?_append_left (by omega)]
    exact sorted_insert_shift item _ i x hp (by rw [List.getElem?_take_of_lt hi]; exact hx) hgt
  · rw [List.drop_append_of_le_length (by omega), List.drop_of_length_le (by omega)]
    simp
  · rw [List.length_append, hl, List.length_drop]; omega

theorem cache_insert_sorted_witness :
    ∃ q2, cache_insert 4 ⟨[⟨0, 9, 3⟩], [2, 3, 6, 7], some 0, 1, []⟩ 3 4 = .ok q2 ∧
      (q2.cache.take (3 + 1)).Pairwise (fun a b => a ≤ b) ∧
      (q2.cache.take (3 + 1)).Perm
        (4 :: (pq.cache ⟨[⟨0, 9, 3⟩], [2, 3, 6, 7], some 0, 1, []⟩).take 3) ∧
      (∀ i x, i < 3 → (pq.cache ⟨[⟨0, 9, 3⟩], [2, 3, 6, 7], some 0, 1, []⟩)[i]? = some x →
        x ≤ 4 → q2.cache[i]? = some x) ∧
      (∀ i x, i < 3 → (pq.cache ⟨[⟨0, 9, 3⟩], [2, 3, 6, 7], some 0, 1, []⟩)[i]? = some x →
        x > 4 → q2.cache[i + 1]? = some x) ∧
      q2.cache.drop (3 + 1) = (pq.cache ⟨[⟨0, 9, 3⟩], [2, 3, 6, 7], some 0, 1, []⟩).drop (3 + 1) ∧
      q2.cache.length = 4 ∧
      q2.nodes = pq.nodes ⟨[⟨0, 9, 3⟩], [2, 3, 6, 7], some 0, 1, []⟩ ∧
      q2.cached_idx = pq.cached_idx ⟨[⟨0, 9, 3⟩], [2, 3, 6, 7], some 0, 1, []⟩ ∧
      q2.size = pq.size ⟨[⟨0, 9, 3⟩], [2, 3, 6, 7], some 0, 1, []⟩ ∧
      q2.file = pq.file ⟨[⟨0, 9, 3⟩], [2, 3, 6, 7], some 0, 1, []⟩ :=
  cache_insert_sorted 4 ⟨[⟨0, 9, 3⟩], [2, 3, 6, 7], some 0, 1, []⟩ 0 3 4 rfl (by decide) rfl
    (by decide) (by decide)

/-! ## Transparency of the cache -/

/-- C16, as stated, fails: a valid `cached_idx` and sizes within the capacity
do not make `cache_set` transparent.  With `CACHESIZE = 4`, block 0 cached with
the items `[1, 2]` and block 1 of size 2 whose image in the file ends after its
first item 7, the `read` of `cache_set(pq, 1)` is short and the content of
block 1 becomes `[7, 2]`: the second item is what block 0 left in the cache. -/
theorem cache_set_short_read :
    content 4 ⟨[⟨0, 5, 2⟩, ⟨6, 9, 2⟩], [1, 2, 0, 0], some 0, 2, [0, 0, 0, 0, 7]⟩ 1 = [7] ∧
      cache_set 4 ⟨[⟨0, 5, 2⟩, ⟨6, 9, 2⟩], [1, 2, 0, 0], some 0, 2, [0, 0, 0, 0, 7]⟩ 1
        = ⟨[⟨0, 5, 2⟩, ⟨6, 9, 2⟩], [7, 2, 0, 0], some 1, 2, [1, 2, 0, 0, 7]⟩ ∧
      content 4 ⟨[⟨0, 5, 2⟩, ⟨6, 9, 2⟩], [7, 2, 0, 0], some 1, 2, [1, 2, 0, 0, 7]⟩ 1
        = [7, 2] := by
  decide

/-- C16, amended: the write-back cache is transparent for the blocks whose
items are held by the cache or lie inside the file.  When the cached block and
block `k` have at most `CACHESIZE` items and the items of `k` are stored,
`cache_set(idx)` sets `cached_idx = idx`, changes no descriptor and not the
directory length, keeps the items of `k` stored and leaves the logical content
of `k` unchanged; when `cached_idx` already equals `idx` it changes nothing. -/
theorem cache_transparent (C : Nat) (q : pq) (idx k : Nat)
    (hlen : q.cache.length = C)
    (hc : ∀ c, q.cached_idx = some c → (node_at q c).size ≤ C)
    (hk : (node_at q k).size ≤ C) (hs : stored C q k) :
    (cache_set C q idx).cached_idx = some idx ∧
      (cache_set C q idx).nodes = q.nodes ∧ (cache_set C q idx).size = q.size ∧
      stored C (cache_set C q idx) k ∧
      content C (cache_set C q idx) k = content C q k ∧
      (q.cached_idx = some idx → cache_set C q idx = q) := by
  have h := cache_set_content C q idx k hlen hc hk hs
  exact ⟨cache_set_cached C q idx, cache_set_nodes C q idx, cache_set_size C q idx, h.1, h.2,
    cache_set_same C q idx⟩

theorem cache_transparent_witness :
    (cache_set 4 ⟨[⟨4, INT32_MAX, 2⟩, ⟨INT32_MIN, 3, 3⟩], [0, 1, 2, 4], some 1, 2,
        [3, 4, 3, 4, 1, 2]⟩ 0).cached_idx = some 0 ∧
      (cache_set 4 ⟨[⟨4, INT32_MAX, 2⟩, ⟨INT32_MIN, 3, 3⟩], [0, 1, 2, 4], some 1, 2,
        [3, 4, 3, 4, 1, 2]⟩ 0).nodes
        = pq.nodes ⟨[⟨4, INT32_MAX, 2⟩, ⟨INT32_MIN, 3, 3⟩], [0, 1, 2, 4], some 1, 2,
          [3, 4, 3, 4, 1, 2]⟩ ∧
      (cache_set 4 ⟨[⟨4, INT32_MAX, 2⟩, ⟨INT32_MIN, 3, 3⟩], [0, 1, 2, 4], some 1, 2,
        [3, 4, 3, 4, 1, 2]⟩ 0).size
        = pq.size ⟨[⟨4, INT32_MAX, 2⟩, ⟨INT32_MIN, 3, 3⟩], [0, 1, 2, 4], some 1, 2,
          [3, 4, 3, 4, 1, 2]⟩ ∧
      stored 4 (cache_set 4 ⟨[⟨4, INT32_MAX, 2⟩, ⟨INT32_MIN, 3, 3⟩], [0, 1, 2, 4], some 1, 2,
        [3, 4, 3, 4, 1, 2]⟩ 0) 1 ∧
      content 4 (cache_set 4 ⟨[⟨4, INT32_MAX, 2⟩, ⟨INT32_MIN, 3, 3⟩], [0, 1, 2, 4], some 1, 2,
        [3, 4, 3, 4, 1, 2]⟩ 0) 1
        = content 4 ⟨[⟨4, INT32_MAX, 2⟩, ⟨INT32_MIN, 3, 3⟩], [0, 1, 2, 4], some 1, 2,
          [3, 4, 3, 4, 1, 2]⟩ 1 ∧
      (pq.cached_idx ⟨[⟨4, INT32_MAX, 2⟩, ⟨INT32_MIN, 3, 3⟩], [0, 1, 2, 4], some 1, 2,
          [3, 4, 3, 4, 1, 2]⟩ = some 0 →
        cache_set 4 ⟨[⟨4, INT32_MAX, 2⟩, ⟨INT32_MIN, 3, 3⟩], [0, 1, 2, 4], some 1, 2,
          [3, 4, 3, 4, 1, 2]⟩ 0
          = ⟨[⟨4, INT32_MAX, 2⟩, ⟨INT32_MIN, 3, 3⟩], [0, 1, 2, 4], some 1, 2,
            [3, 4, 3, 4, 1, 2]⟩) :=
  cache_transparent 4 ⟨[⟨4, INT32_MAX, 2⟩, ⟨INT32_MIN, 3, 3⟩], [0, 1, 2, 4], some 1, 2,
      [3, 4, 3, 4, 1, 2]⟩ 0 1 rfl (by intro c h; cases h; decide) (by decide)
    (Or.inl rfl)

end PQ

namespace PQ

/-! ## Postcondition of the split -/

/-- A write to block `i` leaves every item the file holds outside the window of
that block where it is. -/
theorem file_write_getElem? (C : Nat) (file : List Int) (i p : Nat) (d : List Int)
    (hp : p < file.length) (ho : p < i * C ∨ i * C + d.length ≤ p) :
    (file_write C file i d)[p]? = file[p]? := by
  cases d with
  | nil => rfl
  | cons a t =>
    simp only [file_write]
    simp only [List.length_cons] at ho
    rw [List.append_assoc]
    rcases ho with h | h
    · rw [List.getElem?_append_left (by simp; omega), List.getElem?_take_of_lt h,
        List.getElem?_append_left hp]
    · rw [List.getElem?_append_right (by simp; omega),
        List.getElem?_append_right (by simp; omega)]
      simp only [List.getElem?_drop, List.length_take, List.length_append,
        List.length_replicate, List.length_cons]
      rw [List.getElem?_append_left (by omega)]
      congr 1; omega

theorem wrap32_succ (x : Int) (h : isInt32 x) (hx : x < INT32_MAX) : wrap32 (x + 1) = x + 1 := by
  unfold isInt32 INT32_MIN INT32_MAX at *
  unfold wrap32
  omega

/-- Postcondition of `pq_block_split(idx)` on the cached block `idx` with
`n = nodes[idx].size` items and `mid = cache[n / 2]`.  The call returns; the
directory length grows by one; the new last descriptor is
`{mid + 1, old max, n - n / 2}` with the sum taken in `int`, which is `mid + 1`
when `mid < INT32_MAX`; the cache, bound to the new index, starts with the
items `c[n/2..n)`; descriptor `idx` is `{old min, mid, n / 2}` and its disk
image starts with `c[0..n/2)`; every other descriptor, every item of the file
outside the window of block `idx` and the image of every other block inside
the file are unchanged. -/
theorem split_postcondition (C : Nat) (q : pq) (idx : Nat)
    (hC : 0 < C) (hlen : q.cache.length = C) (hidx : idx < q.size) (hsz : q.size < PQSIZE)
    (hn : q.size ≤ q.nodes.length) (hc : q.cached_idx = some idx)
    (hs : (node_at q idx).size ≤ C) :
    ∃ q1, pq_block_split C q idx = .ok q1 ∧
      q1.size = q.size + 1 ∧
      node_at q1 q.size = ⟨wrap32 (split_mid q idx + 1), (node_at q idx).max,
        (node_at q idx).size - (node_at q idx).size / 2⟩ ∧
      (isInt32 (split_mid q idx) → split_mid q idx < INT32_MAX →
        wrap32 (split_mid q idx + 1) = split_mid q idx + 1) ∧
      q1.cached_idx = some q.size ∧
      q1.cache.take ((node_at q idx).size - (node_at q idx).size / 2)
        = (q.cache.take (node_at q idx).size).drop ((node_at q idx).size / 2) ∧
      node_at q1 idx = ⟨(node_at q idx).min, split_mid q idx, (node_at q idx).size / 2⟩ ∧
      disk_block C q1.file idx ((node_at q idx).size / 2)
        = q.cache.take ((node_at q idx).size / 2) ∧
      (∀ k, k ≠ idx → k ≠ q.size → node_at q1 k = node_at q k) ∧
      (∀ p, p < q.file.length → (p < idx * C ∨ idx * C + (node_at q idx).size ≤ p) →
        q1.file[p]? = q.file[p]?) ∧
      (∀ k m, k ≠ idx → m ≤ C → k * C + m ≤ q.file.length →
        disk_block C q1.file k m = disk_block C q.file k m) := by
  have hhalf : (node_at q idx).size / 2 < C := by
    have := Nat.div_le_self (node_at q idx).size 2
    rcases Nat.eq_zero_or_pos (node_at q idx).size with h | h
    · rw [h]; exact hC
    · have := Nat.div_lt_self h (by decide : 1 < 2)
      omega
  have hile : idx < q.nodes.length := by omega
  have hfile : (split_state C q idx).file
      = file_write C q.file idx (q.cache.take (node_at q idx).size) := by
    simp [split_state, cache_flush, hc, cache_flush_idx]
  have htl : (q.cache.take (node_at q idx).size).length = (node_at q idx).size := by
    rw [List.length_take]; omega
  refine ⟨split_state C q idx, ?_, rfl, ?_, wrap32_succ _, rfl, ?_, ?_, ?_, ?_, ?_, ?_⟩
  · rw [pq_block_split_eq, if_pos ⟨hsz, hs, hhalf⟩]
  · unfold node_at split_mid
    simp only [split_state]
    rw [List.getD_eq_getElem?_getD, List.getElem?_set_ne (by omega),
      ← List.getD_eq_getElem?_getD, nodes_write_getD _ _ _ _ hn]
    rfl
  · simp only [split_state]
    rw [split_copy_take _ _ _ (by have := Nat.div_le_self (node_at q idx).size 2; omega),
      List.drop_take]
  · unfold node_at split_mid
    simp only [split_state]
    rw [List.getD_eq_getElem?_getD, List.getElem?_set_self (by
      unfold nodes_write; split <;> simp <;> omega)]
    rfl
  · rw [hfile, disk_block_write_front _ _ _ _ _ (by
      rw [htl]; exact Nat.div_le_self _ _), List.take_take,
      Nat.min_eq_left (Nat.div_le_self _ _)]
  · intro k hk hks
    unfold node_at
    simp only [split_state, List.getD_eq_getElem?_getD]
    rw [List.getElem?_set_ne (by omega)]
    congr 1
    unfold nodes_write
    split
    · rw [List.getElem?_set_ne (by omega)]
    · have hl : q.nodes.length = q.size := by omega
      rcases Nat.lt_or_ge k q.nodes.length with h | h
      · rw [List.getElem?_append_left h]
      · rw [List.getElem?_eq_none (by simp; omega), List.getElem?_eq_none h]
  · intro p hp ho
    rw [hfile]
    exact file_write_getElem? C q.file idx p _ hp (by rw [htl]; exact ho)
  · intro k m hk hm hf
    rw [hfile]
    exact disk_block_write_other C q.file idx k m _ hk (by rw [htl]; exact hs) hm hf

theorem split_postcondition_witness :
    ∃ q1, pq_block_split 4 ⟨[⟨INT32_MIN, INT32_MAX, 4⟩], [1, 2, 3, 5], some 0, 1, [9]⟩ 0
        = .ok q1 ∧
      q1.size = 1 + 1 ∧
      node_at q1 1 = ⟨wrap32 (split_mid
          ⟨[⟨INT32_MIN, INT32_MAX, 4⟩], [1, 2, 3, 5], some 0, 1, [9]⟩ 0 + 1), INT32_MAX,
        4 - 4 / 2⟩ ∧
      (isInt32 (split_mid ⟨[⟨INT32_MIN, INT32_MAX, 4⟩], [1, 2, 3, 5], some 0, 1, [9]⟩ 0) →
        split_mid ⟨[⟨INT32_MIN, INT32_MAX, 4⟩], [1, 2, 3, 5], some 0, 1, [9]⟩ 0 < INT32_MAX →
        wrap32 (split_mid ⟨[⟨INT32_MIN, INT32_MAX, 4⟩], [1, 2, 3, 5], some 0, 1, [9]⟩ 0 + 1)
          = split_mid ⟨[⟨INT32_MIN, INT32_MAX, 4⟩], [1, 2, 3, 5], some 0, 1, [9]⟩ 0 + 1) ∧
      q1.cached_idx = some 1 ∧
      q1.cache.take (4 - 4 / 2) = (([1, 2, 3, 5] : List Int).take 4).drop (4 / 2) ∧
      node_at q1 0 = ⟨INT32_MIN,
        split_mid ⟨[⟨INT32_MIN, INT32_MAX, 4⟩], [1, 2, 3, 5], some 0, 1, [9]⟩ 0, 4 / 2⟩ ∧
      disk_block 4 q1.file 0 (4 / 2) = ([1, 2, 3, 5] : List Int).take (4 / 2) ∧
      (∀ k, k ≠ 0 → k ≠ 1 →
        node_at q1 k
          = node_at ⟨[⟨INT32_MIN, INT32_MAX, 4⟩], [1, 2, 3, 5], some 0, 1, [9]⟩ k) ∧
      (∀ p, p < ([9] : List Int).length → (p < 0 * 4 ∨ 0 * 4 + 4 ≤ p) →
        q1.file[p]? = ([9] : List Int)[p]?) ∧
      (∀ k m, k ≠ 0 → m ≤ 4 → k * 4 + m ≤ ([9] : List Int).length →
        disk_block 4 q1.file k m = disk_block 4 [9] k m) :=
  split_postcondition 4 ⟨[⟨INT32_MIN, INT32_MAX, 4⟩], [1, 2, 3, 5], some 0, 1, [9]⟩ 0
    (by decide) rfl (by decide) (by decide) (by decide) rfl (by decide)

/-- C12: the split of a full block whose median is `INT32_MAX` does not give
the new descriptor `min = mid + 1`.  With `CACHESIZE = 2`, after one
`pq_enqueue` of `INT32_MAX` the second one calls `pq_block_split(pq, 0)` with
the cache bound to block 0 and holding the ascending items
`[INT32_MAX, INT32_MAX]`, so `n = 2` and `mid = INT32_MAX`.  The directory
grows to two descriptors, descriptor 0 becomes `{INT32_MIN, mid, 1}`, its disk
image and the cache each start with one `INT32_MAX`, but the new descriptor is
`{INT32_MIN, INT32_MAX, 1}`: its `min` is the wrapped sum, not
`mid + 1 = 2147483648`. -/
theorem split_min_not_successor :
    enqueue_all 2 (pq_open [0, 0] []) [INT32_MAX]
        = .ok ⟨[⟨INT32_MIN, INT32_MAX, 1⟩], [INT32_MAX, 0], some 0, 1, []⟩ ∧
      pq_enqueue 2 ⟨[⟨INT32_MIN, INT32_MAX, 1⟩], [INT32_MAX, 0], some 0, 1, []⟩ INT32_MAX
        = (pq_block_split 2
            ⟨[⟨INT32_MIN, INT32_MAX, 2⟩], [INT32_MAX, INT32_MAX], some 0, 1, []⟩ 0).bind
          (fun q4 => pq_heapify 2 (q4.size + 1) q4 0) ∧
      ([INT32_MAX, INT32_MAX].take 2).Pairwise (fun a b => a ≤ b) ∧
      split_mid ⟨[⟨INT32_MIN, INT32_MAX, 2⟩], [INT32_MAX, INT32_MAX], some 0, 1, []⟩ 0
        = INT32_MAX ∧
      (pq_block_split 2
          ⟨[⟨INT32_MIN, INT32_MAX, 2⟩], [INT32_MAX, INT32_MAX], some 0, 1, []⟩ 0).map
        (fun q1 => (q1.size, node_at q1 0, q1.cached_idx))
        = .ok (2, ⟨INT32_MIN, INT32_MAX, 1⟩, some 1) ∧
      (pq_block_split 2
          ⟨[⟨INT32_MIN, INT32_MAX, 2⟩], [INT32_MAX, INT32_MAX], some 0, 1, []⟩ 0).map
        (fun q1 => (q1.cache.take 1, disk_block 2 q1.file 0 1))
        = .ok ([INT32_MAX], [INT32_MAX]) ∧
      (pq_block_split 2
          ⟨[⟨INT32_MIN, INT32_MAX, 2⟩], [INT32_MAX, INT32_MAX], some 0, 1, []⟩ 0).map
        (fun q1 => node_at q1 1) = .ok ⟨INT32_MIN, INT32_MAX, 1⟩ ∧
      INT32_MIN ≠ INT32_MAX + 1 := by
  decide

end PQ

namespace PQ

/-! ## The search for the owning block -/

theorem in_subtree_le {i k : Nat} (h : in_subtree i k) : i ≤ k := by
  induction h with
  | root i => exact le_refl _
  | left _ ih => omega
  | right _ ih => omega

theorem in_subtree_child {a p : Nat} (h : in_subtree a p) :
    in_subtree a (2 * p + 1) ∧ in_subtree a (2 * p + 2) := by
  induction h with
  | root i => exact ⟨.left (.root _), .right (.root _)⟩
  | left _ ih => exact ⟨.left ih.1, .left ih.2⟩
  | right _ ih => exact ⟨.right ih.1, .right ih.2⟩

theorem in_subtree_zero (k : Nat) : in_subtree 0 k := by
  induction k using Nat.strong_induction_on with
  | _ k ih =>
    rcases Nat.eq_zero_or_pos k with h | h
    · rw [h]; exact .root 0
    · rcases Nat.even_or_odd k with he | ho
      · obtain ⟨m, hm⟩ := he
        have : k = 2 * (m - 1) + 2 := by omega
        rw [this]
        exact (in_subtree_child (ih (m - 1) (by omega))).2
      · obtain ⟨m, hm⟩ := ho
        rw [hm]
        exact (in_subtree_child (ih m (by omega))).1

theorem mem_preorder (size : Nat) :
    ∀ (d idx i : Nat), size ≤ idx + d →
      (i ∈ preorder size (d + 1) idx ↔ i < size ∧ in_subtree idx i) := by
  intro d
  induction d with
  | zero =>
    intro idx i h
    simp only [preorder]
    rw [if_neg (by omega)]
    constructor
    · intro hm; cases hm
    · intro ⟨h1, h2⟩
      have := in_subtree_le h2
      omega
  | succ d ih =>
    intro idx i h
    rw [preorder]
    split
    · rename_i hlt
      rw [List.mem_cons, List.mem_append, ih _ i (by omega), ih _ i (by omega)]
      constructor
      · rintro (h1 | ⟨h1, h2⟩ | ⟨h1, h2⟩)
        · rw [h1]; exact ⟨hlt, .root _⟩
        · exact ⟨h1, .left h2⟩
        · exact ⟨h1, .right h2⟩
      · rintro ⟨h1, h2⟩
        cases h2 with
        | root => exact Or.inl rfl
        | left h3 => exact Or.inr (Or.inl ⟨h1, h3⟩)
        | right h3 => exact Or.inr (Or.inr ⟨h1, h3⟩)
    · rename_i hge
      constructor
      · intro hm; cases hm
      · intro ⟨h1, h2⟩
        have := in_subtree_le h2
        omega

theorem preorder_succ (size d idx : Nat) :
    preorder size (d + 1) idx =
      if idx < size then
        idx :: (preorder size d (2 * idx + 1) ++ preorder size d (2 * idx + 2))
      else [] := rfl

theorem preorder_depth (size : Nat) :
    ∀ (d e idx : Nat), size ≤ idx + d → size ≤ idx + e →
      preorder size (d + 1) idx = preorder size (e + 1) idx := by
  intro d
  induction d with
  | zero =>
    intro e idx h1 h2
    rw [preorder_succ, preorder_succ, if_neg (by omega), if_neg (by omega)]
  | succ d ih =>
    intro e idx h1 h2
    rw [preorder_succ size (d + 1)]
    by_cases hlt : idx < size
    · rw [if_pos hlt]
      cases e with
      | zero => omega
      | succ e =>
        rw [preorder_succ size (e + 1), if_pos hlt, ih e _ (by omega) (by omega),
          ih e _ (by omega) (by omega)]
    · rw [if_neg hlt, preorder_succ, if_neg hlt]

theorem pq_block_find_preorder (q : pq) (item : Int) :
    ∀ (d idx : Nat), q.size ≤ idx + d →
      pq_block_find q item (d + 1) idx
        = .ok ((preorder q.size (d + 1) idx).find? (in_range q item)) := by
  intro d
  induction d with
  | zero =>
    intro idx h
    rw [pq_block_find, preorder, if_neg (by omega), if_neg (by omega)]
    rfl
  | succ d ih =>
    intro idx h
    rw [pq_block_find, preorder]
    split
    · rw [ih _ (by omega), ih _ (by omega), List.find?_cons, List.find?_append]
      generalize List.find? (in_range q item) (preorder q.size (d + 1) (2 * idx + 1)) = l
      generalize List.find? (in_range q item) (preorder q.size (d + 1) (2 * idx + 2)) = r
      by_cases hm : item ≥ (node_at q idx).min ∧ item ≤ (node_at q idx).max
      · have hp : in_range q item idx = true := by
          simp only [in_range]; exact decide_eq_true hm
        rw [if_pos hm, hp]
      · have hp : in_range q item idx = false := by
          simp only [in_range]; exact decide_eq_false hm
        rw [if_neg hm, hp]
        cases l <;> cases r <;> rfl
    · rfl

/-- C11: `pq_block_find(pq, 0, item)` terminates (every recursion budget above
`size` gives the same result) and returns the first index, in the pre-order
(node, left subtree, right subtree) of the implicit binary tree, whose
descriptor has `min <= item <= max`.  The pre-order lists exactly the indices
below `size`, so the result is `-1` if and only if no descriptor at an index
below `size` contains the item, and otherwise an index below `size` whose
descriptor contains the item, whatever the heap shape. -/
theorem find_sound_complete (q : pq) (item : Int) :
    ∃ r, (∀ fuel, q.size < fuel → pq_block_find q item fuel 0 = .ok r) ∧
      r = (preorder q.size (q.size + 1) 0).find? (in_range q item) ∧
      (∀ i, i ∈ preorder q.size (q.size + 1) 0 ↔ i < q.size) ∧
      (r = none ↔
        ∀ i, i < q.size → ¬ ((node_at q i).min ≤ item ∧ item ≤ (node_at q i).max)) ∧
      (∀ i, r = some i →
        i < q.size ∧ (node_at q i).min ≤ item ∧ item ≤ (node_at q i).max) := by
  have hmem : ∀ i, i ∈ preorder q.size (q.size + 1) 0 ↔ i < q.size := by
    intro i
    rw [mem_preorder q.size q.size 0 i (by omega)]
    exact ⟨fun h => h.1, fun h => ⟨h, in_subtree_zero i⟩⟩
  refine ⟨_, ?_, rfl, hmem, ?_, ?_⟩
  · intro fuel hf
    obtain ⟨d, rfl⟩ : ∃ d, fuel = d + 1 := ⟨fuel - 1, by omega⟩
    rw [pq_block_find_preorder q item d 0 (by omega),
      preorder_depth q.size d q.size 0 (by omega) (by omega)]
  · rw [List.find?_eq_none]
    constructor
    · intro h i hi hr
      exact h i ((hmem i).2 hi) (by simp only [in_range]; exact decide_eq_true ⟨hr.1, hr.2⟩)
    · intro h i hi hr
      simp only [in_range, decide_eq_true_eq] at hr
      exact h i ((hmem i).1 hi) ⟨hr.1, hr.2⟩
  · intro i hi
    have h1 := List.find?_some hi
    have h2 := List.mem_of_find?_eq_some hi
    simp only [in_range, decide_eq_true_eq] at h1
    exact ⟨(hmem i).1 h2, h1.1, h1.2⟩

end PQ

namespace PQ

/-! ## Sift-down on the descriptors -/

theorem in_subtree_up {a k : Nat} (h : in_subtree a k) :
    a = k ∨ (a < k ∧ in_subtree a ((k - 1) / 2)) := by
  induction h with
  | root i => exact Or.inl rfl
  | @left i k h ih =>
    right
    rcases ih with h1 | ⟨h1, h2⟩
    · subst h1
      refine ⟨by omega, ?_⟩
      have : (2 * i + 1 - 1) / 2 = i := by omega
      rw [this]; exact .root i
    · exact ⟨by omega, .left h2⟩
  | @right i k h ih =>
    right
    rcases ih with h1 | ⟨h1, h2⟩
    · subst h1
      refine ⟨by omega, ?_⟩
      have : (2 * i + 2 - 1) / 2 = i := by omega
      rw [this]; exact .root i
    · exact ⟨by omega, .right h2⟩

theorem in_subtree_disjoint (i : Nat) :
    ∀ k, in_subtree (2 * i + 1) k → in_subtree (2 * i + 2) k → False := by
  intro k
  induction k using Nat.strong_induction_on with
  | _ k ih =>
    intro h1 h2
    rcases in_subtree_up h1 with e1 | ⟨l1, u1⟩
    · have := in_subtree_le h2; omega
    · rcases in_subtree_up h2 with e2 | ⟨l2, u2⟩
      · subst e2
        have : (2 * i + 2 - 1) / 2 = i := by omega
        rw [this] at u1
        have := in_subtree_le u1; omega
      · exact ih ((k - 1) / 2) (by omega) u1 u2

theorem count_set (l : List pq_node) (x a : pq_node) :
    ∀ (i : Nat), i < l.length →
      (l.set i x).count a + (if l.getD i ⟨0, 0, 0⟩ = a then 1 else 0)
        = l.count a + (if x = a then 1 else 0) := by
  induction l with
  | nil => intro i h; simp at h
  | cons h t ih =>
    intro i hi
    cases i with
    | zero =>
      simp only [List.set_cons_zero, List.count_cons, List.getD_cons_zero, beq_iff_eq]
      omega
    | succ i =>
      simp only [List.set_cons_succ, List.count_cons, List.getD_cons_succ, beq_iff_eq]
      have := ih i (by simpa using hi)
      omega

theorem swap_perm (l : List pq_node) (i j : Nat) (hi : i < l.length) (hj : j < l.length) :
    ((l.set i (l.getD j ⟨0, 0, 0⟩)).set j (l.getD i ⟨0, 0, 0⟩)).Perm l := by
  rw [List.perm_iff_count]
  intro a
  have h1 := count_set l (l.getD j ⟨0, 0, 0⟩) a i hi
  have h2 := count_set (l.set i (l.getD j ⟨0, 0, 0⟩)) (l.getD i ⟨0, 0, 0⟩) a j
    (by simpa using hj)
  have h3 : (l.set i (l.getD j ⟨0, 0, 0⟩)).getD j ⟨0, 0, 0⟩ = l.getD j ⟨0, 0, 0⟩ := by
    by_cases hij : i = j
    · subst hij
      simp only [List.getD_eq_getElem?_getD, List.getElem?_set_self hi, Option.getD_some]
    · simp only [List.getD_eq_getElem?_getD, List.getElem?_set_ne hij]
  rw [h3] at h2
  omega

theorem heapify_largest_rule (q : pq) (i : Nat) :
    (heapify_largest q i = i ∧
        (2 * i + 1 < q.size → (node_at q (2 * i + 1)).max ≤ (node_at q i).max) ∧
        (2 * i + 2 < q.size → (node_at q (2 * i + 2)).max ≤ (node_at q i).max)) ∨
      (heapify_largest q i = 2 * i + 1 ∧ 2 * i + 1 < q.size ∧
        (node_at q (2 * i + 1)).max > (node_at q i).max ∧
        (2 * i + 2 < q.size → (node_at q (2 * i + 2)).max ≤ (node_at q (2 * i + 1)).max)) ∨
      (heapify_largest q i = 2 * i + 2 ∧ 2 * i + 2 < q.size ∧
        (node_at q (2 * i + 2)).max > (node_at q i).max ∧
        (2 * i + 1 < q.size → (node_at q (2 * i + 1)).max < (node_at q (2 * i + 2)).max)) := by
  unfold heapify_largest
  simp only
  by_cases hl : 2 * i + 1 < q.size ∧ (node_at q (2 * i + 1)).max > (node_at q i).max
  · rw [if_pos hl]
    by_cases hr : 2 * i + 2 < q.size ∧ (node_at q (2 * i + 2)).max > (node_at q (2 * i + 1)).max
    · rw [if_pos hr]
      exact Or.inr (Or.inr ⟨rfl, hr.1, by omega, fun _ => hr.2⟩)
    · rw [if_neg hr]
      refine Or.inr (Or.inl ⟨rfl, hl.1, hl.2, fun h => ?_⟩)
      by_contra hc
      exact hr ⟨h, by omega⟩
  · rw [if_neg hl]
    by_cases hr : 2 * i + 2 < q.size ∧ (node_at q (2 * i + 2)).max > (node_at q i).max
    · rw [if_pos hr]
      refine Or.inr (Or.inr ⟨rfl, hr.1, hr.2, fun h => ?_⟩)
      by_contra hc
      exact hl ⟨h, by omega⟩
    · rw [if_neg hr]
      refine Or.inl ⟨rfl, fun h => ?_, fun h => ?_⟩
      · by_contra hc
        exact hl ⟨h, by omega⟩
      · by_contra hc
        exact hr ⟨h, by omega⟩

theorem pq_heapify_step (C fuel : Nat) (q : pq) (i : Nat) :
    pq_heapify C (fuel + 1) q i =
      if heapify_largest q i ≠ i then
        match pq_heapify C fuel (swap_state C q i (heapify_largest q i))
          (heapify_largest q i) with
        | .error e => .error e
        | .ok q3 => .ok (cache_set C q3 i)
      else .ok (cache_set C q i) := by
  rw [pq_heapify_succ]
  have hst : ({ pq_block_exchange C q i (heapify_largest q i) with
      nodes := ((pq_block_exchange C q i (heapify_largest q i)).nodes.set i
        (node_at (pq_block_exchange C q i (heapify_largest q i)) (heapify_largest q i))).set
          (heapify_largest q i)
          (node_at (pq_block_exchange C q i (heapify_largest q i)) i) } : pq)
      = swap_state C q i (heapify_largest q i) := by
    simp [swap_state]
  by_cases h : heapify_largest q i ≠ i
  · rw [if_pos h, if_pos h, hst]
  · rw [if_neg h, if_neg h]

theorem swap_state_nodes (C : Nat) (q : pq) (i j : Nat) :
    (swap_state C q i j).nodes = (q.nodes.set i (node_at q j)).set j (node_at q i) := rfl

theorem swap_state_node_at (C : Nat) (q : pq) (i j k : Nat)
    (hi : i < q.nodes.length) (hj : j < q.nodes.length) (hij : i ≠ j) :
    node_at (swap_state C q i j) k =
      if k = j then node_at q i else if k = i then node_at q j else node_at q k := by
  rw [show node_at (swap_state C q i j) k = (swap_state C q i j).nodes.getD k ⟨0, 0, 0⟩ from rfl,
    swap_state_nodes, List.getD_eq_getElem?_getD]
  split
  · rename_i h
    subst h
    rw [List.getElem?_set_self (by simpa using hj)]
    rfl
  · rename_i h
    rw [List.getElem?_set_ne (by omega)]
    split
    · rename_i h2
      subst h2
      rw [List.getElem?_set_self hi]
      rfl
    · rename_i h2
      rw [List.getElem?_set_ne (by omega), ← List.getD_eq_getElem?_getD]
      rfl

end PQ

namespace PQ

theorem swap_state_length (C : Nat) (q : pq) (i j : Nat) :
    (swap_state C q i j).nodes.length = q.nodes.length := by
  rw [swap_state_nodes]; simp

theorem swap_state_take (C : Nat) (q : pq) (i c : Nat) (hn : q.size ≤ q.nodes.length)
    (hi : i < q.size) (hc : c < q.size) :
    ((swap_state C q i c).nodes.take q.size).Perm (q.nodes.take q.size) := by
  have hg : ∀ j, j < q.size → node_at q j = (q.nodes.take q.size).getD j ⟨0, 0, 0⟩ := by
    intro j hj
    unfold node_at
    rw [List.getD_eq_getElem?_getD, List.getD_eq_getElem?_getD, List.getElem?_take_of_lt hj]
  rw [swap_state_nodes, List.set_take, List.set_take, hg i hi, hg c hc]
  exact swap_perm _ i c (by rw [List.length_take]; omega) (by rw [List.length_take]; omega)

theorem swap_state_drop (C : Nat) (q : pq) (i c : Nat) (hi : i < q.size) (hc : c < q.size) :
    (swap_state C q i c).nodes.drop q.size = q.nodes.drop q.size := by
  rw [swap_state_nodes, List.drop_set_of_lt _ _ hc, List.drop_set_of_lt _ _ hi]

/-- The subtrees below the child that is swapped are in heap order after the
swap. -/
theorem swap_heap_children (C : Nat) (q : pq) (i c : Nat) (hn : q.size ≤ q.nodes.length)
    (hc : c = 2 * i + 1 ∨ c = 2 * i + 2) (hcs : c < q.size)
    (hl : heap_at q (2 * i + 1)) (hr : heap_at q (2 * i + 2)) :
    heap_at (swap_state C q i c) (2 * c + 1) ∧ heap_at (swap_state C q i c) (2 * c + 2) := by
  have hcq : heap_at q c := by
    rcases hc with h | h
    · rw [h]; exact hl
    · rw [h]; exact hr
  have key : ∀ k, c < k → in_subtree c k → k < (swap_state C q i c).size →
      (2 * k + 1 < (swap_state C q i c).size →
        (node_at (swap_state C q i c) (2 * k + 1)).max ≤ (node_at (swap_state C q i c) k).max) ∧
      (2 * k + 2 < (swap_state C q i c).size →
        (node_at (swap_state C q i c) (2 * k + 2)).max ≤ (node_at (swap_state C q i c) k).max) := by
    intro k hck hk hks
    rw [swap_state_size] at hks ⊢
    rw [swap_state_node_at C q i c _ (by omega) (by omega) (by omega),
      swap_state_node_at C q i c _ (by omega) (by omega) (by omega),
      swap_state_node_at C q i c _ (by omega) (by omega) (by omega),
      if_neg (by omega), if_neg (by omega), if_neg (by omega), if_neg (by omega),
      if_neg (by omega), if_neg (by omega)]
    exact hcq k hk hks
  constructor
  · intro k hk hks
    exact key k (by have := in_subtree_le hk; omega) (.left hk) hks
  · intro k hk hks
    exact key k (by have := in_subtree_le hk; omega) (.right hk) hks

/-- The inductive step of the sift-down: what holds after the swap of `i` with
its child `c` and the sift-down from `c`. -/
theorem sift_swap (C : Nat) (q q3 : pq) (i c : Nat)
    (hn : q.size ≤ q.nodes.length) (hc : c = 2 * i + 1 ∨ c = 2 * i + 2) (hcs : c < q.size)
    (hl : heap_at q (2 * i + 1)) (hr : heap_at q (2 * i + 2))
    (hgt : (node_at q c).max > (node_at q i).max)
    (hsib : ∀ s, (s = 2 * i + 1 ∨ s = 2 * i + 2) → s < q.size →
      (node_at q s).max ≤ (node_at q c).max)
    (h3s : q3.size = q.size)
    (h3f : ∀ k, ¬ in_subtree c k → node_at q3 k = node_at (swap_state C q i c) k)
    (h3h : heap_at q3 c) (h3r : sift_rule (swap_state C q i c) q3 c) :
    (∀ k, ¬ in_subtree i k → node_at q3 k = node_at q k) ∧ heap_at q3 i ∧
      node_at q3 i = node_at q c := by
  have hic : i < c := by omega
  have hsw : ∀ k, node_at (swap_state C q i c) k =
      if k = c then node_at q i else if k = i then node_at q c else node_at q k :=
    fun k => swap_state_node_at C q i c k (by omega) (by omega) (by omega)
  have hci : ∀ k, in_subtree c k → in_subtree i k := by
    intro k hk
    rcases hc with h | h
    · rw [h] at hk; exact .left hk
    · rw [h] at hk; exact .right hk
  have hcq : heap_at q c := by
    rcases hc with h | h
    · rw [h]; exact hl
    · rw [h]; exact hr
  -- position `i`
  have hi3 : node_at q3 i = node_at q c := by
    rw [h3f i (fun h => by have := in_subtree_le h; omega), hsw, if_neg (by omega), if_pos rfl]
  -- the subtree of the sibling of `c` is untouched
  have hun : ∀ s x, (s = 2 * i + 1 ∨ s = 2 * i + 2) → s ≠ c → in_subtree s x →
      node_at q3 x = node_at q x := by
    intro s x hs hsc hx
    have hnc : ¬ in_subtree c x := by
      intro hcx
      rcases hs with h | h <;> rcases hc with h' | h'
      · omega
      · rw [h] at hx; rw [h'] at hcx; exact in_subtree_disjoint i x hx hcx
      · rw [h] at hx; rw [h'] at hcx; exact in_subtree_disjoint i x hcx hx
      · omega
    have hxc : x ≠ c := fun h => hnc (h ▸ .root c)
    have hxi : x ≠ i := by have := in_subtree_le hx; omega
    rw [h3f x hnc, hsw, if_neg hxc, if_neg hxi]
  -- the children of `i`
  have hch : ∀ s, (s = 2 * i + 1 ∨ s = 2 * i + 2) → s < q.size →
      (node_at q3 s).max ≤ (node_at q3 i).max := by
    intro s hs hss
    rw [hi3]
    by_cases hsc : s = c
    · rw [hsc]
      rcases h3r with ⟨_, _, h⟩ | ⟨h1, _, _, h⟩ | ⟨h1, _, _, h⟩
      · have : node_at q3 c = node_at (swap_state C q i c) c := by
          unfold node_at; rw [h]
        rw [this, hsw, if_pos rfl]
        omega
      · rw [swap_state_size] at h1
        rw [h, hsw, if_neg (by omega), if_neg (by omega)]
        exact (hcq c (.root c) hcs).1 h1
      · rw [swap_state_size] at h1
        rw [h, hsw, if_neg (by omega), if_neg (by omega)]
        exact (hcq c (.root c) hcs).2 h1
    · rw [hun s s hs hsc (.root s)]
      exact hsib s hs hss
  refine ⟨?_, ?_, hi3⟩
  · intro k hk
    have hkc : ¬ in_subtree c k := fun h => hk (hci k h)
    have hki : k ≠ i := fun h => hk (h ▸ .root i)
    have hkc2 : k ≠ c := fun h => hkc (h ▸ .root c)
    rw [h3f k hkc, hsw, if_neg hkc2, if_neg hki]
  · intro k hk hks
    rw [h3s] at hks ⊢
    have sub : ∀ s, (s = 2 * i + 1 ∨ s = 2 * i + 2) → in_subtree s k →
        (2 * k + 1 < q.size → (node_at q3 (2 * k + 1)).max ≤ (node_at q3 k).max) ∧
        (2 * k + 2 < q.size → (node_at q3 (2 * k + 2)).max ≤ (node_at q3 k).max) := by
      intro s hs hsk
      by_cases hsc : s = c
      · rw [hsc] at hsk
        have := h3h k hsk (by rw [h3s]; exact hks)
        rw [h3s] at this
        exact this
      · rw [hun s k hs hsc hsk, hun s _ hs hsc (in_subtree_child hsk).1,
          hun s _ hs hsc (in_subtree_child hsk).2]
        rcases hs with h | h
        · rw [h] at hsk; exact hl k hsk hks
        · rw [h] at hsk; exact hr k hsk hks
    cases hk with
    | root => exact ⟨fun h => hch _ (Or.inl rfl) h, fun h => hch _ (Or.inr rfl) h⟩
    | left h => exact sub _ (Or.inl rfl) h
    | right h => exact sub _ (Or.inr rfl) h

theorem pq_heapify_sift (C : Nat) :
    ∀ (fuel : Nat) (q : pq) (i : Nat), q.size ≤ q.nodes.length → q.size < i + fuel →
      0 < fuel → heap_at q (2 * i + 1) → heap_at q (2 * i + 2) →
      ∃ q1, pq_heapify C fuel q i = .ok q1 ∧ q1.size = q.size ∧
        (q1.nodes.take q.size).Perm (q.nodes.take q.size) ∧
        q1.nodes.drop q.size = q.nodes.drop q.size ∧
        (∀ k, ¬ in_subtree i k → node_at q1 k = node_at q k) ∧
        heap_at q1 i ∧ sift_rule q q1 i := by
  intro fuel
  induction fuel with
  | zero => intro q i _ _ h0; omega
  | succ fuel ih =>
    intro q i hn hf _ hl hr
    have swap : ∀ c, heapify_largest q i = c → (c = 2 * i + 1 ∨ c = 2 * i + 2) → c < q.size →
        (node_at q c).max > (node_at q i).max →
        (∀ s, (s = 2 * i + 1 ∨ s = 2 * i + 2) → s < q.size →
          (node_at q s).max ≤ (node_at q c).max) →
        ∃ q1, pq_heapify C (fuel + 1) q i = .ok q1 ∧ q1.size = q.size ∧
          (q1.nodes.take q.size).Perm (q.nodes.take q.size) ∧
          q1.nodes.drop q.size = q.nodes.drop q.size ∧
          (∀ k, ¬ in_subtree i k → node_at q1 k = node_at q k) ∧
          heap_at q1 i ∧ node_at q1 i = node_at q c := by
      intro c hlc hc hcs hgt hsib
      have hch := swap_heap_children C q i c hn hc hcs hl hr
      obtain ⟨q3, h3, h3s, h3p, h3d, h3f, h3h, h3r⟩ := ih (swap_state C q i c) c
        (by rw [swap_state_size, swap_state_length]; exact hn)
        (by rw [swap_state_size]; omega) (by omega) hch.1 hch.2
      rw [swap_state_size] at h3s h3p h3d
      have hs := sift_swap C q q3 i c hn hc hcs hl hr hgt hsib h3s h3f h3h h3r
      rw [pq_heapify_step, hlc, if_pos (by omega), h3]
      refine ⟨cache_set C q3 i, rfl, by rw [cache_set_size, h3s], ?_, ?_, ?_, ?_, ?_⟩
      · rw [cache_set_nodes]
        exact h3p.trans (swap_state_take C q i c hn (by omega) hcs)
      · rw [cache_set_nodes, h3d]
        exact swap_state_drop C q i c (by omega) hcs
      · intro k hk
        rw [cache_set_node_at]
        exact hs.1 k hk
      · intro k hk hks
        rw [cache_set_size] at hks ⊢
        simp only [cache_set_node_at]
        exact hs.2.1 k hk hks
      · rw [cache_set_node_at]
        exact hs.2.2
    rcases heapify_largest_rule q i with ⟨hc, h1, h2⟩ | ⟨hc, hcs, hgt, hsib⟩ |
      ⟨hc, hcs, hgt, hsib⟩
    · rw [pq_heapify_step, hc, if_neg (by simp)]
      refine ⟨_, rfl, cache_set_size .., by rw [cache_set_nodes], by rw [cache_set_nodes],
        fun k _ => cache_set_node_at .., ?_, Or.inl ⟨h1, h2, cache_set_nodes ..⟩⟩
      intro k hk hks
      rw [cache_set_size] at hks ⊢
      simp only [cache_set_node_at]
      cases hk with
      | root => exact ⟨h1, h2⟩
      | left h => exact hl k h hks
      | right h => exact hr k h hks
    · obtain ⟨q1, e, a1, a2, a3, a4, a5, a6⟩ := swap (2 * i + 1) hc (Or.inl rfl) hcs hgt
        (by
          intro s hs hss
          rcases hs with h | h
          · rw [h]
          · rw [h]; exact hsib (by omega))
      exact ⟨q1, e, a1, a2, a3, a4, a5, Or.inr (Or.inl ⟨hcs, hgt, hsib, a6⟩)⟩
    · obtain ⟨q1, e, a1, a2, a3, a4, a5, a6⟩ := swap (2 * i + 2) hc (Or.inr rfl) hcs hgt
        (by
          intro s hs hss
          rcases hs with h | h
          · rw [h]; exact le_of_lt (hsib (by omega))
          · rw [h])
      exact ⟨q1, e, a1, a2, a3, a4, a5, Or.inr (Or.inr ⟨hcs, hgt, hsib, a6⟩)⟩

end PQ

namespace PQ

theorem pq_heapify_mono (C : Nat) :
    ∀ (fuel : Nat) (q : pq) (i : Nat) (q1 : pq), pq_heapify C fuel q i = .ok q1 →
      pq_heapify C (fuel + 1) q i = .ok q1 := by
  intro fuel
  induction fuel with
  | zero => intro q i q1 h; simp [pq_heapify] at h
  | succ fuel ih =>
    intro q i q1 h
    rw [pq_heapify_step] at h
    rw [pq_heapify_step]
    by_cases hc : heapify_largest q i ≠ i
    · rw [if_pos hc] at h ⊢
      cases hrec : pq_heapify C fuel (swap_state C q i (heapify_largest q i))
          (heapify_largest q i) with
      | error e => rw [hrec] at h; cases h
      | ok q3 =>
        rw [hrec] at h
        rw [ih _ _ _ hrec]
        exact h
    · rw [if_neg hc] at h ⊢
      exact h

theorem pq_heapify_fuel (C : Nat) (fuel : Nat) (q : pq) (i : Nat) (q1 : pq)
    (h : pq_heapify C fuel q i = .ok q1) :
    ∀ k, pq_heapify C (fuel + k) q i = .ok q1 := by
  intro k
  induction k with
  | zero => exact h
  | succ k ih => exact pq_heapify_mono C _ _ _ _ ih

theorem pq_heapify_unique (C : Nat) (f1 f2 : Nat) (q : pq) (i : Nat) (q1 q2 : pq)
    (h1 : pq_heapify C f1 q i = .ok q1) (h2 : pq_heapify C f2 q i = .ok q2) : q1 = q2 := by
  rcases Nat.le_total f1 f2 with h | h
  · obtain ⟨k, rfl⟩ := Nat.exists_eq_add_of_le h
    rw [pq_heapify_fuel C f1 q i q1 h1 k] at h2
    injection h2
  · obtain ⟨k, rfl⟩ := Nat.exists_eq_add_of_le h
    rw [pq_heapify_fuel C f2 q i q2 h2 k] at h1
    injection h1 with h1
    exact h1.symm

theorem heap_at_leaf (q : pq) (j : Nat) (h : q.size ≤ 2 * j + 1) : heap_at q j := by
  intro k hk hks
  have := in_subtree_le hk
  exact ⟨fun h1 => by omega, fun h1 => by omega⟩

/-- C14: `pq_heapify(i)` is a sift-down on the `max` keys.  For `i < size` whose
two child subtrees are in heap order, the call returns, with the same state for
every recursion budget that reaches the leaves; the directory keeps its length,
the descriptors are a permutation of what they were, nothing outside the
subtree of `i` and nothing behind the directory changes, and the subtree of `i`
is in heap order afterwards.  Position `i` keeps its descriptor and nothing is
swapped when no child has a strictly greater `max`; otherwise it receives the
descriptor of the left child when that one is strictly greater than `i` and not
below the right child (ties go to the left), and of the right child when that
one is strictly greater than both. -/
theorem heapify_sift_down (C : Nat) (q : pq) (i : Nat) (hi : i < q.size)
    (hn : q.size ≤ q.nodes.length)
    (hl : heap_at q (2 * i + 1)) (hr : heap_at q (2 * i + 2)) :
    ∃ q1, (∀ fuel, q.size < i + fuel → pq_heapify C fuel q i = .ok q1) ∧
      q1.size = q.size ∧ q1.nodes.Perm q.nodes ∧
      (q1.nodes.take q.size).Perm (q.nodes.take q.size) ∧
      q1.nodes.drop q.size = q.nodes.drop q.size ∧
      (∀ k, ¬ in_subtree i k → node_at q1 k = node_at q k) ∧
      heap_at q1 i ∧ sift_rule q q1 i := by
  obtain ⟨q1, h1, a1, a2, a3, a4, a5, a6⟩ :=
    pq_heapify_sift C (q.size + 1) q i hn (by omega) (by omega) hl hr
  refine ⟨q1, ?_, a1, ?_, a2, a3, a4, a5, a6⟩
  · intro fuel hf
    obtain ⟨q2, h2⟩ := pq_heapify_returns C fuel q i hf (by omega)
    rw [h2, pq_heapify_unique C _ _ q i q1 q2 h1 h2]
  · have := List.Perm.append a2 (List.Perm.of_eq a3)
    rw [List.take_append_drop, List.take_append_drop] at this
    exact this

theorem heapify_sift_down_witness :
    ∃ q1, (∀ fuel, sample_heap.size < 0 + fuel → pq_heapify 4 fuel sample_heap 0 = .ok q1) ∧
      q1.size = sample_heap.size ∧ q1.nodes.Perm sample_heap.nodes ∧
      (q1.nodes.take sample_heap.size).Perm (sample_heap.nodes.take sample_heap.size) ∧
      q1.nodes.drop sample_heap.size = sample_heap.nodes.drop sample_heap.size ∧
      (∀ k, ¬ in_subtree 0 k → node_at q1 k = node_at sample_heap k) ∧
      heap_at q1 0 ∧ sift_rule sample_heap q1 0 :=
  heapify_sift_down 4 sample_heap 0 (by decide) (by decide)
    (by
      intro k hk hks
      have h1 := in_subtree_le hk
      have h2 : k < 4 := hks
      interval_cases k <;> decide)
    (heap_at_leaf sample_heap 2 (by decide))

/-! ## Compaction -/

end PQ
